import Mathlib

/-!
Verification of the TaxiGreen fleet-dispatch system (Python sources under
`src/`) against its natural-language specification.

Conventions of the shallow embedding:

* Python `float` values are modelled as exact rationals (`ℚ`); IEEE rounding
  is outside the scope of every claim treated here.  Where the source relies
  on the float infinity `float('inf')` the embedding uses `WithTop ℚ`.
* Python `dict`s are modelled as association lists with insertion-order
  semantics: updating an existing key keeps its position, a new key is
  appended (`dSet`), exactly like CPython's ordered dicts.
* Wall-clock values (`datetime.now()`, `tempo_execucao`) are modelled by
  explicit rational "minute" parameters; elapsed-time measurement fields are
  fixed to 0.
* `while` loops are modelled with an explicit fuel argument; the top-level
  entry points supply a fuel value that is proven sufficient, so the fuelled
  function agrees with the unbounded Python loop on every real execution.
-/

/-! ## Ordered-dict helpers (CPython dict semantics) -/

/-- Lookup in an insertion-ordered dict (first binding wins; keys are unique
by construction of `dSet`). -/
def dGet {β : Type} (l : List (String × β)) (k : String) : Option β :=
  match l with
  | [] => none
  | (k', v) :: rest => if k' = k then some v else dGet rest k

/-- CPython dict update: an existing key keeps its position, a new key is
appended at the end. -/
def dSet {β : Type} (l : List (String × β)) (k : String) (v : β) : List (String × β) :=
  match l with
  | [] => [(k, v)]
  | (k', v') :: rest => if k' = k then (k', v) :: rest else (k', v') :: dSet rest k v

theorem dGet_dSet_self {β : Type} (l : List (String × β)) (k : String) (v : β) :
    dGet (dSet l k v) k = some v := by
  induction l with
  | nil => simp [dGet, dSet]
  | cons hd tl ih =>
    obtain ⟨k', v'⟩ := hd
    by_cases h : k' = k <;> simp [dGet, dSet, h, ih]

theorem dGet_dSet_ne {β : Type} (l : List (String × β)) (k k' : String) (v : β)
    (h : k ≠ k') : dGet (dSet l k v) k' = dGet l k' := by
  induction l with
  | nil => simp [dGet, dSet, h]
  | cons hd tl ih =>
    obtain ⟨k₀, v₀⟩ := hd
    by_cases h₀ : k₀ = k
    · subst h₀
      simp [dGet, dSet, h]
    · simp only [dSet, if_neg h₀, dGet]
      by_cases h₁ : k₀ = k' <;> simp [h₁, ih]

theorem dSet_keys {β : Type} (l : List (String × β)) (k : String) (v : β) :
    (dSet l k v).map Prod.fst = l.map Prod.fst ∨
      (dSet l k v).map Prod.fst = l.map Prod.fst ++ [k] := by
  induction l with
  | nil => simp [dSet]
  | cons hd tl ih =>
    obtain ⟨k₀, v₀⟩ := hd
    by_cases h₀ : k₀ = k
    · left; simp [dSet, h₀]
    · rcases ih with h | h
      · left; simp [dSet, h₀, h]
      · right; simp [dSet, h₀, h]

/-! ## Graph model (`src/src/core/grafo.py`) -/

/-- Node of the city graph (`class No`).  `nome` defaults to the id, see
`No.mk'`. -/
structure No where
  id : String
  tipo : String
  coords : ℚ × ℚ
  nome : String
  capacidade_recarga : ℤ
  zona : String
deriving Repr, DecidableEq

/-- Constructor of `No`: `nome = nome if nome else id` (empty/absent name
falls back to the id, mirroring Python falsiness of `None`). -/
def No.mk' (id tipo : String) (coords : ℚ × ℚ) (nome : Option String)
    (capacidade_recarga : ℤ) (zona : String) : No :=
  { id := id, tipo := tipo, coords := coords,
    nome := match nome with
      | some n => if n = "" then id else n
      | none => id,
    capacidade_recarga := capacidade_recarga, zona := zona }

/-- Edge record (`class Aresta`). -/
structure Aresta where
  origem : String
  destino : String
  distancia : ℚ
  tempo_base : ℚ
  fator_transito : ℚ
deriving Repr, DecidableEq

/-- Constructor of `Aresta`: `tempo_base = tempo_base if tempo_base else
(distancia / 40.0) * 60.0` — note the Python falsiness check, which treats a
given `0.0` like `None`. -/
def Aresta.mk' (origem destino : String) (distancia : ℚ) (tempo_base : Option ℚ)
    (fator_transito : ℚ) : Aresta :=
  { origem := origem, destino := destino, distancia := distancia,
    tempo_base := match tempo_base with
      | some t => if t = 0 then distancia / 40 * 60 else t
      | none => distancia / 40 * 60,
    fator_transito := fator_transito }

/-- Travel time under congestion (`Aresta.tempo_atual`). -/
def Aresta.tempo_atual (a : Aresta) : ℚ :=
  a.tempo_base * a.fator_transito

/-- The city graph (`class Grafo`): `nos` is a dict id → node, `arestas` is a
defaultdict origin → (dict destination → edge). -/
structure Grafo where
  nos : List (String × No)
  arestas : List (String × List (String × Aresta))
  direcional : Bool
deriving Repr, DecidableEq

/-- Empty graph (`Grafo.__init__`). -/
def Grafo.vazio (direcional : Bool) : Grafo :=
  { nos := [], arestas := [], direcional := direcional }

/-- `Grafo.adicionar_no`. -/
def Grafo.adicionar_no (g : Grafo) (id tipo : String) (coords : ℚ × ℚ)
    (nome : Option String) (capacidade_recarga : ℤ) (zona : String) : Grafo :=
  { g with nos := dSet g.nos id (No.mk' id tipo coords nome capacidade_recarga zona) }

/-- Nested defaultdict write `self.arestas[origem][destino] = aresta`
(accessing a missing origin key creates an empty inner dict). -/
def dSetA (m : List (String × List (String × Aresta))) (o d : String) (a : Aresta) :
    List (String × List (String × Aresta)) :=
  dSet m o (dSet ((dGet m o).getD []) d a)

/-- `Grafo.adicionar_aresta`.  The source raises `ValueError` when an endpoint
is missing (modelled by `none`).  The `distancia` parameter is taken
explicitly: the source's `distancia=None` branch auto-computes the real-valued
Euclidean distance, a branch that is symmetric in the two endpoints and is
exercised by none of the claims under scrutiny, while the embedding keeps all
edge weights rational. -/
def Grafo.adicionar_aresta (g : Grafo) (origem destino : String) (distancia : ℚ)
    (tempo_base : Option ℚ) (fator_transito : ℚ) (bidirecional : Bool) : Option Grafo :=
  if (dGet g.nos origem).isNone ∨ (dGet g.nos destino).isNone then none
  else
    let aresta := Aresta.mk' origem destino distancia tempo_base fator_transito
    let arestas1 := dSetA g.arestas origem destino aresta
    if !g.direcional || bidirecional then
      let aresta_reversa := Aresta.mk' destino origem distancia tempo_base fator_transito
      some { g with arestas := dSetA arestas1 destino origem aresta_reversa }
    else
      some { g with arestas := arestas1 }

/-- `Grafo.obter_vizinhos` (`self.arestas.get(no_id, {})`). -/
def Grafo.obter_vizinhos (g : Grafo) (no_id : String) : List (String × Aresta) :=
  (dGet g.arestas no_id).getD []

/-- Edge lookup `self.arestas[origem][destino]` guarded by the two membership
tests the source performs. -/
def Grafo.aresta? (g : Grafo) (origem destino : String) : Option Aresta :=
  match dGet g.arestas origem with
  | none => none
  | some viz => dGet viz destino

/-- `Grafo.atualizar_transito`: sets the congestion factor of the single edge
`origem → destino` when it exists, and does nothing otherwise.  The reverse
edge is not touched. -/
def Grafo.atualizar_transito (g : Grafo) (origem destino : String) (fator : ℚ) : Grafo :=
  match dGet g.arestas origem with
  | none => g
  | some viz =>
    match dGet viz destino with
    | none => g
    | some a =>
      let viz' := dSet viz destino { a with fator_transito := fator }
      { g with arestas := dSet g.arestas origem viz' }

/-- Raw nested lookup `m[o][d]` used to reason about `Grafo.aresta?`
independently of the record wrapper. -/
def mGet (m : List (String × List (String × Aresta))) (o d : String) : Option Aresta :=
  match dGet m o with
  | none => none
  | some viz => dGet viz d

theorem aresta?_eq_mGet (g : Grafo) (o d : String) :
    g.aresta? o d = mGet g.arestas o d := rfl

theorem mGet_dSetA_self (m : List (String × List (String × Aresta))) (o d : String)
    (a : Aresta) : mGet (dSetA m o d a) o d = some a := by
  simp only [mGet, dSetA, dGet_dSet_self]

theorem mGet_dSetA_ne (m : List (String × List (String × Aresta))) (o d o' d' : String)
    (a : Aresta) (h : o' ≠ o ∨ d' ≠ d) :
    mGet (dSetA m o d a) o' d' = mGet m o' d' := by
  by_cases ho : o' = o
  · subst ho
    have hd : d' ≠ d := h.resolve_left (by simp)
    have hd' : d ≠ d' := fun hh => hd hh.symm
    cases hvo : dGet m o' with
    | none =>
      simp only [mGet, dSetA, hvo, dGet_dSet_self, Option.getD_none]
      simp [dSet, dGet, hd']
    | some viz =>
      simp only [mGet, dSetA, hvo, dGet_dSet_self, Option.getD_some]
      rw [dGet_dSet_ne _ _ _ _ hd']
  · have ho' : o ≠ o' := fun hh => ho hh.symm
    simp only [mGet, dSetA, dGet_dSet_ne _ _ _ _ ho']

/-! ## Claim C7: paired edge records of an undirected graph -/

/-- Two-node undirected graph used to exercise `atualizar_transito`; the base
travel time is given explicitly (2 minutes). -/
def grafoC7base : Grafo :=
  ((Grafo.vazio false).adicionar_no "A" "zona_pickup" (0, 0) none 0 "periferia").adicionar_no
    "B" "zona_pickup" (1, 0) none 0 "periferia"

/-- The two-node graph with the single undirected edge `A – B`. -/
def grafoC7 : Grafo :=
  (grafoC7base.adicionar_aresta "A" "B" 1 (some 2) 1 true).getD grafoC7base

/-- C7 counterexample: in an undirected graph, `atualizar_transito "A" "B" 2`
sets the congestion factor of `A → B` to `2` but leaves `B → A` at `1`, so a
congestion update does not preserve the equality of the paired edge records
asserted by the claim. -/
theorem C7_counterexample :
    grafoC7base.adicionar_aresta "A" "B" 1 (some 2) 1 true = some grafoC7 ∧
    grafoC7base.direcional = false ∧
    (grafoC7.aresta? "A" "B").map Aresta.fator_transito = some 1 ∧
    (grafoC7.aresta? "B" "A").map Aresta.fator_transito = some 1 ∧
    ((grafoC7.atualizar_transito "A" "B" 2).aresta? "A" "B").map Aresta.fator_transito =
      some 2 ∧
    ((grafoC7.atualizar_transito "A" "B" 2).aresta? "B" "A").map Aresta.fator_transito =
      some 1 ∧
    (2 : ℚ) ≠ 1 := by
  decide

/-- C7 (amended): `adicionar_aresta` on a non-directional graph creates the
two directed edge records with identical distance, base time and congestion
factor; but `atualizar_transito` updates only the stated direction — every
other edge record, in particular the reverse one, keeps its previous value,
so the equality of paired records is not preserved by congestion updates. -/
theorem C7_undirected_edge_sync :
    (∀ (g g' : Grafo) (o d : String) (dist : ℚ) (tb : Option ℚ) (f : ℚ) (bid : Bool),
      g.direcional = false →
      g.adicionar_aresta o d dist tb f bid = some g' →
      ∃ a a', g'.aresta? o d = some a ∧ g'.aresta? d o = some a' ∧
        a.distancia = a'.distancia ∧ a.tempo_base = a'.tempo_base ∧
        a.fator_transito = a'.fator_transito) ∧
    (∀ (g : Grafo) (o d u v : String) (f : ℚ), ¬(u = o ∧ v = d) →
      (g.atualizar_transito o d f).aresta? u v = g.aresta? u v) := by
  constructor
  · intro g g' o d dist tb f bid hdir hadd
    unfold Grafo.adicionar_aresta at hadd
    by_cases hguard : (dGet g.nos o).isNone ∨ (dGet g.nos d).isNone
    · rw [if_pos hguard] at hadd
      exact Option.noConfusion hadd
    · rw [if_neg hguard, hdir] at hadd
      simp only [Bool.not_false, Bool.true_or, if_true] at hadd
      set ar := Aresta.mk' o d dist tb f with har
      set rev := Aresta.mk' d o dist tb f with hrev
      have hg' : g'.arestas = dSetA (dSetA g.arestas o d ar) d o rev := by
        cases hadd
        rfl
      have hdo : g'.aresta? d o = some rev := by
        rw [aresta?_eq_mGet, hg', mGet_dSetA_self]
      by_cases hod : o = d
      · subst hod
        exact ⟨rev, rev, hdo, hdo, rfl, rfl, rfl⟩
      · have hodA : g'.aresta? o d = some ar := by
          rw [aresta?_eq_mGet, hg', mGet_dSetA_ne _ _ _ _ _ _ (Or.inl hod),
            mGet_dSetA_self]
        refine ⟨ar, rev, hodA, hdo, rfl, ?_, rfl⟩
        rw [har, hrev]
        rfl
  · intro g o d u v f hne
    have huv : u ≠ o ∨ v ≠ d := by
      by_cases hu : u = o
      · exact Or.inr fun hv => hne ⟨hu, hv⟩
      · exact Or.inl hu
    unfold Grafo.atualizar_transito
    cases hvo : dGet g.arestas o with
    | none => rfl
    | some viz =>
      cases hvd : dGet viz d with
      | none => simp only [hvd]
      | some a =>
        simp only [hvd]
        have hA : dSetA g.arestas o d { a with fator_transito := f } =
            dSet g.arestas o (dSet viz d { a with fator_transito := f }) := by
          unfold dSetA
          rw [hvo]
          rfl
        rw [aresta?_eq_mGet, aresta?_eq_mGet]
        show mGet (dSet g.arestas o (dSet viz d { a with fator_transito := f })) u v =
          mGet g.arestas u v
        rw [← hA, mGet_dSetA_ne _ _ _ _ _ _ huv]

/-- Witness for `C7_undirected_edge_sync`: both conjuncts applied at the
concrete two-node graph. -/
theorem C7_witness :
    (∃ a a', grafoC7.aresta? "A" "B" = some a ∧ grafoC7.aresta? "B" "A" = some a' ∧
      a.distancia = a'.distancia ∧ a.tempo_base = a'.tempo_base ∧
      a.fator_transito = a'.fator_transito) ∧
    (grafoC7.atualizar_transito "A" "B" 2).aresta? "B" "A" = grafoC7.aresta? "B" "A" := by
  constructor
  · exact C7_undirected_edge_sync.1 grafoC7base grafoC7 "A" "B" 1 (some 2) 1 true
      (by decide) (by decide)
  · exact C7_undirected_edge_sync.2 grafoC7 "A" "B" "B" "A" 2 (by decide)

/-! ## Request model (`src/src/core/pedido.py`) -/

/-- Priority levels (`PrioridadePedido`). -/
inductive PrioridadePedido
  | NORMAL
  | PREMIUM
  | CRITICO
deriving Repr, DecidableEq

/-- Request lifecycle states (`EstadoPedido`). -/
inductive EstadoPedido
  | PENDENTE
  | ATRIBUIDO
  | EM_CURSO
  | CONCLUIDO
  | CANCELADO
  | REJEITADO
  | EXPIRADO
deriving Repr, DecidableEq

/-- Environmental preference (`PreferenciaAmbiental`). -/
inductive PreferenciaAmbiental
  | INDIFERENTE
  | PREFERENCIA_ELETRICO
  | APENAS_ELETRICO
deriving Repr, DecidableEq

/-- Transport request (`class Pedido`), restricted to the fields the claims
read or write.  Timestamps are simulation minutes (`ℚ`); `veiculo_atribuido`
is an address into the object store used for the simulation claims. -/
structure Pedido where
  id : String
  origem : String
  destino : String
  num_passageiros : ℤ
  timestamp : ℚ
  prioridade : PrioridadePedido
  preferencia_ambiental : PreferenciaAmbiental
  tempo_espera_maximo : ℚ
  estado : EstadoPedido
  escalado_para_critico : Bool
  veiculo_atribuido : Option ℕ
  timestamp_atribuicao : Option ℚ
  tempo_espera_real : Option ℚ
deriving Repr, DecidableEq

/-- `Pedido.verificar_e_escalar_prioridade`: returns the (possibly mutated)
request together with the result string. -/
def Pedido.verificar_e_escalar_prioridade (p : Pedido) (tempo_atual : ℚ) :
    Pedido × String :=
  if p.estado ≠ EstadoPedido.PENDENTE then (p, "OK")
  else
    let tempo_decorrido := tempo_atual - p.timestamp
    let percentagem_tempo := tempo_decorrido / p.tempo_espera_maximo * 100
    if percentagem_tempo ≥ 100 then (p, "EXPIRAR")
    else if percentagem_tempo ≥ 70 ∧ p.escalado_para_critico = false then
      ({ p with prioridade := PrioridadePedido.CRITICO,
                escalado_para_critico := true }, "ESCALADO_CRITICO")
    else (p, "OK")

/-- `Pedido.marcar_expirado`. -/
def Pedido.marcar_expirado (p : Pedido) : Pedido :=
  { p with estado := EstadoPedido.EXPIRADO }

/-- Elapsed-time percentage used by `verificar_e_escalar_prioridade`. -/
def Pedido.percentagem (p : Pedido) (tempo_atual : ℚ) : ℚ :=
  (tempo_atual - p.timestamp) / p.tempo_espera_maximo * 100

/-- One request followed through a sequence of simulation ticks, mirroring
`Simulador.atualizar_prioridades_pedidos` restricted to that request: each
tick runs `verificar_e_escalar_prioridade`; on `"EXPIRAR"` the request is
marked expired and removed from the pending pool (no further checks). -/
def runChecks (p : Pedido) (ts : List ℚ) : Pedido × List String :=
  match ts with
  | [] => (p, [])
  | t :: rest =>
    let pr := p.verificar_e_escalar_prioridade t
    if pr.2 = "EXPIRAR" then (pr.1.marcar_expirado, [pr.2])
    else
      let prf := runChecks pr.1 rest
      (prf.1, pr.2 :: prf.2)

/-- Escalated copy of a request: the mutation performed by the 70 %-branch of
`verificar_e_escalar_prioridade`. -/
def Pedido.escalar (p : Pedido) : Pedido :=
  { p with prioridade := PrioridadePedido.CRITICO, escalado_para_critico := true }

theorem runChecks_cons (p : Pedido) (t : ℚ) (rest : List ℚ) :
    runChecks p (t :: rest) =
      if (p.verificar_e_escalar_prioridade t).2 = "EXPIRAR" then
        ((p.verificar_e_escalar_prioridade t).1.marcar_expirado,
          [(p.verificar_e_escalar_prioridade t).2])
      else
        ((runChecks (p.verificar_e_escalar_prioridade t).1 rest).1,
          (p.verificar_e_escalar_prioridade t).2 ::
            (runChecks (p.verificar_e_escalar_prioridade t).1 rest).2) := rfl

/-- Case analysis of a single priority check: the call either leaves the
request untouched returning `"OK"`, leaves it untouched returning
`"EXPIRAR"` (pending, ≥ 100 % of max wait), or escalates it (pending,
in the 70 %–100 % window, not yet escalated). -/
theorem verificar_cases (p : Pedido) (t : ℚ) :
    (p.verificar_e_escalar_prioridade t = (p, "OK") ∧
      (p.estado ≠ EstadoPedido.PENDENTE ∨
        (p.percentagem t < 100 ∧
          (p.percentagem t < 70 ∨ p.escalado_para_critico = true)))) ∨
    (p.verificar_e_escalar_prioridade t = (p, "EXPIRAR") ∧
      p.estado = EstadoPedido.PENDENTE ∧ 100 ≤ p.percentagem t) ∨
    (p.verificar_e_escalar_prioridade t = (p.escalar, "ESCALADO_CRITICO") ∧
      p.estado = EstadoPedido.PENDENTE ∧ 70 ≤ p.percentagem t ∧
      p.percentagem t < 100 ∧ p.escalado_para_critico = false) := by
  unfold Pedido.verificar_e_escalar_prioridade
  by_cases h1 : p.estado ≠ EstadoPedido.PENDENTE
  · left
    rw [if_pos h1]
    exact ⟨rfl, Or.inl h1⟩
  · rw [if_neg h1]
    rw [not_not] at h1
    by_cases h2 : (t - p.timestamp) / p.tempo_espera_maximo * 100 ≥ 100
    · right; left
      rw [if_pos h2]
      exact ⟨rfl, h1, h2⟩
    · rw [if_neg h2]
      by_cases h3 : (t - p.timestamp) / p.tempo_espera_maximo * 100 ≥ 70 ∧
          p.escalado_para_critico = false
      · right; right
        rw [if_pos h3]
        exact ⟨rfl, h1, h3.1, lt_of_not_le h2, h3.2⟩
      · left
        rw [if_neg h3]
        refine ⟨rfl, Or.inr ⟨lt_of_not_le h2, ?_⟩⟩
        by_cases h4 : (70 : ℚ) ≤ (t - p.timestamp) / p.tempo_espera_maximo * 100
        · right
          rcases Bool.eq_false_or_eq_true p.escalado_para_critico with ht | hf
          · exact ht
          · exact absurd ⟨h4, hf⟩ h3
        · exact Or.inl (lt_of_not_le h4)

/-- The percentage is monotone in the check time when the maximum wait is
positive. -/
theorem percentagem_mono (p : Pedido) (hm : 0 < p.tempo_espera_maximo)
    {t t' : ℚ} (h : t ≤ t') : p.percentagem t ≤ p.percentagem t' := by
  unfold Pedido.percentagem
  gcongr

/-- Escalation can fire at most once along any check sequence: once the
`escalado_para_critico` flag is set no later check escalates again. -/
theorem runChecks_count_le (p : Pedido) (ts : List ℚ) :
    ((runChecks p ts).2.count "ESCALADO_CRITICO") ≤
      (if p.escalado_para_critico then 0 else 1) := by
  induction ts generalizing p with
  | nil =>
    simp [runChecks]
  | cons t rest ih =>
    rw [runChecks_cons]
    rcases verificar_cases p t with ⟨hc, _⟩ | ⟨hc, _⟩ | ⟨hc, _, _, _, hflag⟩
    · rw [hc, if_neg (by decide : ¬("OK" : String) = "EXPIRAR")]
      have h2 := ih p
      simp only [List.count_cons]
      have hb : (("OK" : String) == "ESCALADO_CRITICO") = false := by decide
      rw [hb]
      simpa using h2
    · rw [hc, if_pos rfl]
      have : (["EXPIRAR"] : List String).count "ESCALADO_CRITICO" = 0 := by decide
      rw [this]
      omega
    · rw [hc, if_neg (by decide : ¬("ESCALADO_CRITICO" : String) = "EXPIRAR")]
      have h2 := ih p.escalar
      rw [show p.escalar.escalado_para_critico = true from rfl, if_pos rfl] at h2
      rw [hflag]
      simp only [List.count_cons, Bool.false_eq_true, if_false]
      have hb : (("ESCALADO_CRITICO" : String) == "ESCALADO_CRITICO") = true := by decide
      rw [hb]
      simp only [if_pos]
      omega

theorem escalar_estado (p : Pedido) : p.escalar.estado = p.estado := rfl

theorem escalar_percentagem (p : Pedido) (t : ℚ) :
    p.escalar.percentagem t = p.percentagem t := rfl

/-- Along a sorted check sequence containing a check inside the 70 %–100 %
window, a still-pending not-yet-escalated request does escalate. -/
theorem runChecks_esc_mem (p : Pedido) (ts : List ℚ)
    (hpend : p.estado = EstadoPedido.PENDENTE) (hm : 0 < p.tempo_espera_maximo)
    (hflag : p.escalado_para_critico = false) (hs : ts.Sorted (· ≤ ·))
    (hwin : ∃ t ∈ ts, 70 ≤ p.percentagem t ∧ p.percentagem t < 100) :
    "ESCALADO_CRITICO" ∈ (runChecks p ts).2 := by
  induction ts with
  | nil => simp at hwin
  | cons t rest ih =>
    obtain ⟨t₀, ht₀, h70, h100⟩ := hwin
    rw [runChecks_cons]
    rcases verificar_cases p t with ⟨hc, hcond⟩ | ⟨hc, _, hge⟩ | ⟨hc, _, _, _, _⟩
    · rw [hc, if_neg (by decide : ¬("OK" : String) = "EXPIRAR")]
      have hlt70 : p.percentagem t < 70 := by
        rcases hcond with h | ⟨_, h | h⟩
        · exact absurd hpend h
        · exact h
        · rw [hflag] at h
          exact absurd h (by simp)
      have ht₀rest : t₀ ∈ rest := by
        rcases List.mem_cons.mp ht₀ with rfl | h
        · exact absurd h70 (not_le_of_lt hlt70)
        · exact h
      have := ih (List.sorted_cons.mp hs).2 ⟨t₀, ht₀rest, h70, h100⟩
      exact List.mem_cons_of_mem _ this
    · exfalso
      have hle : t ≤ t₀ := by
        rcases List.mem_cons.mp ht₀ with rfl | h
        · rfl
        · exact (List.sorted_cons.mp hs).1 t₀ h
      have := percentagem_mono p hm hle
      linarith
    · rw [hc, if_neg (by decide : ¬("ESCALADO_CRITICO" : String) = "EXPIRAR")]
      exact List.mem_cons_self _ _

/-- Along a sorted check sequence, a pending request expires exactly when
some check happens at ≥ 100 % of its maximum wait. -/
theorem runChecks_expirar_iff (p : Pedido) (ts : List ℚ)
    (hpend : p.estado = EstadoPedido.PENDENTE) (hs : ts.Sorted (· ≤ ·)) :
    ("EXPIRAR" ∈ (runChecks p ts).2 ↔ ∃ t ∈ ts, 100 ≤ p.percentagem t) := by
  induction ts generalizing p with
  | nil => simp [runChecks]
  | cons t rest ih =>
    rw [runChecks_cons]
    rcases verificar_cases p t with ⟨hc, hcond⟩ | ⟨hc, _, hge⟩ | ⟨hc, _, _, hlt, _⟩
    · rw [hc, if_neg (by decide : ¬("OK" : String) = "EXPIRAR")]
      have hlt100 : p.percentagem t < 100 := by
        rcases hcond with h | ⟨h, _⟩
        · exact absurd hpend h
        · exact h
      have := ih p hpend (List.sorted_cons.mp hs).2
      constructor
      · intro hmem
        simp only [List.mem_cons, String.reduceEq, false_or] at hmem
        obtain ⟨t₁, ht₁, hge₁⟩ := this.mp hmem
        exact ⟨t₁, List.mem_cons_of_mem _ ht₁, hge₁⟩
      · rintro ⟨t₁, ht₁, hge₁⟩
        have hmem : t₁ ∈ rest := by
          rcases List.mem_cons.mp ht₁ with rfl | h
          · exact absurd hge₁ (not_le_of_lt hlt100)
          · exact h
        simp only [List.mem_cons, String.reduceEq, false_or]
        exact this.mpr ⟨t₁, hmem, hge₁⟩
    · rw [hc, if_pos rfl]
      constructor
      · intro _
        exact ⟨t, List.mem_cons_self _ _, hge⟩
      · intro _
        simp
    · rw [hc, if_neg (by decide : ¬("ESCALADO_CRITICO" : String) = "EXPIRAR")]
      have hpend' : p.escalar.estado = EstadoPedido.PENDENTE := by
        rw [escalar_estado]
        exact hpend
      have := ih p.escalar hpend' (List.sorted_cons.mp hs).2
      simp only [escalar_percentagem] at this
      constructor
      · intro hmem
        simp only [List.mem_cons, String.reduceEq, false_or] at hmem
        obtain ⟨t₁, ht₁, hge₁⟩ := this.mp hmem
        exact ⟨t₁, List.mem_cons_of_mem _ ht₁, hge₁⟩
      · rintro ⟨t₁, ht₁, hge₁⟩
        have hmem : t₁ ∈ rest := by
          rcases List.mem_cons.mp ht₁ with rfl | h
          · exact absurd hge₁ (not_le_of_lt hlt)
          · exact h
        simp only [List.mem_cons, String.reduceEq, false_or]
        exact this.mpr ⟨t₁, hmem, hge₁⟩

/-- Concrete pending request: created at minute 0 with a 30-minute maximum
wait, normal priority, not yet escalated. -/
def pedidoC3 : Pedido :=
  { id := "P0001", origem := "A", destino := "B", num_passageiros := 1,
    timestamp := 0, prioridade := PrioridadePedido.NORMAL,
    preferencia_ambiental := PreferenciaAmbiental.INDIFERENTE,
    tempo_espera_maximo := 30, estado := EstadoPedido.PENDENTE,
    escalado_para_critico := false, veiculo_atribuido := none,
    timestamp_atribuicao := none, tempo_espera_real := none }

theorem pedidoC3_pct30 : pedidoC3.percentagem 30 = 100 := by
  norm_num [Pedido.percentagem, pedidoC3]

theorem pedidoC3_pct21 : pedidoC3.percentagem 21 = 70 := by
  norm_num [Pedido.percentagem, pedidoC3]

/-- C3 counterexample: a pending request whose first (and only) priority
check happens at 100 % of its maximum wait expires without ever having been
escalated to critical, refuting "a pending request that reaches its maximum
wait never expires without first having become critical". -/
theorem C3_counterexample :
    pedidoC3.estado = EstadoPedido.PENDENTE ∧
    pedidoC3.escalado_para_critico = false ∧
    100 ≤ pedidoC3.percentagem 30 ∧
    (runChecks pedidoC3 [30]).1.estado = EstadoPedido.EXPIRADO ∧
    (runChecks pedidoC3 [30]).1.prioridade = PrioridadePedido.NORMAL ∧
    (runChecks pedidoC3 [30]).1.escalado_para_critico = false ∧
    (runChecks pedidoC3 [30]).2.count "ESCALADO_CRITICO" = 0 := by
  have hv : pedidoC3.verificar_e_escalar_prioridade 30 = (pedidoC3, "EXPIRAR") := by
    unfold Pedido.verificar_e_escalar_prioridade
    norm_num [pedidoC3]
  have hrun : runChecks pedidoC3 [30] = (pedidoC3.marcar_expirado, ["EXPIRAR"]) := by
    rw [runChecks_cons, hv]
    simp
  rw [hrun]
  refine ⟨rfl, rfl, ?_, rfl, rfl, rfl, by decide⟩
  rw [pedidoC3_pct30]

/-- C3 (amended): a single check on a pending request expires it exactly when
elapsed time is ≥ 100 % of the maximum wait and escalates it exactly when
elapsed time is in the 70 %–100 % window and it has not been escalated
before; over any check sequence escalation fires at most once; over a sorted
check sequence it fires exactly once when some check falls in the window
while the request is still pending; and the request expires exactly when
some check happens at ≥ 100 %.  (A sorted sequence that skips the window
expires the request without escalation, so "never expires without first
having become critical" holds only when some check lands in the window.) -/
theorem C3_priority_escalation :
    (∀ (p : Pedido) (t : ℚ), p.estado = EstadoPedido.PENDENTE →
      (((p.verificar_e_escalar_prioridade t).2 = "EXPIRAR" ↔
          100 ≤ p.percentagem t) ∧
       ((p.verificar_e_escalar_prioridade t).2 = "ESCALADO_CRITICO" ↔
          (70 ≤ p.percentagem t ∧ p.percentagem t < 100 ∧
            p.escalado_para_critico = false)) ∧
       ((p.verificar_e_escalar_prioridade t).2 = "ESCALADO_CRITICO" →
          (p.verificar_e_escalar_prioridade t).1.prioridade =
              PrioridadePedido.CRITICO ∧
            (p.verificar_e_escalar_prioridade t).1.escalado_para_critico = true))) ∧
    (∀ (p : Pedido) (ts : List ℚ),
      (runChecks p ts).2.count "ESCALADO_CRITICO" ≤ 1) ∧
    (∀ (p : Pedido) (ts : List ℚ), p.estado = EstadoPedido.PENDENTE →
      0 < p.tempo_espera_maximo → p.escalado_para_critico = false →
      ts.Sorted (· ≤ ·) →
      (∃ t ∈ ts, 70 ≤ p.percentagem t ∧ p.percentagem t < 100) →
      (runChecks p ts).2.count "ESCALADO_CRITICO" = 1) ∧
    (∀ (p : Pedido) (ts : List ℚ), p.estado = EstadoPedido.PENDENTE →
      ts.Sorted (· ≤ ·) →
      ("EXPIRAR" ∈ (runChecks p ts).2 ↔ ∃ t ∈ ts, 100 ≤ p.percentagem t)) := by
  refine ⟨?_, ?_, ?_, ?_⟩
  · intro p t hpend
    rcases verificar_cases p t with ⟨hc, hcond⟩ | ⟨hc, _, hge⟩ | ⟨hc, _, h70, h100, hflag⟩
    · have hcond' : p.percentagem t < 100 ∧
          (p.percentagem t < 70 ∨ p.escalado_para_critico = true) := by
        rcases hcond with h | h
        · exact absurd hpend h
        · exact h
      rw [hc]
      dsimp only
      refine ⟨⟨fun h => absurd h (by decide),
          fun h => absurd h (not_le_of_lt hcond'.1)⟩,
        ⟨fun h => absurd h (by decide), ?_⟩,
        fun h => absurd h (by decide)⟩
      rintro ⟨h70', _, hflag'⟩
      rcases hcond'.2 with h | h
      · exact absurd h70' (not_le_of_lt h)
      · rw [hflag'] at h
        exact absurd h (by simp)
    · rw [hc]
      dsimp only
      refine ⟨⟨fun _ => hge, fun _ => rfl⟩,
        ⟨fun h => absurd h (by decide), ?_⟩,
        fun h => absurd h (by decide)⟩
      rintro ⟨_, h100, _⟩
      exact absurd hge (not_le_of_lt h100)
    · rw [hc]
      dsimp only
      exact ⟨⟨fun h => absurd h (by decide),
          fun h => absurd h (not_le_of_lt h100)⟩,
        ⟨fun _ => ⟨h70, h100, hflag⟩, fun _ => rfl⟩, fun _ => ⟨rfl, rfl⟩⟩
  · intro p ts
    have := runChecks_count_le p ts
    split at this <;> omega
  · intro p ts hpend hm hflag hs hwin
    have h1 := runChecks_count_le p ts
    rw [hflag] at h1
    simp only [Bool.false_eq_true, if_false] at h1
    have h2 := runChecks_esc_mem p ts hpend hm hflag hs hwin
    have h3 : 0 < (runChecks p ts).2.count "ESCALADO_CRITICO" :=
      List.count_pos_iff.mpr h2
    omega
  · intro p ts hpend hs
    exact runChecks_expirar_iff p ts hpend hs

theorem pedidoC3_window :
    70 ≤ pedidoC3.percentagem 21 ∧ pedidoC3.percentagem 21 < 100 := by
  rw [pedidoC3_pct21]
  norm_num

/-- Witness for `C3_priority_escalation` at the concrete request. -/
theorem C3_witness :
    ((pedidoC3.verificar_e_escalar_prioridade 21).2 = "ESCALADO_CRITICO" ↔
      (70 ≤ pedidoC3.percentagem 21 ∧ pedidoC3.percentagem 21 < 100 ∧
        pedidoC3.escalado_para_critico = false)) ∧
    (runChecks pedidoC3 [21]).2.count "ESCALADO_CRITICO" ≤ 1 ∧
    (runChecks pedidoC3 [21, 30]).2.count "ESCALADO_CRITICO" = 1 ∧
    ("EXPIRAR" ∈ (runChecks pedidoC3 [30]).2 ↔
      ∃ t ∈ [(30 : ℚ)], 100 ≤ pedidoC3.percentagem t) :=
  ⟨((C3_priority_escalation.1 pedidoC3 21 rfl).2).1,
   C3_priority_escalation.2.1 pedidoC3 [21],
   C3_priority_escalation.2.2.1 pedidoC3 [21, 30] rfl (by decide) rfl (by decide)
     ⟨21, List.mem_cons_self _ _, pedidoC3_window⟩,
   C3_priority_escalation.2.2.2 pedidoC3 [30] rfl (by decide)⟩

/-! ## Object store with ℕ addresses (Python object identity) -/

/-- Lookup in an address-keyed store. -/
def hGet {β : Type} (l : List (ℕ × β)) (k : ℕ) : Option β :=
  match l with
  | [] => none
  | (k', v) :: rest => if k' = k then some v else hGet rest k

/-- Store update: an existing address keeps its position, a new address is
appended. -/
def hSet {β : Type} (l : List (ℕ × β)) (k : ℕ) (v : β) : List (ℕ × β) :=
  match l with
  | [] => [(k, v)]
  | (k', v') :: rest => if k' = k then (k', v) :: rest else (k', v') :: hSet rest k v

theorem hGet_hSet_self {β : Type} (l : List (ℕ × β)) (k : ℕ) (v : β) :
    hGet (hSet l k v) k = some v := by
  induction l with
  | nil => simp [hGet, hSet]
  | cons hd tl ih =>
    obtain ⟨k', v'⟩ := hd
    by_cases h : k' = k <;> simp [hGet, hSet, h, ih]

theorem hGet_hSet_ne {β : Type} (l : List (ℕ × β)) (k k' : ℕ) (v : β)
    (h : k ≠ k') : hGet (hSet l k v) k' = hGet l k' := by
  induction l with
  | nil => simp [hGet, hSet, h]
  | cons hd tl ih =>
    obtain ⟨k₀, v₀⟩ := hd
    by_cases h₀ : k₀ = k
    · subst h₀
      simp [hGet, hSet, h]
    · simp only [hSet, if_neg h₀, hGet]
      by_cases h₁ : k₀ = k' <;> simp [h₁, ih]

/-! ## Vehicle model (`src/src/core/veiculo.py`) -/

/-- Propulsion class (`TipoVeiculo`). -/
inductive TipoVeiculo
  | ELETRICO
  | COMBUSTAO
deriving Repr, DecidableEq

/-- Vehicle lifecycle states (`EstadoVeiculo`). -/
inductive EstadoVeiculo
  | DISPONIVEL
  | EM_SERVICO
  | A_CAMINHO
  | EM_RECARGA
  | EM_ABASTECIMENTO
  | MANUTENCAO
  | FORA_SERVICO
deriving Repr, DecidableEq

/-- Vehicle (`class Veiculo`).  Beyond the `veiculo.py` constructor fields,
the structure carries the attributes that `definir_rota`, the simulator and
the vehicle subclasses (referenced by `simulacao.py` but not present under
`src/`) set dynamically: `rota_atual`, `proximo_no_index`,
`progresso_aresta`, `tipo_str`, `em_missao_recarga`, `consumo_por_km`,
`tempo_em_recarga`, `autonomia_ao_iniciar_recarga`.  `pedido_atual` is the
address of the bound request object. -/
structure Veiculo where
  id : String
  tipo : TipoVeiculo
  autonomia_max : ℚ
  autonomia_atual : ℚ
  capacidade : ℤ
  custo_por_km : ℚ
  localizacao : String
  estado : EstadoVeiculo
  passageiros_atuais : ℤ
  emissao_co2_por_km : ℚ
  pedido_atual : Option ℕ
  destino_atual : Option String
  numero_viagens : ℤ
  rota_atual : List String
  proximo_no_index : ℕ
  progresso_aresta : ℚ
  tipo_str : String
  em_missao_recarga : Bool
  consumo_por_km : ℚ
  tempo_em_recarga : ℚ
  autonomia_ao_iniciar_recarga : ℚ
deriving Repr, DecidableEq

/-- `Veiculo.esta_disponivel`. -/
def Veiculo.esta_disponivel (v : Veiculo) : Bool :=
  v.estado = EstadoVeiculo.DISPONIVEL

/-- `Veiculo.pode_atender_pedido` (capacity and 1.2× range margin). -/
def Veiculo.pode_atender_pedido (v : Veiculo) (num_passageiros : ℤ)
    (distancia_estimada : ℚ) : Bool :=
  if v.esta_disponivel = false then false
  else if num_passageiros > v.capacidade then false
  else if v.autonomia_atual < distancia_estimada * (12 / 10) then false
  else true

/-- `Veiculo.iniciar_recarga`. -/
def Veiculo.iniciar_recarga (v : Veiculo) : Veiculo :=
  if v.tipo = TipoVeiculo.ELETRICO then { v with estado := EstadoVeiculo.EM_RECARGA }
  else { v with estado := EstadoVeiculo.EM_ABASTECIMENTO }

/-- `Veiculo.finalizar_recarga`. -/
def Veiculo.finalizar_recarga (v : Veiculo) (percentagem : ℚ) : Veiculo :=
  { v with autonomia_atual := v.autonomia_max * percentagem,
           estado := EstadoVeiculo.DISPONIVEL }

/-- `Veiculo.definir_rota`. -/
def Veiculo.definir_rota (v : Veiculo) (lista_nos : List String) : Veiculo :=
  { v with rota_atual := lista_nos, proximo_no_index := 1, progresso_aresta := 0 }

/-- `Veiculo.iniciar_viagem` (the request is passed by address; its passenger
count is read by the caller and passed explicitly). -/
def Veiculo.iniciar_viagem (v : Veiculo) (pedido : ℕ) (num_passageiros : ℤ)
    (destino : String) : Veiculo :=
  { v with estado := EstadoVeiculo.A_CAMINHO,
           pedido_atual := some pedido,
           destino_atual := some destino,
           passageiros_atuais := num_passageiros,
           numero_viagens := v.numero_viagens + 1 }

/-- Object store: request and vehicle objects addressed by naturals, with an
allocation counter.  Models Python object identity for the simulation
claims. -/
structure Mem where
  pedidos : List (ℕ × Pedido)
  veiculos : List (ℕ × Veiculo)
  next : ℕ
deriving Repr, DecidableEq

def Mem.getP (m : Mem) (a : ℕ) : Option Pedido := hGet m.pedidos a

def Mem.getV (m : Mem) (a : ℕ) : Option Veiculo := hGet m.veiculos a

def Mem.setP (m : Mem) (a : ℕ) (p : Pedido) : Mem :=
  { m with pedidos := hSet m.pedidos a p }

def Mem.setV (m : Mem) (a : ℕ) (v : Veiculo) : Mem :=
  { m with veiculos := hSet m.veiculos a v }

/-! ## Station model (`src/src/core/estacao.py`) -/

/-- Station kind (`TipoEstacao`). -/
inductive TipoEstacao
  | RECARGA_ELETRICA
  | BOMBAS_GASOL
deriving Repr, DecidableEq

/-- Station operational state (`EstadoEstacao`). -/
inductive EstadoEstacao
  | OPERACIONAL
  | MANUTENCAO
  | FORA_SERVICO
  | LOTADA
deriving Repr, DecidableEq

/-- Active-service record (the dict `{veiculo, inicio, fim_estimado,
percentagem_alvo, custo}`); the vehicle is stored by address. -/
structure Atendimento where
  veiculo : ℕ
  inicio : ℚ
  fim_estimado : ℚ
  percentagem_alvo : ℚ
  custo : ℚ
deriving Repr, DecidableEq

/-- Charging / fuel station (`class Estacao`). -/
structure Estacao where
  id : String
  no_grafo : String
  tipo : TipoEstacao
  capacidade : ℤ
  velocidade_recarga : ℚ
  custo_por_kwh : ℚ
  custo_por_litro : ℚ
  estado : EstadoEstacao
  veiculos_em_atendimento : List Atendimento
  fila_espera : List ℕ
  total_atendimentos : ℤ
  tempo_total_utilizacao : ℚ
  receita_total : ℚ
deriving Repr, DecidableEq

/-- Station constructor (`Estacao.__init__`): the recharge speed defaults by
station kind when not given. -/
def Estacao.mk' (id no_grafo : String) (tipo : TipoEstacao) (capacidade : ℤ)
    (velocidade_recarga : Option ℚ) (custo_por_kwh custo_por_litro : ℚ) : Estacao :=
  { id := id, no_grafo := no_grafo, tipo := tipo, capacidade := capacidade,
    velocidade_recarga :=
      match velocidade_recarga with
      | some v => v
      | none => match tipo with
        | TipoEstacao.RECARGA_ELETRICA => 67 / 10
        | TipoEstacao.BOMBAS_GASOL => 100,
    custo_por_kwh := custo_por_kwh, custo_por_litro := custo_por_litro,
    estado := EstadoEstacao.OPERACIONAL, veiculos_em_atendimento := [],
    fila_espera := [], total_atendimentos := 0, tempo_total_utilizacao := 0,
    receita_total := 0 }

/-- `Estacao.esta_disponivel`. -/
def Estacao.esta_disponivel (e : Estacao) : Bool :=
  if e.estado ≠ EstadoEstacao.OPERACIONAL then false
  else (e.veiculos_em_atendimento.length : ℤ) < e.capacidade

/-- `Estacao.esta_lotada`. -/
def Estacao.esta_lotada (e : Estacao) : Bool :=
  (e.veiculos_em_atendimento.length : ℤ) ≥ e.capacidade

/-- `Estacao.pode_atender` (availability plus propulsion compatibility). -/
def Estacao.pode_atender (e : Estacao) (v : Veiculo) : Bool :=
  if e.esta_disponivel = false then false
  else match v.tipo with
    | TipoVeiculo.ELETRICO => e.tipo = TipoEstacao.RECARGA_ELETRICA
    | TipoVeiculo.COMBUSTAO => e.tipo = TipoEstacao.BOMBAS_GASOL

/-- `Estacao.calcular_tempo_recarga`. -/
def Estacao.calcular_tempo_recarga (e : Estacao) (v : Veiculo)
    (percentagem_alvo : ℚ) : ℚ :=
  let autonomia_necessaria := percentagem_alvo * v.autonomia_max - v.autonomia_atual
  if autonomia_necessaria ≤ 0 then 0
  else
    let velocidade :=
      if v.tipo = TipoVeiculo.COMBUSTAO ∧ e.tipo ≠ TipoEstacao.BOMBAS_GASOL then 100
      else e.velocidade_recarga
    autonomia_necessaria / velocidade

/-- `Estacao.calcular_custo_recarga`. -/
def Estacao.calcular_custo_recarga (e : Estacao) (v : Veiculo)
    (percentagem_alvo : ℚ) : ℚ :=
  let autonomia_necessaria := percentagem_alvo * v.autonomia_max - v.autonomia_atual
  if autonomia_necessaria ≤ 0 then 0
  else if v.tipo = TipoVeiculo.ELETRICO then
    autonomia_necessaria * (2 / 10) * e.custo_por_kwh
  else
    autonomia_necessaria * (8 / 100) * e.custo_por_litro

/-- `Estacao.iniciar_atendimento`: a vehicle the station cannot serve is
appended to the waiting queue (if not already present); otherwise a service
record is created and the vehicle's recharge starts.  A dangling vehicle
address (impossible under the store invariant) is a no-op returning
`false`. -/
def Estacao.iniciar_atendimento (e : Estacao) (m : Mem) (vaddr : ℕ)
    (percentagem_alvo : ℚ) (timestamp : ℚ) : Bool × Estacao × Mem :=
  match m.getV vaddr with
  | none => (false, e, m)
  | some veiculo =>
    if e.pode_atender veiculo = false then
      if vaddr ∈ e.fila_espera then (false, e, m)
      else (false, { e with fila_espera := e.fila_espera ++ [vaddr] }, m)
    else
      let tempo_recarga := e.calcular_tempo_recarga veiculo percentagem_alvo
      let custo := e.calcular_custo_recarga veiculo percentagem_alvo
      let fim_estimado := timestamp + tempo_recarga
      let atendimento : Atendimento :=
        { veiculo := vaddr, inicio := timestamp, fim_estimado := fim_estimado,
          percentagem_alvo := percentagem_alvo, custo := custo }
      let e1 : Estacao :=
        { e with veiculos_em_atendimento := e.veiculos_em_atendimento ++ [atendimento] }
      let m1 := m.setV vaddr veiculo.iniciar_recarga
      let e2 := if e1.esta_lotada then { e1 with estado := EstadoEstacao.LOTADA } else e1
      (true, e2, m1)

/-- First service record whose vehicle has the same id as the given vehicle
(`atend['veiculo'].id == veiculo.id`), together with the list with that
record removed. -/
def findAtendimento (m : Mem) (vid : String) :
    List Atendimento → Option (Atendimento × List Atendimento)
  | [] => none
  | atend :: rest =>
    match m.getV atend.veiculo with
    | some w =>
      if w.id = vid then some (atend, rest)
      else
        match findAtendimento m vid rest with
        | none => none
        | some (a, l) => some (a, atend :: l)
    | none =>
      match findAtendimento m vid rest with
      | none => none
      | some (a, l) => some (a, atend :: l)

/-- `Estacao.finalizar_atendimento`: removes the service record matched by
vehicle id, finishes the vehicle's recharge, updates statistics, resets a
`LOTADA` state and, when the queue is non-empty and the station is available,
starts service for the queue head within the same call. -/
def Estacao.finalizar_atendimento (e : Estacao) (m : Mem) (vaddr : ℕ)
    (timestamp : ℚ) : Option ℚ × Estacao × Mem :=
  match m.getV vaddr with
  | none => (none, e, m)
  | some veiculo =>
    match findAtendimento m veiculo.id e.veiculos_em_atendimento with
    | none => (none, e, m)
    | some (atendimento, restantes) =>
      let fim_real := timestamp
      let tempo_utilizacao := fim_real - atendimento.inicio
      let m1 := m.setV vaddr (veiculo.finalizar_recarga atendimento.percentagem_alvo)
      let e1 : Estacao :=
        { e with veiculos_em_atendimento := restantes,
                 total_atendimentos := e.total_atendimentos + 1,
                 tempo_total_utilizacao := e.tempo_total_utilizacao + tempo_utilizacao,
                 receita_total := e.receita_total + atendimento.custo }
      let e2 := if e1.estado = EstadoEstacao.LOTADA then
          { e1 with estado := EstadoEstacao.OPERACIONAL } else e1
      match e2.fila_espera with
      | [] => (some atendimento.custo, e2, m1)
      | proximo_veiculo :: fila_restante =>
        if e2.esta_disponivel then
          let e3 := { e2 with fila_espera := fila_restante }
          let r := e3.iniciar_atendimento m1 proximo_veiculo 1 fim_real
          (some atendimento.custo, r.2.1, r.2.2)
        else (some atendimento.custo, e2, m1)

/-- `Estacao.atualizar_estado`: finishes every service whose estimated end
has been reached. -/
def Estacao.atualizar_estado (e : Estacao) (m : Mem) (timestamp : ℚ) :
    Estacao × Mem :=
  let concluidos := e.veiculos_em_atendimento.filter
    (fun atend => timestamp ≥ atend.fim_estimado)
  concluidos.foldl
    (fun em atend =>
      let r := Estacao.finalizar_atendimento em.1 em.2 atend.veiculo timestamp
      (r.2.1, r.2.2))
    (e, m)

theorem esta_disponivel_spec {e : Estacao} (h : e.esta_disponivel = true) :
    e.estado = EstadoEstacao.OPERACIONAL ∧
      (e.veiculos_em_atendimento.length : ℤ) < e.capacidade := by
  unfold Estacao.esta_disponivel at h
  by_cases h1 : e.estado ≠ EstadoEstacao.OPERACIONAL
  · rw [if_pos h1] at h
    exact absurd h (by simp)
  · rw [if_neg h1] at h
    rw [not_not] at h1
    exact ⟨h1, by simpa using h⟩

theorem pode_atender_disponivel {e : Estacao} {v : Veiculo}
    (h : e.pode_atender v = true) : e.esta_disponivel = true := by
  unfold Estacao.pode_atender at h
  by_cases h1 : e.esta_disponivel = false
  · rw [if_pos h1] at h
    exact absurd h (by simp)
  · simpa using h1

theorem findAtendimento_length {m : Mem} {vid : String} {l r : List Atendimento}
    {a : Atendimento} (h : findAtendimento m vid l = some (a, r)) :
    r.length + 1 = l.length := by
  induction l generalizing a r with
  | nil => simp [findAtendimento] at h
  | cons hd tl ih =>
    rw [findAtendimento] at h
    cases hw : m.getV hd.veiculo with
    | some w =>
      rw [hw] at h
      by_cases hid : w.id = vid
      · simp only [if_pos hid] at h
        cases h
        rfl
      · simp only [if_neg hid] at h
        cases hrec : findAtendimento m vid tl with
        | none => rw [hrec] at h; exact Option.noConfusion h
        | some p =>
          obtain ⟨a', l'⟩ := p
          rw [hrec] at h
          cases h
          simp [← ih hrec]
    | none =>
      rw [hw] at h
      cases hrec : findAtendimento m vid tl with
      | none => rw [hrec] at h; exact Option.noConfusion h
      | some p =>
        obtain ⟨a', l'⟩ := p
        rw [hrec] at h
        cases h
        simp [← ih hrec]

/-- Station state after a successful admission in `iniciar_atendimento`. -/
def iniciarAdmitida (e : Estacao) (vaddr : ℕ) (pct t : ℚ) (veiculo : Veiculo) :
    Estacao :=
  let atendimento : Atendimento :=
    { veiculo := vaddr, inicio := t,
      fim_estimado := t + e.calcular_tempo_recarga veiculo pct,
      percentagem_alvo := pct, custo := e.calcular_custo_recarga veiculo pct }
  let e1 : Estacao :=
    { e with veiculos_em_atendimento := e.veiculos_em_atendimento ++ [atendimento] }
  if e1.esta_lotada then { e1 with estado := EstadoEstacao.LOTADA } else e1

/-- Outcome analysis of `iniciar_atendimento`. -/
theorem iniciar_atendimento_spec (e : Estacao) (m : Mem) (vaddr : ℕ) (pct t : ℚ) :
    (m.getV vaddr = none ∧ e.iniciar_atendimento m vaddr pct t = (false, e, m)) ∨
    (∃ veiculo, m.getV vaddr = some veiculo ∧ e.pode_atender veiculo = false ∧
      vaddr ∈ e.fila_espera ∧ e.iniciar_atendimento m vaddr pct t = (false, e, m)) ∨
    (∃ veiculo, m.getV vaddr = some veiculo ∧ e.pode_atender veiculo = false ∧
      vaddr ∉ e.fila_espera ∧ e.iniciar_atendimento m vaddr pct t =
        (false, { e with fila_espera := e.fila_espera ++ [vaddr] }, m)) ∨
    (∃ veiculo, m.getV vaddr = some veiculo ∧ e.pode_atender veiculo = true ∧
      e.iniciar_atendimento m vaddr pct t =
        (true, iniciarAdmitida e vaddr pct t veiculo,
          m.setV vaddr veiculo.iniciar_recarga)) := by
  cases hv : m.getV vaddr with
  | none =>
    left
    exact ⟨rfl, by simp [Estacao.iniciar_atendimento, hv]⟩
  | some veiculo =>
    rcases Bool.eq_false_or_eq_true (e.pode_atender veiculo) with hp | hp
    · right; right; right
      refine ⟨veiculo, rfl, hp, ?_⟩
      simp [Estacao.iniciar_atendimento, iniciarAdmitida, hv, hp]
    · by_cases hq : vaddr ∈ e.fila_espera
      · right; left
        exact ⟨veiculo, rfl, hp, hq, by simp [Estacao.iniciar_atendimento, hv, hp, hq]⟩
      · right; right; left
        exact ⟨veiculo, rfl, hp, hq, by simp [Estacao.iniciar_atendimento, hv, hp, hq]⟩

/-- Station state after removing a finished service record (statistics
updated, `LOTADA` reset), before the waiting queue is examined. -/
def finalizarBase (e : Estacao) (atendimento : Atendimento)
    (restantes : List Atendimento) (t : ℚ) : Estacao :=
  let e1 : Estacao :=
    { e with veiculos_em_atendimento := restantes,
             total_atendimentos := e.total_atendimentos + 1,
             tempo_total_utilizacao := e.tempo_total_utilizacao + (t - atendimento.inicio),
             receita_total := e.receita_total + atendimento.custo }
  if e1.estado = EstadoEstacao.LOTADA then
    { e1 with estado := EstadoEstacao.OPERACIONAL } else e1

/-- Unfolding of `finalizar_atendimento` in the found-record case. -/
theorem finalizar_eq (e : Estacao) (m : Mem) (vaddr : ℕ) (t : ℚ)
    (veiculo : Veiculo) (atendimento : Atendimento) (restantes : List Atendimento)
    (hv : m.getV vaddr = some veiculo)
    (hf : findAtendimento m veiculo.id e.veiculos_em_atendimento =
      some (atendimento, restantes)) :
    e.finalizar_atendimento m vaddr t =
      (match (finalizarBase e atendimento restantes t).fila_espera with
       | [] => (some atendimento.custo, finalizarBase e atendimento restantes t,
           m.setV vaddr (veiculo.finalizar_recarga atendimento.percentagem_alvo))
       | hd :: tl =>
         if (finalizarBase e atendimento restantes t).esta_disponivel then
           (some atendimento.custo,
             (Estacao.iniciar_atendimento
               { finalizarBase e atendimento restantes t with fila_espera := tl }
               (m.setV vaddr (veiculo.finalizar_recarga atendimento.percentagem_alvo))
               hd 1 t).2.1,
             (Estacao.iniciar_atendimento
               { finalizarBase e atendimento restantes t with fila_espera := tl }
               (m.setV vaddr (veiculo.finalizar_recarga atendimento.percentagem_alvo))
               hd 1 t).2.2)
         else (some atendimento.custo, finalizarBase e atendimento restantes t,
           m.setV vaddr (veiculo.finalizar_recarga atendimento.percentagem_alvo))) := by
  simp only [Estacao.finalizar_atendimento, hv, hf, finalizarBase]

theorem finalizar_none1 (e : Estacao) (m : Mem) (vaddr : ℕ) (t : ℚ)
    (hv : m.getV vaddr = none) : e.finalizar_atendimento m vaddr t = (none, e, m) := by
  simp [Estacao.finalizar_atendimento, hv]

theorem finalizar_none2 (e : Estacao) (m : Mem) (vaddr : ℕ) (t : ℚ) (v : Veiculo)
    (hv : m.getV vaddr = some v)
    (hf : findAtendimento m v.id e.veiculos_em_atendimento = none) :
    e.finalizar_atendimento m vaddr t = (none, e, m) := by
  simp [Estacao.finalizar_atendimento, hv, hf]

theorem iniciarAdmitida_capacidade (e : Estacao) (vaddr : ℕ) (pct t : ℚ)
    (v : Veiculo) : (iniciarAdmitida e vaddr pct t v).capacidade = e.capacidade := by
  unfold iniciarAdmitida
  dsimp only
  split <;> rfl

theorem iniciarAdmitida_fila (e : Estacao) (vaddr : ℕ) (pct t : ℚ) (v : Veiculo) :
    (iniciarAdmitida e vaddr pct t v).fila_espera = e.fila_espera := by
  unfold iniciarAdmitida
  dsimp only
  split <;> rfl

theorem iniciarAdmitida_atendimentos (e : Estacao) (vaddr : ℕ) (pct t : ℚ)
    (v : Veiculo) : ∃ a, (iniciarAdmitida e vaddr pct t v).veiculos_em_atendimento =
      e.veiculos_em_atendimento ++ [a] ∧ a.veiculo = vaddr := by
  unfold iniciarAdmitida
  dsimp only
  split <;> exact ⟨_, rfl, rfl⟩

theorem finalizarBase_fields (e : Estacao) (a : Atendimento)
    (r : List Atendimento) (t : ℚ) :
    (finalizarBase e a r t).veiculos_em_atendimento = r ∧
    (finalizarBase e a r t).capacidade = e.capacidade ∧
    (finalizarBase e a r t).fila_espera = e.fila_espera ∧
    (finalizarBase e a r t).tipo = e.tipo := by
  unfold finalizarBase
  dsimp only
  split <;> exact ⟨rfl, rfl, rfl, rfl⟩

theorem finalizarBase_estado (e : Estacao) (a : Atendimento)
    (r : List Atendimento) (t : ℚ)
    (hop : e.estado = EstadoEstacao.OPERACIONAL ∨ e.estado = EstadoEstacao.LOTADA) :
    (finalizarBase e a r t).estado = EstadoEstacao.OPERACIONAL := by
  unfold finalizarBase
  rcases hop with h | h <;> simp [h]

/-- `iniciar_atendimento` preserves the capacity bound and never changes the
configured capacity. -/
theorem iniciar_atendimento_cap (e : Estacao) (m : Mem) (vaddr : ℕ)
    (pct t : ℚ) (h : (e.veiculos_em_atendimento.length : ℤ) ≤ e.capacidade) :
    ((e.iniciar_atendimento m vaddr pct t).2.1.veiculos_em_atendimento.length : ℤ) ≤
        (e.iniciar_atendimento m vaddr pct t).2.1.capacidade ∧
      (e.iniciar_atendimento m vaddr pct t).2.1.capacidade = e.capacidade := by
  rcases iniciar_atendimento_spec e m vaddr pct t with ⟨_, heq⟩ | ⟨v, _, _, _, heq⟩ |
    ⟨v, _, _, _, heq⟩ | ⟨v, _, hp, heq⟩
  · rw [heq]; exact ⟨h, rfl⟩
  · rw [heq]; exact ⟨h, rfl⟩
  · rw [heq]; exact ⟨h, rfl⟩
  · rw [heq]
    have hlt := (esta_disponivel_spec (pode_atender_disponivel hp)).2
    obtain ⟨a, hatt, -⟩ := iniciarAdmitida_atendimentos e vaddr pct t v
    constructor
    · rw [iniciarAdmitida_capacidade]
      rw [show (iniciarAdmitida e vaddr pct t v).veiculos_em_atendimento =
        e.veiculos_em_atendimento ++ [a] from hatt]
      simp only [List.length_append, List.length_singleton]
      push_cast
      omega
    · exact iniciarAdmitida_capacidade e vaddr pct t v

/-- `finalizar_atendimento` preserves the capacity bound and the configured
capacity. -/
theorem finalizar_atendimento_cap (e : Estacao) (m : Mem) (vaddr : ℕ) (t : ℚ)
    (h : (e.veiculos_em_atendimento.length : ℤ) ≤ e.capacidade) :
    ((e.finalizar_atendimento m vaddr t).2.1.veiculos_em_atendimento.length : ℤ) ≤
        (e.finalizar_atendimento m vaddr t).2.1.capacidade ∧
      (e.finalizar_atendimento m vaddr t).2.1.capacidade = e.capacidade := by
  cases hv : m.getV vaddr with
  | none => rw [finalizar_none1 e m vaddr t hv]; exact ⟨h, rfl⟩
  | some veiculo =>
    cases hf : findAtendimento m veiculo.id e.veiculos_em_atendimento with
    | none => rw [finalizar_none2 e m vaddr t veiculo hv hf]; exact ⟨h, rfl⟩
    | some p =>
      obtain ⟨atendimento, restantes⟩ := p
      have hlen := findAtendimento_length hf
      obtain ⟨hbatt, hbcap, hbfila, -⟩ := finalizarBase_fields e atendimento restantes t
      have hrest : ((finalizarBase e atendimento restantes t).veiculos_em_atendimento.length : ℤ) ≤
          (finalizarBase e atendimento restantes t).capacidade := by
        rw [hbatt, hbcap]
        have : (restantes.length : ℤ) + 1 = (e.veiculos_em_atendimento.length : ℤ) := by
          exact_mod_cast hlen
        omega
      rw [finalizar_eq e m vaddr t veiculo atendimento restantes hv hf]
      cases hfe : (finalizarBase e atendimento restantes t).fila_espera with
      | nil =>
        simp only [hfe]
        rw [hbcap] at hrest
        exact ⟨hrest.trans_eq hbcap.symm, hbcap⟩
      | cons hd tl =>
        simp only [hfe]
        by_cases hdisp : (finalizarBase e atendimento restantes t).esta_disponivel = true
        · rw [if_pos hdisp]
          have hcap3 : ({ finalizarBase e atendimento restantes t with
              fila_espera := tl } : Estacao).capacidade = e.capacidade := hbcap
          have hpre : (({ finalizarBase e atendimento restantes t with
              fila_espera := tl } : Estacao).veiculos_em_atendimento.length : ℤ) ≤
              ({ finalizarBase e atendimento restantes t with
                fila_espera := tl } : Estacao).capacidade := hrest
          have := iniciar_atendimento_cap
            ({ finalizarBase e atendimento restantes t with fila_espera := tl })
            (m.setV vaddr (veiculo.finalizar_recarga atendimento.percentagem_alvo))
            hd 1 t hpre
          exact ⟨this.1, this.2.trans hcap3⟩
        · rw [if_neg hdisp]
          rw [hbcap] at hrest
          exact ⟨hrest.trans_eq hbcap.symm, hbcap⟩

/-- Operations of a station's public interface, tagged with their wall-clock
minute. -/
inductive EstOp
  | iniciar (vaddr : ℕ) (pct t : ℚ)
  | finalizar (vaddr : ℕ) (t : ℚ)
  | atualizar (t : ℚ)
deriving Repr, DecidableEq

/-- One station operation applied to a station/store pair. -/
def estacaoStep (em : Estacao × Mem) (op : EstOp) : Estacao × Mem :=
  match op with
  | EstOp.iniciar v pct t =>
    ((em.1.iniciar_atendimento em.2 v pct t).2.1,
      (em.1.iniciar_atendimento em.2 v pct t).2.2)
  | EstOp.finalizar v t =>
    ((em.1.finalizar_atendimento em.2 v t).2.1,
      (em.1.finalizar_atendimento em.2 v t).2.2)
  | EstOp.atualizar t => em.1.atualizar_estado em.2 t

/-- A sequence of station operations. -/
def runEstacao (em : Estacao × Mem) (ops : List EstOp) : Estacao × Mem :=
  ops.foldl estacaoStep em

theorem foldl_finalizar_cap (l : List Atendimento) (em : Estacao × Mem) (t : ℚ)
    (h : (em.1.veiculos_em_atendimento.length : ℤ) ≤ em.1.capacidade) :
    ((l.foldl (fun em atend =>
        ((Estacao.finalizar_atendimento em.1 em.2 atend.veiculo t).2.1,
         (Estacao.finalizar_atendimento em.1 em.2 atend.veiculo t).2.2)) em).1.veiculos_em_atendimento.length : ℤ) ≤
      (l.foldl (fun em atend =>
        ((Estacao.finalizar_atendimento em.1 em.2 atend.veiculo t).2.1,
         (Estacao.finalizar_atendimento em.1 em.2 atend.veiculo t).2.2)) em).1.capacidade ∧
    (l.foldl (fun em atend =>
        ((Estacao.finalizar_atendimento em.1 em.2 atend.veiculo t).2.1,
         (Estacao.finalizar_atendimento em.1 em.2 atend.veiculo t).2.2)) em).1.capacidade =
      em.1.capacidade := by
  induction l generalizing em with
  | nil => exact ⟨h, rfl⟩
  | cons hd tl ih =>
    have step := finalizar_atendimento_cap em.1 em.2 hd.veiculo t h
    have := ih (((Estacao.finalizar_atendimento em.1 em.2 hd.veiculo t).2.1,
      (Estacao.finalizar_atendimento em.1 em.2 hd.veiculo t).2.2)) step.1
    exact ⟨this.1, this.2.trans step.2⟩

/-- `estacaoStep` preserves the capacity bound and the configured capacity. -/
theorem estacaoStep_cap (em : Estacao × Mem) (op : EstOp)
    (h : (em.1.veiculos_em_atendimento.length : ℤ) ≤ em.1.capacidade) :
    (((estacaoStep em op).1.veiculos_em_atendimento.length : ℤ) ≤
        (estacaoStep em op).1.capacidade) ∧
      (estacaoStep em op).1.capacidade = em.1.capacidade := by
  cases op with
  | iniciar v pct t => exact iniciar_atendimento_cap em.1 em.2 v pct t h
  | finalizar v t => exact finalizar_atendimento_cap em.1 em.2 v t h
  | atualizar t =>
    unfold estacaoStep Estacao.atualizar_estado
    exact foldl_finalizar_cap _ em t h

/-- C4 (amended): (i) across any sequence of `iniciar_atendimento` /
`finalizar_atendimento` / `atualizar_estado` calls, the number of vehicles in
active service never exceeds the configured capacity; (ii) a vehicle the
station cannot admit is appended at the back of the FIFO waiting queue
(unless it is already queued); (iii) when a finishing vehicle releases its
slot, the queue head is admitted within the same call provided the station is
then operational, has a free slot, and the head vehicle's propulsion matches
the station type — an incompatible head is not admitted (it is re-queued at
the back, see the counterexample). -/
theorem C4_station_capacity :
    (∀ (em : Estacao × Mem) (ops : List EstOp),
      (em.1.veiculos_em_atendimento.length : ℤ) ≤ em.1.capacidade →
      ((runEstacao em ops).1.veiculos_em_atendimento.length : ℤ) ≤
        em.1.capacidade) ∧
    (∀ (e : Estacao) (m : Mem) (vaddr : ℕ) (pct t : ℚ) (veiculo : Veiculo),
      m.getV vaddr = some veiculo → e.pode_atender veiculo = false →
      vaddr ∉ e.fila_espera →
      e.iniciar_atendimento m vaddr pct t =
        (false, { e with fila_espera := e.fila_espera ++ [vaddr] }, m)) ∧
    (∀ (e : Estacao) (m : Mem) (vaddr hd : ℕ) (t : ℚ) (veiculo w : Veiculo)
      (atendimento : Atendimento) (restantes : List Atendimento) (tl : List ℕ),
      m.getV vaddr = some veiculo →
      findAtendimento m veiculo.id e.veiculos_em_atendimento =
        some (atendimento, restantes) →
      e.fila_espera = hd :: tl →
      (e.estado = EstadoEstacao.OPERACIONAL ∨ e.estado = EstadoEstacao.LOTADA) →
      (restantes.length : ℤ) < e.capacidade →
      m.getV hd = some w →
      hd ≠ vaddr →
      ((w.tipo = TipoVeiculo.ELETRICO ∧ e.tipo = TipoEstacao.RECARGA_ELETRICA) ∨
        (w.tipo = TipoVeiculo.COMBUSTAO ∧ e.tipo = TipoEstacao.BOMBAS_GASOL)) →
      ((e.finalizar_atendimento m vaddr t).2.1.fila_espera = tl ∧
       ∃ a ∈ (e.finalizar_atendimento m vaddr t).2.1.veiculos_em_atendimento,
         a.veiculo = hd)) := by
  refine ⟨?_, ?_, ?_⟩
  · intro em ops h
    suffices hsuf : ∀ (ops : List EstOp) (em : Estacao × Mem),
        (em.1.veiculos_em_atendimento.length : ℤ) ≤ em.1.capacidade →
        ((runEstacao em ops).1.veiculos_em_atendimento.length : ℤ) ≤
            (runEstacao em ops).1.capacidade ∧
          (runEstacao em ops).1.capacidade = em.1.capacidade by
      have := hsuf ops em h
      rw [← this.2]
      exact this.1
    intro ops
    induction ops with
    | nil => intro em h; exact ⟨h, rfl⟩
    | cons op rest ih =>
      intro em h
      have step := estacaoStep_cap em op h
      have := ih (estacaoStep em op) step.1
      exact ⟨this.1, this.2.trans step.2⟩
  · intro e m vaddr pct t veiculo hv hp hq
    rcases iniciar_atendimento_spec e m vaddr pct t with ⟨hv', _⟩ |
      ⟨v', hv', _, hq', _⟩ | ⟨v', hv', _, _, heq⟩ | ⟨v', hv', hp', _⟩
    · rw [hv] at hv'
      exact Option.noConfusion hv'
    · rw [hv] at hv'
      cases hv'
      exact absurd hq' hq
    · exact heq
    · rw [hv] at hv'
      cases hv'
      rw [hp] at hp'
      exact absurd hp' (by simp)
  · intro e m vaddr hd t veiculo w atendimento restantes tl hv hf hfe hop hlen hw hne htype
    obtain ⟨hbatt, hbcap, hbfila, hbtipo⟩ := finalizarBase_fields e atendimento restantes t
    have hbest := finalizarBase_estado e atendimento restantes t hop
    have hdisp : (finalizarBase e atendimento restantes t).esta_disponivel = true := by
      simp [Estacao.esta_disponivel, hbest, hbatt, hbcap, hlen]
    rw [finalizar_eq e m vaddr t veiculo atendimento restantes hv hf]
    rw [show (finalizarBase e atendimento restantes t).fila_espera = hd :: tl from
      hbfila.trans hfe]
    simp only [if_pos hdisp]
    set e3 : Estacao :=
      { finalizarBase e atendimento restantes t with fila_espera := tl } with he3
    set m1 := m.setV vaddr (veiculo.finalizar_recarga atendimento.percentagem_alvo)
      with hm1
    have hm1get : m1.getV hd = some w := by
      rw [hm1]
      show hGet (hSet m.veiculos vaddr _) hd = some w
      rw [hGet_hSet_ne _ _ _ _ (fun hh => hne hh.symm)]
      exact hw
    have he3disp : e3.esta_disponivel = true := by
      simp [Estacao.esta_disponivel, he3, hbest, hbatt, hbcap, hlen]
    have hpode : e3.pode_atender w = true := by
      unfold Estacao.pode_atender
      rw [he3disp]
      simp only [Bool.true_eq_false, if_neg (by simp : ¬(true : Bool) = false)]
      rcases htype with ⟨ht1, ht2⟩ | ⟨ht1, ht2⟩ <;>
        simp [ht1, he3, hbtipo, ht2]
    rcases iniciar_atendimento_spec e3 m1 hd 1 t with ⟨hv', _⟩ |
      ⟨v', hv', hp', _, _⟩ | ⟨v', hv', hp', _, _⟩ | ⟨v', hv', _, heq⟩
    · rw [hm1get] at hv'
      exact Option.noConfusion hv'
    · rw [hm1get] at hv'
      cases hv'
      rw [hpode] at hp'
      exact absurd hp' (by simp)
    · rw [hm1get] at hv'
      cases hv'
      rw [hpode] at hp'
      exact absurd hp' (by simp)
    · rw [hm1get] at hv'
      cases hv'
      rw [heq]
      constructor
      · rw [iniciarAdmitida_fila]
      · obtain ⟨a, hatt, ha⟩ := iniciarAdmitida_atendimentos e3 hd 1 t w
        refine ⟨a, ?_, ha⟩
        rw [hatt]
        exact List.mem_append_right _ (List.mem_singleton_self a)

/-- Electric taxi, fully charged (concrete instance for the C4 scenario). -/
def veC4 : Veiculo :=
  { id := "V0", tipo := TipoVeiculo.ELETRICO, autonomia_max := 300,
    autonomia_atual := 300, capacidade := 4, custo_por_km := 1/2,
    localizacao := "N1", estado := EstadoVeiculo.DISPONIVEL,
    passageiros_atuais := 0, emissao_co2_por_km := 0, pedido_atual := none,
    destino_atual := none, numero_viagens := 0, rota_atual := [],
    proximo_no_index := 0, progresso_aresta := 0, tipo_str := "eletrico",
    em_missao_recarga := false, consumo_por_km := 1, tempo_em_recarga := 0,
    autonomia_ao_iniciar_recarga := 0 }

/-- Combustion taxi, full tank (concrete instance for the C4 scenario). -/
def vcC4 : Veiculo :=
  { veC4 with id := "V1", tipo := TipoVeiculo.COMBUSTAO, tipo_str := "combustao" }

/-- Store holding the two C4 vehicles at addresses 0 and 1. -/
def memC4 : Mem := { pedidos := [], veiculos := [(0, veC4), (1, vcC4)], next := 2 }

/-- One-slot electric charging station (concrete instance for C4). -/
def eC4 : Estacao :=
  Estacao.mk' "E1" "N1" TipoEstacao.RECARGA_ELETRICA 1 (some 5) (3/10) (18/10)

/-- C4 scenario, step 1: the electric taxi is admitted, filling the station. -/
def c4s1 : Bool × Estacao × Mem := eC4.iniciar_atendimento memC4 0 1 0

/-- C4 scenario, step 2: the combustion taxi arrives at the full station. -/
def c4s2 : Bool × Estacao × Mem := c4s1.2.1.iniciar_atendimento c4s1.2.2 1 1 0

/-- C4 scenario, step 3: the electric taxi finishes, freeing the slot. -/
def c4s3 : Option ℚ × Estacao × Mem := c4s2.2.1.finalizar_atendimento c4s2.2.2 0 5

/-- C4 counterexample to same-call head admission: the combustion taxi is
queued at the full one-slot electric station; when the electric taxi finishes
and frees the slot, the queue head is popped but, being propulsion-
incompatible, it is NOT admitted — the station ends with a free slot,
available, and the head back on the waiting queue. -/
theorem C4_counterexample :
    c4s2.1 = false ∧ c4s2.2.1.fila_espera = [1] ∧
    c4s3.2.1.veiculos_em_atendimento = [] ∧
    c4s3.2.1.fila_espera = [1] ∧
    c4s3.2.1.esta_disponivel = true := by
  norm_num [c4s1, c4s2, c4s3, eC4, memC4, veC4, vcC4, Estacao.mk',
    Estacao.iniciar_atendimento, Estacao.finalizar_atendimento,
    Estacao.pode_atender, Estacao.esta_disponivel, Estacao.esta_lotada,
    Estacao.calcular_tempo_recarga, Estacao.calcular_custo_recarga,
    Mem.getV, Mem.setV, hGet, hSet, findAtendimento,
    Veiculo.iniciar_recarga, Veiculo.finalizar_recarga]
  decide

/-- Witness for C4 at the concrete one-slot station: the capacity invariant
holds across the three-step scenario. -/
theorem C4_witness :
    ((eC4.veiculos_em_atendimento.length : ℤ) ≤ eC4.capacidade) ∧
    (((runEstacao (eC4, memC4) [EstOp.iniciar 0 1 0, EstOp.iniciar 1 1 0,
        EstOp.finalizar 0 5]).1.veiculos_em_atendimento.length : ℤ) ≤
      eC4.capacidade) :=
  ⟨by decide, C4_station_capacity.1 (eC4, memC4) _ (by decide)⟩

/-! ## C9: vehicle movement and range consumption -/

/-- `Grafo.obter_tempo` (congestion-adjusted travel time of an edge). -/
def Grafo.obter_tempo (g : Grafo) (origem destino : String) : Option ℚ :=
  (g.aresta? origem destino).map Aresta.tempo_atual

/-- Body of the `while` loop of `Veiculo.atualizar_posicao`
(`veiculo.py:310-339`), fuel-indexed; the source bounds the loop by
`MAX_ITERACOES = 10`, so fuel `10` reproduces it exactly.  Route indexing is
in bounds whenever `definir_rota` set up the route (out of range would raise
`IndexError` in the source); the location-history log kept by the source is
omitted.  The boolean result is `chegou_ao_destino_final`. -/
def Veiculo.atualizarPosicaoLoop (g : Grafo) :
    ℕ → ℚ → Veiculo → Bool × Veiculo
  | 0, _, v => (false, v)
  | fuel + 1, tempo_disponivel, v =>
    if tempo_disponivel ≤ 0 then (false, v)
    else
      let no_origem := v.rota_atual.getD (v.proximo_no_index - 1) ""
      let no_destino := v.rota_atual.getD v.proximo_no_index ""
      let tempo_total_aresta : ℚ :=
        match g.obter_tempo no_origem no_destino with
        | none => 1 / 100
        | some t => if t = 0 ∨ t < 1 / 100 then 1 / 100 else t
      let tempo_restante_na_aresta := (1 - v.progresso_aresta) * tempo_total_aresta
      if tempo_restante_na_aresta ≤ tempo_disponivel then
        let v1 := { v with localizacao := no_destino,
                           proximo_no_index := v.proximo_no_index + 1,
                           progresso_aresta := 0 }
        if v1.rota_atual.length ≤ v1.proximo_no_index then
          (true, { v1 with rota_atual := [] })
        else
          Veiculo.atualizarPosicaoLoop g fuel
            (tempo_disponivel - tempo_restante_na_aresta) v1
      else
        (false, { v with progresso_aresta :=
          v.progresso_aresta + tempo_disponivel / tempo_total_aresta })

/-- `Veiculo.atualizar_posicao` (the movement tick calls it with
`passo_tempo_min = 0.4` from `atualizar_movimento_veiculos`). -/
def Veiculo.atualizar_posicao (v : Veiculo) (g : Grafo) (passo_tempo_min : ℚ) :
    Bool × Veiculo :=
  if v.rota_atual = [] then (false, v)
  else Veiculo.atualizarPosicaoLoop g 10 passo_tempo_min v

theorem atualizarPosicaoLoop_autonomia (g : Grafo) (fuel : ℕ) :
    ∀ (td : ℚ) (v : Veiculo),
      (Veiculo.atualizarPosicaoLoop g fuel td v).2.autonomia_atual =
        v.autonomia_atual := by
  induction fuel with
  | zero => intro td v; rfl
  | succ n ih =>
    intro td v
    unfold Veiculo.atualizarPosicaoLoop
    dsimp only
    split
    · rfl
    · split
      · split
        · rfl
        · rw [ih]
      · rfl

/-- Two-node graph with an undirected edge of travel time 2 minutes (concrete
instance for C9). -/
def grafoC9 : Grafo :=
  let base := ((Grafo.vazio false).adicionar_no "A" "zona_pickup" (0, 0)
      none 0 "periferia").adicionar_no "B" "zona_pickup" (3, 0) none 0 "periferia"
  (base.adicionar_aresta "A" "B" 3 (some 2) 1 true).getD base

/-- Vehicle en route from `A` to `B` with a full 300 km range (concrete
instance for C9). -/
def veC9 : Veiculo :=
  { veC4 with estado := EstadoVeiculo.A_CAMINHO, localizacao := "A",
              rota_atual := ["A", "B"], proximo_no_index := 1,
              progresso_aresta := 0 }

/-- C9: `atualizar_posicao` — the only routine the movement tick invokes on a
moving vehicle — never changes the remaining range: for every graph, time
budget and vehicle the returned vehicle has the original `autonomia_atual`,
even when it traverses a whole edge (the concrete run below moves the vehicle
from `A` to `B`, 3 km, and reports arrival with the 300 km range intact).
The conversion of traversed fraction into distance and energy exists only in
`Simulacao._consumir_autonomia` and `Veiculo.mover_para`, neither of which is
ever called. -/
theorem C9_movement_consumes_no_range :
    (∀ (g : Grafo) (passo : ℚ) (v : Veiculo),
      ((v.atualizar_posicao g passo).2).autonomia_atual = v.autonomia_atual) ∧
    (veC9.atualizar_posicao grafoC9 3).1 = true ∧
    (veC9.atualizar_posicao grafoC9 3).2.localizacao = "B" ∧
    veC9.localizacao = "A" ∧
    veC9.autonomia_atual = 300 ∧
    (veC9.atualizar_posicao grafoC9 3).2.autonomia_atual = 300 := by
  refine ⟨?_, ?_⟩
  · intro g passo v
    unfold Veiculo.atualizar_posicao
    split
    · rfl
    · exact atualizarPosicaoLoop_autonomia g 10 passo v
  · norm_num [Veiculo.atualizar_posicao, Veiculo.atualizarPosicaoLoop,
      veC9, veC4, grafoC9, Grafo.obter_tempo, Grafo.aresta?, Grafo.vazio,
      Grafo.adicionar_no, Grafo.adicionar_aresta, dSetA, dSet, dGet,
      Aresta.mk', Aresta.tempo_atual, No.mk']
    rw [if_neg (show ¬(["A", "B"] = ([] : List String)) by simp)]
    exact ⟨rfl, rfl, rfl⟩

/-! ## Simulation state (`src/src/core/estado.py`) -/

/-- System snapshot (`class Estado`).  Vehicles are a dict id → object
reference and the request pools hold object references, modelled as `Mem`
addresses; `grafoRef` is the (shared) reference to the city graph.  The
derived statistics recomputed by `_calcular_estatisticas` are functions of
these fields and are not stored. -/
structure Estado where
  timestamp : ℚ
  veiculos : List (String × ℕ)
  pedidos_pendentes : List ℕ
  pedidos_ativos : List ℕ
  pedidos_concluidos : List ℕ
  grafoRef : ℕ
deriving Repr, DecidableEq

/-- `Estado.adicionar_pedido`: a PREMIUM request is inserted at position 0 of
the pending list, any other request is appended at the end.  The request is
passed by reference; a dangling address (impossible under the store
invariant — Python would raise) is a no-op. -/
def Estado.adicionar_pedido (s : Estado) (m : Mem) (paddr : ℕ) : Estado :=
  match m.getP paddr with
  | none => s
  | some pedido =>
    if pedido.prioridade = PrioridadePedido.PREMIUM then
      { s with pedidos_pendentes := paddr :: s.pedidos_pendentes }
    else
      { s with pedidos_pendentes := s.pedidos_pendentes ++ [paddr] }

/-- C10: `adicionar_pedido` inserts a PREMIUM request at the front of the
pending-request list and appends every other request at the end, leaving all
other state fields untouched; the pending pool is therefore ordered with the
most recently added premium requests first. -/
theorem C10_premium_requests_prepended (s : Estado) (m : Mem) (paddr : ℕ)
    (p : Pedido) (h : m.getP paddr = some p) :
    (p.prioridade = PrioridadePedido.PREMIUM →
      s.adicionar_pedido m paddr =
        { s with pedidos_pendentes := paddr :: s.pedidos_pendentes }) ∧
    (p.prioridade ≠ PrioridadePedido.PREMIUM →
      s.adicionar_pedido m paddr =
        { s with pedidos_pendentes := s.pedidos_pendentes ++ [paddr] }) := by
  constructor
  · intro hp
    simp only [Estado.adicionar_pedido, h, if_pos hp]
  · intro hp
    simp only [Estado.adicionar_pedido, h, if_neg hp]

/-- Premium variant of the C3 request (concrete instance for C10). -/
def pedC10 : Pedido := { pedidoC3 with prioridade := PrioridadePedido.PREMIUM }

/-- Store holding the premium request at address 0 and a normal one at 1. -/
def memC10 : Mem := { pedidos := [(0, pedC10), (1, pedidoC3)], veiculos := [], next := 2 }

/-- State with one pending request address (concrete instance for C10). -/
def estadoC10 : Estado :=
  { timestamp := 0, veiculos := [], pedidos_pendentes := [1],
    pedidos_ativos := [], pedidos_concluidos := [], grafoRef := 0 }

/-- Witness for C10: the premium request at address 0 lands at the front of
the pending list of the concrete state. -/
theorem C10_witness :
    (estadoC10.adicionar_pedido memC10 0).pedidos_pendentes = [0, 1] ∧
    (estadoC10.adicionar_pedido memC10 1).pedidos_pendentes = [1, 1] := by
  constructor
  · rw [(C10_premium_requests_prepended estadoC10 memC10 0 pedC10 rfl).1 rfl]
    rfl
  · rw [(C10_premium_requests_prepended estadoC10 memC10 1 pedidoC3 rfl).2
      (by decide)]
    rfl

/-! ## C5: the planner heuristic (`Simulacao._heuristica_estado`) -/

/-- `Estado.obter_veiculos_disponiveis` (dict-order list of the available
vehicle objects; a dangling reference would raise in the source and is
dropped). -/
def Estado.obter_veiculos_disponiveis (s : Estado) (m : Mem) : List Veiculo :=
  (s.veiculos.filterMap (fun p => m.getV p.2)).filter Veiculo.esta_disponivel

/-- `Simulacao._obter_distancia_estacao_mais_proxima`.  The source's
real-valued Euclidean node distance is abstracted as the function argument
`euclid`; Python's `min(·, key=…)` returns the first minimiser, reproduced by
the strict-comparison fold.  With no station of the right kind the source
falls back to 50 km. -/
def obterDistanciaEstacaoMaisProxima (g : Grafo) (euclid : String → String → ℚ)
    (veiculo : Veiculo) (localizacao_destino : String) : ℚ :=
  let tipo_estacao :=
    if veiculo.tipo_str = "eletrico" then "estacao_recarga" else "posto_abastecimento"
  match g.nos.filter (fun p => p.2.tipo = tipo_estacao) with
  | [] => 50
  | e0 :: rest =>
    let mais := rest.foldl (fun best e =>
      if euclid localizacao_destino e.1 < euclid localizacao_destino best.1
      then e else best) e0
    euclid localizacao_destino mais.1

/-- Inner loop of `_heuristica_estado` for one pending request: the running
minimum starts at `float('inf')` (`⊤`) and a vehicle that fails the capacity
or the 1.2×-margin autonomy validation is skipped (`continue`). -/
def minCustoPedido (g : Grafo) (euclid : String → String → ℚ)
    (veiculos_disponiveis : List Veiculo) (percent_centro agora : ℚ)
    (pedido : Pedido) : WithTop ℚ :=
  let tempo_espera_min := agora - pedido.timestamp
  let fator_prioridade : ℚ :=
    match pedido.prioridade with
    | PrioridadePedido.CRITICO => 10
    | PrioridadePedido.PREMIUM => 3
    | PrioridadePedido.NORMAL => 1
  let fator_urgencia := (1 + tempo_espera_min / 30) * fator_prioridade
  veiculos_disponiveis.foldl (fun min_custo veiculo =>
    if veiculo.capacidade < pedido.num_passageiros then min_custo
    else
      let dist_pickup := euclid veiculo.localizacao pedido.origem
      let dist_viagem := euclid pedido.origem pedido.destino
      let dist_total := dist_pickup + dist_viagem
      let dist_estacao := obterDistanciaEstacaoMaisProxima g euclid veiculo pedido.destino
      let autonomia_necessaria := (dist_total + dist_estacao) * (12 / 10)
      if veiculo.autonomia_atual < autonomia_necessaria then min_custo
      else
        let custo_base := dist_total * veiculo.custo_por_km
        let penalizacao_amb : ℚ :=
          match pedido.preferencia_ambiental with
          | PreferenciaAmbiental.APENAS_ELETRICO =>
            if veiculo.tipo_str ≠ "eletrico" then 1000 else 0
          | PreferenciaAmbiental.PREFERENCIA_ELETRICO =>
            if veiculo.tipo_str ≠ "eletrico" then 100 else 0
          | PreferenciaAmbiental.INDIFERENTE => 0
        let custo_zona : ℚ :=
          match dGet g.nos veiculo.localizacao, dGet g.nos pedido.destino with
          | some no_origem, some no_destino =>
            if no_origem.zona = "centro" ∧ no_destino.zona = "periferia" ∧
                percent_centro < 1 / 2 then 200 else 0
          | _, _ => 0
        let custo_opcao : ℚ := custo_base * fator_urgencia + penalizacao_amb + custo_zona
        if (custo_opcao : WithTop ℚ) < min_custo then (custo_opcao : WithTop ℚ)
        else min_custo) ⊤

/-- `Simulacao._heuristica_estado`.  Float infinity is `⊤` of `WithTop ℚ`:
the sum `custo_estimado_total` absorbs an infinite per-request minimum
exactly as IEEE addition does. -/
def heuristicaEstado (g : Grafo) (euclid : String → String → ℚ) (s : Estado)
    (m : Mem) : WithTop ℚ :=
  let veiculos_disponiveis := s.obter_veiculos_disponiveis m
  if veiculos_disponiveis = [] ∧ s.pedidos_pendentes ≠ [] then
    (((s.pedidos_pendentes.length : ℚ) * 10000 : ℚ) : WithTop ℚ)
  else
    let total_frota := s.veiculos.length
    let carros_centro := (s.veiculos.filterMap (fun p => m.getV p.2)).countP
      (fun v => match dGet g.nos v.localizacao with
        | some no => no.zona = "centro"
        | none => false)
    let percent_centro : ℚ :=
      if 0 < total_frota then (carros_centro : ℚ) / (total_frota : ℚ) else 0
    (s.pedidos_pendentes.filterMap m.getP).foldl (fun total pedido =>
      total + minCustoPedido g euclid veiculos_disponiveis percent_centro
        s.timestamp pedido) (0 : WithTop ℚ)

theorem foldl_skip_eq {α β : Type} (f : β → α → β) (l : List α)
    (h : ∀ b : β, ∀ a ∈ l, f b a = b) : ∀ acc : β, l.foldl f acc = acc := by
  induction l with
  | nil => intro acc; rfl
  | cons x xs ih =>
    intro acc
    rw [List.foldl_cons, h acc x (List.mem_cons_self x xs)]
    exact ih (fun b a ha => h b a (List.mem_cons_of_mem x ha)) acc

theorem foldl_add_top {α : Type} (k : α → WithTop ℚ) (l : List α) :
    l.foldl (fun t q => t + k q) ⊤ = ⊤ := by
  induction l with
  | nil => rfl
  | cons x xs ih => rw [List.foldl_cons, top_add]; exact ih

theorem minCustoPedido_all_skip (g : Grafo) (euclid : String → String → ℚ)
    (vs : List Veiculo) (percent agora : ℚ) (pedido : Pedido)
    (h : ∀ v ∈ vs, v.capacidade < pedido.num_passageiros ∨
      v.autonomia_atual < (euclid v.localizacao pedido.origem +
        euclid pedido.origem pedido.destino +
        obterDistanciaEstacaoMaisProxima g euclid v pedido.destino) * (12 / 10)) :
    minCustoPedido g euclid vs percent agora pedido = ⊤ := by
  unfold minCustoPedido
  dsimp only
  refine foldl_skip_eq _ _ ?_ ⊤
  intro b v hv
  dsimp only
  rcases h v hv with hcap | haut
  · rw [if_pos hcap]
  · by_cases hcap : v.capacidade < pedido.num_passageiros
    · rw [if_pos hcap]
    · rw [if_neg hcap, if_pos haut]

/-- C5 (amended): with no available vehicle and a non-empty pending pool the
heuristic is the fixed constant 10000 times the number of pending requests;
but when some vehicle is available and a pending request is feasible for no
available vehicle (each one skipped by the capacity or the autonomy
validation), the request's running minimum stays `float('inf')`, so the whole
heuristic is infinite — the request does not contribute a finite cost of its
own. -/
theorem C5_heuristic_infeasible_request :
    (∀ (g : Grafo) (euclid : String → String → ℚ) (s : Estado) (m : Mem),
      s.obter_veiculos_disponiveis m = [] → s.pedidos_pendentes ≠ [] →
      heuristicaEstado g euclid s m =
        (((s.pedidos_pendentes.length : ℚ) * 10000 : ℚ) : WithTop ℚ)) ∧
    (∀ (g : Grafo) (euclid : String → String → ℚ) (s : Estado) (m : Mem)
      (p : Pedido),
      s.obter_veiculos_disponiveis m ≠ [] →
      p ∈ s.pedidos_pendentes.filterMap m.getP →
      (∀ v ∈ s.obter_veiculos_disponiveis m,
        v.capacidade < p.num_passageiros ∨
        v.autonomia_atual < (euclid v.localizacao p.origem +
          euclid p.origem p.destino +
          obterDistanciaEstacaoMaisProxima g euclid v p.destino) * (12 / 10)) →
      heuristicaEstado g euclid s m = ⊤) := by
  constructor
  · intro g euclid s m h1 h2
    unfold heuristicaEstado
    dsimp only
    rw [if_pos ⟨h1, h2⟩]
  · intro g euclid s m p hne hp hskip
    unfold heuristicaEstado
    dsimp only
    rw [if_neg (fun hc => hne hc.1)]
    obtain ⟨l1, l2, hsplit⟩ := List.append_of_mem hp
    rw [hsplit, List.foldl_append, List.foldl_cons]
    rw [minCustoPedido_all_skip g euclid _ _ _ p hskip, add_top]
    exact foldl_add_top _ l2

/-- Six-passenger variant of the C3 request (no four-seat taxi can serve
it). -/
def pedC5 : Pedido := { pedidoC3 with num_passageiros := 6 }

/-- Store with the infeasible request at address 0 and one available
four-seat taxi at address 1. -/
def memC5 : Mem :=
  { pedidos := [(0, pedC5)], veiculos := [(1, veC4)], next := 2 }

/-- State with the available taxi and the pending six-passenger request. -/
def estadoC5 : Estado :=
  { timestamp := 0, veiculos := [("V0", 1)], pedidos_pendentes := [0],
    pedidos_ativos := [], pedidos_concluidos := [], grafoRef := 0 }

/-- Same state with an empty fleet (for the no-available-vehicle branch). -/
def estadoC5a : Estado := { estadoC5 with veiculos := [] }

/-- C5 counterexample: one taxi is available, yet the six-passenger request
is feasible for no vehicle, and the heuristic evaluates to infinity — not to
a finite per-request cost. -/
theorem C5_counterexample :
    estadoC5.obter_veiculos_disponiveis memC5 ≠ [] ∧
    estadoC5.pedidos_pendentes ≠ [] ∧
    heuristicaEstado grafoC9 (fun _ _ => 1) estadoC5 memC5 = ⊤ := by
  refine ⟨by decide, by decide, ?_⟩
  unfold heuristicaEstado
  dsimp only
  rw [if_neg (by decide : ¬(estadoC5.obter_veiculos_disponiveis memC5 = [] ∧
    estadoC5.pedidos_pendentes ≠ []))]
  rw [show List.filterMap memC5.getP estadoC5.pedidos_pendentes = [pedC5] from rfl]
  rw [List.foldl_cons, List.foldl_nil]
  have hskip : ∀ v ∈ estadoC5.obter_veiculos_disponiveis memC5,
      v.capacidade < pedC5.num_passageiros ∨
      v.autonomia_atual < ((fun _ _ => (1 : ℚ)) v.localizacao pedC5.origem +
        (fun _ _ => (1 : ℚ)) pedC5.origem pedC5.destino +
        obterDistanciaEstacaoMaisProxima grafoC9 (fun _ _ => 1) v
          pedC5.destino) * (12 / 10) := by
    intro v hv
    have hv' : v ∈ [veC4] := hv
    rcases List.mem_singleton.mp hv' with rfl
    left
    decide
  rw [minCustoPedido_all_skip grafoC9 (fun _ _ => 1) _ _ _ pedC5 hskip, add_top]

/-- Witness for C5: the empty-fleet branch returns `1 * 10000` for the
single pending request, and the concrete infeasible-request state evaluates
to infinity, both by the claim theorem. -/
theorem C5_witness :
    heuristicaEstado grafoC9 (fun _ _ => 1) estadoC5a memC5 =
      (((estadoC5a.pedidos_pendentes.length : ℚ) * 10000 : ℚ) : WithTop ℚ) ∧
    heuristicaEstado grafoC9 (fun _ _ => 2) estadoC5 memC5 = ⊤ := by
  constructor
  · exact C5_heuristic_infeasible_request.1 grafoC9 (fun _ _ => 1) estadoC5a
      memC5 (by decide) (by decide)
  · refine C5_heuristic_infeasible_request.2 grafoC9 (fun _ _ => 2) estadoC5
      memC5 pedC5 (by decide) (List.Mem.head _) ?_
    intro v hv
    have hv' : v ∈ [veC4] := hv
    rcases List.mem_singleton.mp hv' with rfl
    left
    decide

/-! ## C6: critical-battery abort (`Simulacao.verificar_e_recarregar_veiculos`) -/

/-- Vehicle dispatched to a recharge station: route set, destination set to
the station node, recharge mission flagged, state `A_CAMINHO`
(`simulacao.py:306-314`). -/
def enviadoParaEstacao (veiculo : Veiculo) (caminho : List String)
    (no_estacao : String) : Veiculo :=
  let v1 := veiculo.definir_rota caminho
  { v1 with destino_atual := some no_estacao, em_missao_recarga := true,
            estado := EstadoVeiculo.A_CAMINHO }

/-- `Simulacao.recarregar_veiculo`: sends a vehicle to the nearest station of
its propulsion kind.  The route search `algoritmo(grafo, origem, destino,
metrica='tempo')` is abstracted as a function returning the path on success,
and the real Euclidean distance as `euclid` (as in the heuristic).  Returns
the success flag and the updated store. -/
def recarregar_veiculo (g : Grafo) (euclid : String → String → ℚ)
    (algoritmo : Grafo → String → String → Option (List String))
    (s : Estado) (m : Mem) (veiculo_id : String) (forcado : Bool) :
    Bool × Mem :=
  match dGet s.veiculos veiculo_id with
  | none => (false, m)
  | some vaddr =>
    match m.getV vaddr with
    | none => (false, m)
    | some veiculo =>
      if forcado = false ∧ veiculo.estado ≠ EstadoVeiculo.DISPONIVEL then (false, m)
      else
        let tipo_estacao :=
          if veiculo.tipo_str = "eletrico" then "estacao_recarga"
          else "posto_abastecimento"
        match g.nos.filter (fun p => p.2.tipo = tipo_estacao) with
        | [] => (false, m)
        | e0 :: rest =>
          let mais := rest.foldl (fun best e =>
            if euclid veiculo.localizacao e.1 < euclid veiculo.localizacao best.1
            then e else best) e0
          match algoritmo g veiculo.localizacao mais.1 with
          | none => (false, m)
          | some caminho =>
            (true, m.setV vaddr (enviadoParaEstacao veiculo caminho mais.1))

/-- Request returned to the pending pool by the critical-battery abort
(`simulacao.py:482-486`): state back to `PENDENTE`, no assigned vehicle. -/
def pedidoDevolvido (pedido : Pedido) : Pedido :=
  { pedido with estado := EstadoPedido.PENDENTE, veiculo_atribuido := none }

/-- Vehicle after the critical-battery abort cleared it
(`simulacao.py:488-498`): no bound request, empty route, zero fractional
progress and passengers, no destination, available again. -/
def veiculoAbortado (v : Veiculo) : Veiculo :=
  { v with pedido_atual := none, rota_atual := [], proximo_no_index := 0,
           progresso_aresta := 0, passageiros_atuais := 0,
           destino_atual := none, estado := EstadoVeiculo.DISPONIVEL }

/-- Body of the `for v in …` loop of `verificar_e_recarregar_veiculos` for
the vehicle at address `vaddr`: CASO 1 sends an available low-battery vehicle
to recharge; CASO 2 aborts a trip at critical battery, returning the bound
active request to the pending pool and clearing the vehicle before sending it
to recharge. -/
def verificar_e_recarregar_passo (g : Grafo) (euclid : String → String → ℚ)
    (algoritmo : Grafo → String → String → Option (List String))
    (limiar limiar_critico : ℚ) (s : Estado) (m : Mem) (vaddr : ℕ) :
    Estado × Mem :=
  match m.getV vaddr with
  | none => (s, m)
  | some v =>
    let percentagem_bateria := v.autonomia_atual / v.autonomia_max
    if v.estado = EstadoVeiculo.DISPONIVEL ∧ percentagem_bateria < limiar then
      (s, (recarregar_veiculo g euclid algoritmo s m v.id false).2)
    else if (v.estado = EstadoVeiculo.A_CAMINHO ∨ v.estado = EstadoVeiculo.EM_SERVICO) ∧
        percentagem_bateria < limiar_critico then
      let sm1 : Estado × Mem :=
        match v.pedido_atual with
        | none => (s, m)
        | some paddr =>
          if paddr ∈ s.pedidos_ativos then
            match m.getP paddr with
            | none => (s, m)
            | some pedido =>
              ({ s with pedidos_ativos := s.pedidos_ativos.erase paddr,
                        pedidos_pendentes := s.pedidos_pendentes ++ [paddr] },
                m.setP paddr (pedidoDevolvido pedido))
          else (s, m)
      let m2 := sm1.2.setV vaddr (veiculoAbortado v)
      (sm1.1, (recarregar_veiculo g euclid algoritmo sm1.1 m2 v.id false).2)
    else (s, m)

theorem recarregar_veiculo_getP (g : Grafo) (euclid : String → String → ℚ)
    (algoritmo : Grafo → String → String → Option (List String))
    (s : Estado) (m : Mem) (veiculo_id : String) (forcado : Bool) (b : ℕ) :
    (recarregar_veiculo g euclid algoritmo s m veiculo_id forcado).2.getP b =
      m.getP b := by
  unfold recarregar_veiculo
  rcases hd : dGet s.veiculos veiculo_id with _ | vaddr
  · rfl
  · dsimp only
    rcases hv : m.getV vaddr with _ | veiculo
    · rfl
    · dsimp only
      split
      · rfl
      · split
        · rfl
        · split
          · rfl
          · rfl

theorem recarregar_veiculo_getV (g : Grafo) (euclid : String → String → ℚ)
    (algoritmo : Grafo → String → String → Option (List String))
    (s : Estado) (m : Mem) (veiculo_id : String) (forcado : Bool)
    (a : ℕ) (w : Veiculo) (hw : m.getV a = some w) :
    ∃ w', (recarregar_veiculo g euclid algoritmo s m veiculo_id forcado).2.getV a
        = some w' ∧
      (w' = w ∨ ∃ caminho no_estacao,
        w' = enviadoParaEstacao w caminho no_estacao) := by
  unfold recarregar_veiculo
  rcases hd : dGet s.veiculos veiculo_id with _ | vaddr
  · exact ⟨w, hw, Or.inl rfl⟩
  · dsimp only
    rcases hv : m.getV vaddr with _ | veiculo
    · exact ⟨w, hw, Or.inl rfl⟩
    · dsimp only
      split
      · exact ⟨w, hw, Or.inl rfl⟩
      · split
        · exact ⟨w, hw, Or.inl rfl⟩
        · rename_i e0 rest hfil
          split
          · exact ⟨w, hw, Or.inl rfl⟩
          · rename_i caminho halg
            by_cases hav : a = vaddr
            · subst hav
              rw [hw] at hv
              cases hv
              refine ⟨enviadoParaEstacao w caminho (rest.foldl (fun best e =>
                  if euclid w.localizacao e.1 < euclid w.localizacao best.1
                  then e else best) e0).1, ?_, Or.inr ⟨caminho, _, rfl⟩⟩
              show hGet (hSet m.veiculos a _) a = _
              rw [hGet_hSet_self]
            · refine ⟨w, ?_, Or.inl rfl⟩
              show hGet (hSet m.veiculos vaddr _) a = some w
              rw [hGet_hSet_ne _ _ _ _ (fun h => hav h.symm)]
              exact hw

/-- C6: when a vehicle's range fraction is below the critical threshold while
en-route-to-pickup or in-service and its bound request is in the active pool,
the same-tick abort removes the request from the active pool, appends it to
the pending pool in state `PENDENTE` with no assigned vehicle (it is never
dropped), and the vehicle is first cleared — route, fractional progress,
passengers, destination, bound request — and then either left available (if
no recharge route exists) or dispatched on a recharge mission from that
cleared state. -/
theorem C6_critical_abort (g : Grafo) (euclid : String → String → ℚ)
    (algoritmo : Grafo → String → String → Option (List String))
    (limiar limiar_critico : ℚ) (s : Estado) (m : Mem) (vaddr paddr : ℕ)
    (v : Veiculo) (pedido : Pedido)
    (hv : m.getV vaddr = some v)
    (hest : v.estado = EstadoVeiculo.A_CAMINHO ∨ v.estado = EstadoVeiculo.EM_SERVICO)
    (hcrit : v.autonomia_atual / v.autonomia_max < limiar_critico)
    (hpa : v.pedido_atual = some paddr)
    (hmem : paddr ∈ s.pedidos_ativos)
    (hp : m.getP paddr = some pedido) :
    (verificar_e_recarregar_passo g euclid algoritmo limiar limiar_critico
        s m vaddr).1.pedidos_ativos = s.pedidos_ativos.erase paddr ∧
    (verificar_e_recarregar_passo g euclid algoritmo limiar limiar_critico
        s m vaddr).1.pedidos_pendentes = s.pedidos_pendentes ++ [paddr] ∧
    (verificar_e_recarregar_passo g euclid algoritmo limiar limiar_critico
        s m vaddr).2.getP paddr = some (pedidoDevolvido pedido) ∧
    ((veiculoAbortado v).rota_atual = [] ∧ (veiculoAbortado v).progresso_aresta = 0 ∧
      (veiculoAbortado v).passageiros_atuais = 0 ∧
      (veiculoAbortado v).destino_atual = none ∧
      (veiculoAbortado v).pedido_atual = none) ∧
    ∃ v', (verificar_e_recarregar_passo g euclid algoritmo limiar limiar_critico
        s m vaddr).2.getV vaddr = some v' ∧
      (v' = veiculoAbortado v ∨ ∃ caminho no_estacao,
        v' = enviadoParaEstacao (veiculoAbortado v) caminho no_estacao) := by
  have h1 : ¬(v.estado = EstadoVeiculo.DISPONIVEL ∧
      v.autonomia_atual / v.autonomia_max < limiar) := by
    intro hc
    rcases hest with h | h <;> rw [h] at hc <;> exact absurd hc.1 (by decide)
  have hred : verificar_e_recarregar_passo g euclid algoritmo limiar
      limiar_critico s m vaddr =
      ({ s with pedidos_ativos := s.pedidos_ativos.erase paddr,
                pedidos_pendentes := s.pedidos_pendentes ++ [paddr] },
        (recarregar_veiculo g euclid algoritmo
          { s with pedidos_ativos := s.pedidos_ativos.erase paddr,
                   pedidos_pendentes := s.pedidos_pendentes ++ [paddr] }
          ((m.setP paddr (pedidoDevolvido pedido)).setV vaddr (veiculoAbortado v))
          v.id false).2) := by
    unfold verificar_e_recarregar_passo
    simp only [hv]
    rw [if_neg h1, if_pos ⟨hest, hcrit⟩]
    simp only [hpa, if_pos hmem, hp]
  rw [hred]
  refine ⟨rfl, rfl, ?_, ⟨rfl, rfl, rfl, rfl, rfl⟩, ?_⟩
  · rw [recarregar_veiculo_getP]
    show hGet (hSet m.pedidos paddr _) paddr = _
    rw [hGet_hSet_self]
  · refine recarregar_veiculo_getV g euclid algoritmo _ _ v.id false vaddr
      (veiculoAbortado v) ?_
    show hGet (hSet _ vaddr _) vaddr = _
    rw [hGet_hSet_self]

/-- In-service taxi at 10% charge bound to the request at address 0
(concrete instance for C6). -/
def veC6 : Veiculo :=
  { veC4 with estado := EstadoVeiculo.EM_SERVICO, autonomia_atual := 30,
              pedido_atual := some 0, passageiros_atuais := 2,
              rota_atual := ["A", "B"], proximo_no_index := 1,
              destino_atual := some "B" }

/-- The request bound to the C6 taxi. -/
def pedC6 : Pedido := { pedidoC3 with veiculo_atribuido := some 1 }

/-- Store and state for the C6 scenario: the request is active, the taxi is
at critical battery. -/
def memC6 : Mem :=
  { pedidos := [(0, pedC6)], veiculos := [(1, veC6)], next := 2 }

def estadoC6 : Estado :=
  { timestamp := 0, veiculos := [("V0", 1)], pedidos_pendentes := [],
    pedidos_ativos := [0], pedidos_concluidos := [], grafoRef := 0 }

theorem veC6_pct : veC6.autonomia_atual / veC6.autonomia_max < 3 / 20 := by
  norm_num [veC6, veC4]

/-- Witness for C6 at the concrete critical-battery scenario (10% < 15%,
no recharge route found, so the taxi stays in its cleared state). -/
theorem C6_witness :
    (verificar_e_recarregar_passo grafoC9 (fun _ _ => 1) (fun _ _ _ => none)
        (3 / 10) (3 / 20) estadoC6 memC6 1).1.pedidos_ativos =
      estadoC6.pedidos_ativos.erase 0 ∧
    (verificar_e_recarregar_passo grafoC9 (fun _ _ => 1) (fun _ _ _ => none)
        (3 / 10) (3 / 20) estadoC6 memC6 1).1.pedidos_pendentes =
      estadoC6.pedidos_pendentes ++ [0] ∧
    (verificar_e_recarregar_passo grafoC9 (fun _ _ => 1) (fun _ _ _ => none)
        (3 / 10) (3 / 20) estadoC6 memC6 1).2.getP 0 =
      some (pedidoDevolvido pedC6) ∧
    ((veiculoAbortado veC6).rota_atual = [] ∧
      (veiculoAbortado veC6).progresso_aresta = 0 ∧
      (veiculoAbortado veC6).passageiros_atuais = 0 ∧
      (veiculoAbortado veC6).destino_atual = none ∧
      (veiculoAbortado veC6).pedido_atual = none) ∧
    ∃ v', (verificar_e_recarregar_passo grafoC9 (fun _ _ => 1) (fun _ _ _ => none)
        (3 / 10) (3 / 20) estadoC6 memC6 1).2.getV 1 = some v' ∧
      (v' = veiculoAbortado veC6 ∨ ∃ caminho no_estacao,
        v' = enviadoParaEstacao (veiculoAbortado veC6) caminho no_estacao) :=
  C6_critical_abort grafoC9 (fun _ _ => 1) (fun _ _ _ => none) (3 / 10) (3 / 20)
    estadoC6 memC6 1 0 veC6 pedC6 rfl (Or.inr rfl) veC6_pct rfl
    (List.Mem.head _) rfl

/-! ## C2: `Estado.clonar` / `aplicar_acao` (deep copy and frame effects) -/

theorem hGet_some_mem {β : Type} (l : List (ℕ × β)) (k : ℕ) (v : β)
    (h : hGet l k = some v) : (k, v) ∈ l := by
  induction l with
  | nil => exact absurd h (by simp [hGet])
  | cons hd tl ih =>
    obtain ⟨k', v'⟩ := hd
    by_cases hk : k' = k
    · subst hk
      rw [hGet, if_pos rfl] at h
      cases h
      exact List.mem_cons_self _ _
    · rw [hGet, if_neg hk] at h
      exact List.mem_cons_of_mem _ (ih h)

theorem mem_hSet {β : Type} (l : List (ℕ × β)) (k : ℕ) (v : β) (q : ℕ × β)
    (h : q ∈ hSet l k v) : q = (k, v) ∨ q ∈ l := by
  induction l with
  | nil =>
    rw [hSet] at h
    rcases List.mem_singleton.mp h with rfl
    exact Or.inl rfl
  | cons hd tl ih =>
    obtain ⟨k', v'⟩ := hd
    by_cases hk : k' = k
    · subst hk
      rw [hSet, if_pos rfl] at h
      rcases List.mem_cons.mp h with rfl | hq
      · exact Or.inl rfl
      · exact Or.inr (List.mem_cons_of_mem _ hq)
    · rw [hSet, if_neg hk] at h
      rcases List.mem_cons.mp h with rfl | hq
      · exact Or.inr (List.mem_cons_self _ _)
      · rcases ih hq with h1 | h1
        · exact Or.inl h1
        · exact Or.inr (List.mem_cons_of_mem _ h1)

/-- Allocation of a fresh request object at the store counter. -/
def allocP (m : Mem) (p : Pedido) : Mem :=
  { m with pedidos := hSet m.pedidos m.next p, next := m.next + 1 }

/-- Allocation of a fresh vehicle object at the store counter. -/
def allocV (m : Mem) (w : Veiculo) : Mem :=
  { m with veiculos := hSet m.veiculos m.next w, next := m.next + 1 }

/-- Clone relation realised by `copy.deepcopy` on one request object: every
field equals the original's except the vehicle reference, whose presence is
preserved (the reference itself is remapped to the cloned vehicle). -/
def copiedP (p p' : Pedido) : Prop :=
  ∃ r, p' = { p with veiculo_atribuido := r } ∧
    (r = none ↔ p.veiculo_atribuido = none)

/-- Clone relation realised by `copy.deepcopy` on one vehicle object. -/
def copiedV (w w' : Veiculo) : Prop :=
  ∃ r, w' = { w with pedido_atual := r } ∧ (r = none ↔ w.pedido_atual = none)

theorem copiedP_refl (p : Pedido) : copiedP p p :=
  ⟨p.veiculo_atribuido, rfl, Iff.rfl⟩

theorem copiedV_refl (w : Veiculo) : copiedV w w :=
  ⟨w.pedido_atual, rfl, Iff.rfl⟩

mutual

/-- `copy.deepcopy` of one request object over the store: the clone address
is allocated and recorded in the memo before the reference field is recursed
into, exactly as `copy.deepcopy` memoises; a memoised object returns its
existing clone.  `fuel` bounds the reference-chain depth (`Estado.clonar`
passes more fuel than there are stored objects, so the bound is never the
limiting factor, matching Python's memo-guaranteed termination). -/
def deepcopyP : ℕ → List (ℕ × ℕ) → List (ℕ × ℕ) → Mem → ℕ →
    ℕ × List (ℕ × ℕ) × List (ℕ × ℕ) × Mem
  | fuel, memoP, memoV, m, a =>
    match hGet memoP a with
    | some a' => (a', memoP, memoV, m)
    | none =>
      match m.getP a with
      | none => (a, memoP, memoV, m)
      | some p =>
        let a' := m.next
        let memoP1 := hSet memoP a a'
        let m1 := allocP m p
        match fuel with
        | 0 => (a', memoP1, memoV, m1)
        | fuel' + 1 =>
          match p.veiculo_atribuido with
          | none => (a', memoP1, memoV, m1)
          | some va =>
            let r := deepcopyV fuel' memoP1 memoV m1 va
            (a', r.2.1, r.2.2.1,
              r.2.2.2.setP a' { p with veiculo_atribuido := some r.1 })

/-- `copy.deepcopy` of one vehicle object over the store (see
`deepcopyP`). -/
def deepcopyV : ℕ → List (ℕ × ℕ) → List (ℕ × ℕ) → Mem → ℕ →
    ℕ × List (ℕ × ℕ) × List (ℕ × ℕ) × Mem
  | fuel, memoP, memoV, m, a =>
    match hGet memoV a with
    | some a' => (a', memoP, memoV, m)
    | none =>
      match m.getV a with
      | none => (a, memoP, memoV, m)
      | some w =>
        let a' := m.next
        let memoV1 := hSet memoV a a'
        let m1 := allocV m w
        match fuel with
        | 0 => (a', memoP, memoV1, m1)
        | fuel' + 1 =>
          match w.pedido_atual with
          | none => (a', memoP, memoV1, m1)
          | some pa =>
            let r := deepcopyP fuel' memoP memoV1 m1 pa
            (a', r.2.1, r.2.2.1,
              r.2.2.2.setV a' { w with pedido_atual := some r.1 })

end

/-- `copy.deepcopy` of a list of request references. -/
def deepcopyPList (fuel : ℕ) :
    List (ℕ × ℕ) → List (ℕ × ℕ) → Mem → List ℕ →
    List ℕ × List (ℕ × ℕ) × List (ℕ × ℕ) × Mem
  | memoP, memoV, m, [] => ([], memoP, memoV, m)
  | memoP, memoV, m, a :: rest =>
    let r := deepcopyP fuel memoP memoV m a
    let rr := deepcopyPList fuel r.2.1 r.2.2.1 r.2.2.2 rest
    (r.1 :: rr.1, rr.2)

/-- `copy.deepcopy` of the id → vehicle dict: string keys are immutable and
kept, values are deep-copied in order. -/
def deepcopyVDict (fuel : ℕ) :
    List (ℕ × ℕ) → List (ℕ × ℕ) → Mem → List (String × ℕ) →
    List (String × ℕ) × List (ℕ × ℕ) × List (ℕ × ℕ) × Mem
  | memoP, memoV, m, [] => ([], memoP, memoV, m)
  | memoP, memoV, m, q :: rest =>
    let r := deepcopyV fuel memoP memoV m q.2
    let rr := deepcopyVDict fuel r.2.1 r.2.2.1 r.2.2.2 rest
    ((q.1, r.1) :: rr.1, rr.2)

/-- `Estado.clonar`: four separate `deepcopy` calls (vehicles dict, pending,
active, concluded lists), each with a fresh memo, and the graph reference
shared, exactly as the source's constructor call. -/
def Estado.clonar (s : Estado) (m : Mem) : Estado × Mem :=
  let fuel := m.pedidos.length + m.veiculos.length + 1
  let rv := deepcopyVDict fuel [] [] m s.veiculos
  let rp := deepcopyPList fuel [] [] rv.2.2.2 s.pedidos_pendentes
  let ra := deepcopyPList fuel [] [] rp.2.2.2 s.pedidos_ativos
  let rc := deepcopyPList fuel [] [] ra.2.2.2 s.pedidos_concluidos
  ({ timestamp := s.timestamp, veiculos := rv.1, pedidos_pendentes := rp.1,
     pedidos_ativos := ra.1, pedidos_concluidos := rc.1,
     grafoRef := s.grafoRef }, rc.2.2.2)

/-- `Pedido.atribuir_veiculo` (`datetime.now()` passed explicitly as
`agora`). -/
def Pedido.atribuir_veiculo (p : Pedido) (vaddr : ℕ) (agora : ℚ) : Pedido :=
  { p with veiculo_atribuido := some vaddr, estado := EstadoPedido.ATRIBUIDO,
           timestamp_atribuicao := some agora,
           tempo_espera_real := some (agora - p.timestamp) }

/-- `Pedido.aceita_veiculo`. -/
def Pedido.aceita_veiculo (p : Pedido) (v : Veiculo) : Bool :=
  if p.preferencia_ambiental = PreferenciaAmbiental.APENAS_ELETRICO then
    v.tipo_str = "eletrico"
  else true

/-- `Estado.atribuir_pedido`: moves a pending request to the active pool and
binds request and vehicle to each other. -/
def Estado.atribuir_pedido (s : Estado) (m : Mem) (paddr vaddr : ℕ)
    (agora : ℚ) : Bool × Estado × Mem :=
  if paddr ∉ s.pedidos_pendentes then (false, s, m)
  else
    match m.getV vaddr, m.getP paddr with
    | some veiculo, some pedido =>
      if veiculo.esta_disponivel = false then (false, s, m)
      else
        let s1 := { s with pedidos_pendentes := s.pedidos_pendentes.erase paddr,
                           pedidos_ativos := s.pedidos_ativos ++ [paddr] }
        let m1 := m.setP paddr (pedido.atribuir_veiculo vaddr agora)
        let m2 := m1.setV vaddr
          (veiculo.iniciar_viagem paddr pedido.num_passageiros pedido.destino)
        (true, s1, m2)
    | _, _ => (false, s, m)

/-- One `atribuir` action of the Assignment Planner (the dicts built by
`obter_acoes_possiveis`); the request and vehicle are object references. -/
structure Acao where
  pedido : ℕ
  veiculo : ℕ
  distancia_estimada : ℚ
deriving Repr, DecidableEq

/-- `Estado.obter_acoes_possiveis`: one action per pending request and
available vehicle passing the wait-time, reachability, capacity/range and
preference filters (Euclidean distance abstracted as `euclid`). -/
def Estado.obter_acoes_possiveis (euclid : String → String → ℚ) (s : Estado)
    (m : Mem) : List Acao :=
  let veiculos_disp :=
    ((s.veiculos.filterMap (fun q => (m.getV q.2).map (fun w => (q.2, w)))).filter
      (fun q => q.2.esta_disponivel))
  (s.pedidos_pendentes.filterMap
      (fun pa => (m.getP pa).map (fun p => (pa, p)))).flatMap
    (fun q =>
      let tempo_decorrido := s.timestamp - q.2.timestamp
      if tempo_decorrido > q.2.tempo_espera_maximo then []
      else veiculos_disp.filterMap (fun vq =>
        let dist_origem := euclid vq.2.localizacao q.2.origem
        let tempo_ate_cliente := dist_origem / 40 * 60
        if tempo_decorrido + tempo_ate_cliente > q.2.tempo_espera_maximo then
          none
        else
          let dist_viagem := euclid q.2.origem q.2.destino
          let dist_total := dist_origem + dist_viagem
          if vq.2.pode_atender_pedido q.2.num_passageiros dist_total = false then
            none
          else if q.2.aceita_veiculo vq.2 = false then none
          else some ⟨q.1, vq.1, dist_total⟩))

/-- `Estado.aplicar_acao`: clones the state, finds the cloned request by id
and the cloned vehicle by dict key, and assigns them in the clone.  The
source's `next(...)` / dict accesses would raise when the lookups fail; the
clone is returned unmodified in those (unreachable) cases. -/
def Estado.aplicar_acao (s : Estado) (m : Mem) (acao : Acao) (agora : ℚ) :
    Estado × Mem :=
  let r := s.clonar m
  match m.getP acao.pedido, m.getV acao.veiculo with
  | some pedido, some veiculo =>
    match r.1.pedidos_pendentes.find? (fun pa =>
        match r.2.getP pa with
        | some p => p.id = pedido.id
        | none => false) with
    | none => r
    | some npa =>
      match dGet r.1.veiculos veiculo.id with
      | none => r
      | some nva =>
        ((r.1.atribuir_pedido r.2 npa nva agora).2.1,
          (r.1.atribuir_pedido r.2 npa nva agora).2.2)
  | _, _ => r

/-- Addresses bound in the store are below the allocation counter. -/
def Mem.wfBound (m : Mem) : Prop :=
  (∀ q ∈ m.pedidos, q.1 < m.next) ∧ (∀ q ∈ m.veiculos, q.1 < m.next)

/-- `m1` extends `m0`: the counter grew and every address below `m0`'s
counter holds the same objects. -/
def MemExt (m0 m1 : Mem) : Prop :=
  m0.next ≤ m1.next ∧
    ∀ b < m0.next, m1.getP b = m0.getP b ∧ m1.getV b = m0.getV b

theorem MemExt_refl (m : Mem) : MemExt m m := ⟨le_refl _, fun _ _ => ⟨rfl, rfl⟩⟩

theorem MemExt_trans {m0 m1 m2 : Mem} (h1 : MemExt m0 m1) (h2 : MemExt m1 m2) :
    MemExt m0 m2 := by
  refine ⟨h1.1.trans h2.1, fun b hb => ?_⟩
  have e1 := h1.2 b hb
  have e2 := h2.2 b (lt_of_lt_of_le hb h1.1)
  exact ⟨e2.1.trans e1.1, e2.2.trans e1.2⟩

/-- Deep-copy memo invariant for request entries: clone addresses are fresh
(at least `base`), bound, and hold a clone of the object at the original
address. -/
def InvP (base : ℕ) (m : Mem) (memoP : List (ℕ × ℕ)) : Prop :=
  ∀ q ∈ memoP, base ≤ q.2 ∧ q.2 < m.next ∧
    ∃ p p', m.getP q.1 = some p ∧ m.getP q.2 = some p' ∧ copiedP p p'

/-- Deep-copy memo invariant for vehicle entries. -/
def InvV (base : ℕ) (m : Mem) (memoV : List (ℕ × ℕ)) : Prop :=
  ∀ q ∈ memoV, base ≤ q.2 ∧ q.2 < m.next ∧
    ∃ w w', m.getV q.1 = some w ∧ m.getV q.2 = some w' ∧ copiedV w w'

theorem allocP_getP_self (m : Mem) (p : Pedido) :
    (allocP m p).getP m.next = some p := hGet_hSet_self _ _ _

theorem allocP_getP_ne (m : Mem) (p : Pedido) (b : ℕ) (h : b ≠ m.next) :
    (allocP m p).getP b = m.getP b :=
  hGet_hSet_ne _ _ _ _ (fun hh => h hh.symm)

theorem allocP_getV (m : Mem) (p : Pedido) (b : ℕ) :
    (allocP m p).getV b = m.getV b := rfl

theorem allocP_next (m : Mem) (p : Pedido) :
    (allocP m p).next = m.next + 1 := rfl

theorem allocV_getV_self (m : Mem) (w : Veiculo) :
    (allocV m w).getV m.next = some w := hGet_hSet_self _ _ _

theorem allocV_getV_ne (m : Mem) (w : Veiculo) (b : ℕ) (h : b ≠ m.next) :
    (allocV m w).getV b = m.getV b :=
  hGet_hSet_ne _ _ _ _ (fun hh => h hh.symm)

theorem allocV_getP (m : Mem) (w : Veiculo) (b : ℕ) :
    (allocV m w).getP b = m.getP b := rfl

theorem allocV_next (m : Mem) (w : Veiculo) :
    (allocV m w).next = m.next + 1 := rfl

theorem allocP_wf (m : Mem) (p : Pedido) (h : Mem.wfBound m) :
    Mem.wfBound (allocP m p) := by
  constructor
  · intro q hq
    rcases mem_hSet _ _ _ _ hq with rfl | hq'
    · exact Nat.lt_succ_self _
    · exact lt_trans (h.1 q hq') (Nat.lt_succ_self _)
  · intro q hq
    exact lt_trans (h.2 q hq) (Nat.lt_succ_self _)

theorem allocV_wf (m : Mem) (w : Veiculo) (h : Mem.wfBound m) :
    Mem.wfBound (allocV m w) := by
  constructor
  · intro q hq
    exact lt_trans (h.1 q hq) (Nat.lt_succ_self _)
  · intro q hq
    rcases mem_hSet _ _ _ _ hq with rfl | hq'
    · exact Nat.lt_succ_self _
    · exact lt_trans (h.2 q hq') (Nat.lt_succ_self _)

theorem allocP_ext (m : Mem) (p : Pedido) (h : Mem.wfBound m) :
    MemExt m (allocP m p) := by
  refine ⟨Nat.le_succ _, fun b hb => ⟨?_, rfl⟩⟩
  exact allocP_getP_ne m p b (Nat.ne_of_lt hb)

theorem allocV_ext (m : Mem) (w : Veiculo) (h : Mem.wfBound m) :
    MemExt m (allocV m w) := by
  refine ⟨Nat.le_succ _, fun b hb => ⟨rfl, ?_⟩⟩
  exact allocV_getV_ne m w b (Nat.ne_of_lt hb)

theorem getP_some_lt (m : Mem) (a : ℕ) (p : Pedido) (hwf : Mem.wfBound m)
    (h : m.getP a = some p) : a < m.next :=
  hwf.1 (a, p) (hGet_some_mem _ _ _ h)

theorem getV_some_lt (m : Mem) (a : ℕ) (w : Veiculo) (hwf : Mem.wfBound m)
    (h : m.getV a = some w) : a < m.next :=
  hwf.2 (a, w) (hGet_some_mem _ _ _ h)

theorem setP_getP_self (m : Mem) (a : ℕ) (p : Pedido) :
    (m.setP a p).getP a = some p := hGet_hSet_self _ _ _

theorem setP_getP_ne (m : Mem) (a : ℕ) (p : Pedido) (b : ℕ) (h : b ≠ a) :
    (m.setP a p).getP b = m.getP b :=
  hGet_hSet_ne _ _ _ _ (fun hh => h hh.symm)

theorem setP_getV (m : Mem) (a : ℕ) (p : Pedido) (b : ℕ) :
    (m.setP a p).getV b = m.getV b := rfl

theorem setP_next (m : Mem) (a : ℕ) (p : Pedido) :
    (m.setP a p).next = m.next := rfl

theorem setV_getV_self (m : Mem) (a : ℕ) (w : Veiculo) :
    (m.setV a w).getV a = some w := hGet_hSet_self _ _ _

theorem setV_getV_ne (m : Mem) (a : ℕ) (w : Veiculo) (b : ℕ) (h : b ≠ a) :
    (m.setV a w).getV b = m.getV b :=
  hGet_hSet_ne _ _ _ _ (fun hh => h hh.symm)

theorem setV_getP (m : Mem) (a : ℕ) (w : Veiculo) (b : ℕ) :
    (m.setV a w).getP b = m.getP b := rfl

theorem setV_next (m : Mem) (a : ℕ) (w : Veiculo) :
    (m.setV a w).next = m.next := rfl

theorem setP_wf (m : Mem) (a : ℕ) (p : Pedido) (ha : a < m.next)
    (h : Mem.wfBound m) : Mem.wfBound (m.setP a p) := by
  constructor
  · intro q hq
    rcases mem_hSet _ _ _ _ hq with rfl | hq'
    · exact ha
    · exact h.1 q hq'
  · exact h.2

theorem setV_wf (m : Mem) (a : ℕ) (w : Veiculo) (ha : a < m.next)
    (h : Mem.wfBound m) : Mem.wfBound (m.setV a w) := by
  constructor
  · exact h.1
  · intro q hq
    rcases mem_hSet _ _ _ _ hq with rfl | hq'
    · exact ha
    · exact h.2 q hq'

theorem copiedP_left_update (p0 p' : Pedido) (x : ℕ)
    (h : copiedP p0 p') (hs : p0.veiculo_atribuido ≠ none) :
    copiedP { p0 with veiculo_atribuido := some x } p' := by
  obtain ⟨r, hr, hn⟩ := h
  refine ⟨r, hr, ?_, ?_⟩
  · intro hrn
    exact absurd (hn.mp hrn) hs
  · intro hxx
    exact Option.noConfusion hxx

theorem copiedP_right_update (p0 pOld : Pedido) (x : ℕ)
    (h : copiedP p0 pOld) (hs : pOld.veiculo_atribuido ≠ none) :
    copiedP p0 { pOld with veiculo_atribuido := some x } := by
  obtain ⟨r, hr, hn⟩ := h
  have hrne : r ≠ none := by
    intro hrn
    apply hs
    rw [hr]
    exact hrn
  refine ⟨some x, by rw [hr], ?_, ?_⟩
  · intro hxx
    exact Option.noConfusion hxx
  · intro hp
    exact absurd (hn.mpr hp) hrne

theorem copiedV_left_update (w0 w' : Veiculo) (x : ℕ)
    (h : copiedV w0 w') (hs : w0.pedido_atual ≠ none) :
    copiedV { w0 with pedido_atual := some x } w' := by
  obtain ⟨r, hr, hn⟩ := h
  refine ⟨r, hr, ?_, ?_⟩
  · intro hrn
    exact absurd (hn.mp hrn) hs
  · intro hxx
    exact Option.noConfusion hxx

theorem copiedV_right_update (w0 wOld : Veiculo) (x : ℕ)
    (h : copiedV w0 wOld) (hs : wOld.pedido_atual ≠ none) :
    copiedV w0 { wOld with pedido_atual := some x } := by
  obtain ⟨r, hr, hn⟩ := h
  have hrne : r ≠ none := by
    intro hrn
    apply hs
    rw [hr]
    exact hrn
  refine ⟨some x, by rw [hr], ?_, ?_⟩
  · intro hxx
    exact Option.noConfusion hxx
  · intro hp
    exact absurd (hn.mpr hp) hrne

theorem InvP_allocP (base : ℕ) (m : Mem) (memoP : List (ℕ × ℕ)) (p : Pedido)
    (hwf : Mem.wfBound m) (h : InvP base m memoP) :
    InvP base (allocP m p) memoP := by
  intro q hq
  obtain ⟨h1, h2, p0, p', hp0, hp', hc⟩ := h q hq
  refine ⟨h1, lt_trans h2 (Nat.lt_succ_self _), p0, p', ?_, ?_, hc⟩
  · rw [allocP_getP_ne _ _ _ (Nat.ne_of_lt (getP_some_lt m q.1 p0 hwf hp0))]
    exact hp0
  · rw [allocP_getP_ne _ _ _ (Nat.ne_of_lt h2)]
    exact hp'

theorem InvP_allocV (base : ℕ) (m : Mem) (memoP : List (ℕ × ℕ)) (w : Veiculo)
    (h : InvP base m memoP) : InvP base (allocV m w) memoP := by
  intro q hq
  obtain ⟨h1, h2, p0, p', hp0, hp', hc⟩ := h q hq
  exact ⟨h1, lt_trans h2 (Nat.lt_succ_self _), p0, p', hp0, hp', hc⟩

theorem InvV_allocV (base : ℕ) (m : Mem) (memoV : List (ℕ × ℕ)) (w : Veiculo)
    (hwf : Mem.wfBound m) (h : InvV base m memoV) :
    InvV base (allocV m w) memoV := by
  intro q hq
  obtain ⟨h1, h2, w0, w', hw0, hw', hc⟩ := h q hq
  refine ⟨h1, lt_trans h2 (Nat.lt_succ_self _), w0, w', ?_, ?_, hc⟩
  · rw [allocV_getV_ne _ _ _ (Nat.ne_of_lt (getV_some_lt m q.1 w0 hwf hw0))]
    exact hw0
  · rw [allocV_getV_ne _ _ _ (Nat.ne_of_lt h2)]
    exact hw'

theorem InvV_allocP (base : ℕ) (m : Mem) (memoV : List (ℕ × ℕ)) (p : Pedido)
    (h : InvV base m memoV) : InvV base (allocP m p) memoV := by
  intro q hq
  obtain ⟨h1, h2, w0, w', hw0, hw', hc⟩ := h q hq
  exact ⟨h1, lt_trans h2 (Nat.lt_succ_self _), w0, w', hw0, hw', hc⟩

theorem InvP_insert (base : ℕ) (m : Mem) (memoP : List (ℕ × ℕ)) (a : ℕ)
    (p : Pedido) (hbase : base ≤ m.next) (hwf : Mem.wfBound m)
    (h : InvP base m memoP) (hp : m.getP a = some p) :
    InvP base (allocP m p) (hSet memoP a m.next) := by
  intro q hq
  rcases mem_hSet _ _ _ _ hq with rfl | hq'
  · refine ⟨hbase, Nat.lt_succ_self _, p, p, ?_, allocP_getP_self m p,
      copiedP_refl p⟩
    rw [allocP_getP_ne _ _ _ (Nat.ne_of_lt (getP_some_lt m a p hwf hp))]
    exact hp
  · exact InvP_allocP base m memoP p hwf h q hq'

theorem InvV_insert (base : ℕ) (m : Mem) (memoV : List (ℕ × ℕ)) (a : ℕ)
    (w : Veiculo) (hbase : base ≤ m.next) (hwf : Mem.wfBound m)
    (h : InvV base m memoV) (hw : m.getV a = some w) :
    InvV base (allocV m w) (hSet memoV a m.next) := by
  intro q hq
  rcases mem_hSet _ _ _ _ hq with rfl | hq'
  · refine ⟨hbase, Nat.lt_succ_self _, w, w, ?_, allocV_getV_self m w,
      copiedV_refl w⟩
    rw [allocV_getV_ne _ _ _ (Nat.ne_of_lt (getV_some_lt m a w hwf hw))]
    exact hw
  · exact InvV_allocV base m memoV w hwf h q hq'

theorem InvP_setP_fix (base : ℕ) (m : Mem) (memoP : List (ℕ × ℕ)) (c x y : ℕ)
    (pOld : Pedido) (hc : m.getP c = some pOld)
    (hy : pOld.veiculo_atribuido = some y) (h : InvP base m memoP) :
    InvP base (m.setP c { pOld with veiculo_atribuido := some x }) memoP := by
  have hyne : pOld.veiculo_atribuido ≠ none := by rw [hy]; exact fun hh => Option.noConfusion hh
  intro q hq
  obtain ⟨h1, h2, p0, p', hp0, hp', hcp⟩ := h q hq
  by_cases hq1 : q.1 = c <;> by_cases hq2 : q.2 = c
  · rw [hq1] at hp0
    rw [hq2] at hp'
    rw [hc] at hp0 hp'
    cases hp0
    cases hp'
    refine ⟨h1, h2, { pOld with veiculo_atribuido := some x },
      { pOld with veiculo_atribuido := some x }, ?_, ?_, copiedP_refl _⟩
    · rw [hq1]
      exact setP_getP_self m c _
    · rw [hq2]
      exact setP_getP_self m c _
  · rw [hq1] at hp0
    rw [hc] at hp0
    cases hp0
    refine ⟨h1, h2, _, p', ?_, ?_, copiedP_left_update _ p' x hcp hyne⟩
    · rw [hq1]
      exact setP_getP_self m c _
    · rw [setP_getP_ne m c _ q.2 hq2]
      exact hp'
  · rw [hq2] at hp'
    rw [hc] at hp'
    cases hp'
    refine ⟨h1, h2, p0, _, ?_, ?_, copiedP_right_update p0 _ x hcp hyne⟩
    · rw [setP_getP_ne m c _ q.1 hq1]
      exact hp0
    · rw [hq2]
      exact setP_getP_self m c _
  · refine ⟨h1, h2, p0, p', ?_, ?_, hcp⟩
    · rw [setP_getP_ne m c _ q.1 hq1]
      exact hp0
    · rw [setP_getP_ne m c _ q.2 hq2]
      exact hp'

theorem InvV_setV_fix (base : ℕ) (m : Mem) (memoV : List (ℕ × ℕ)) (c x y : ℕ)
    (wOld : Veiculo) (hc : m.getV c = some wOld)
    (hy : wOld.pedido_atual = some y) (h : InvV base m memoV) :
    InvV base (m.setV c { wOld with pedido_atual := some x }) memoV := by
  have hyne : wOld.pedido_atual ≠ none := by rw [hy]; exact fun hh => Option.noConfusion hh
  intro q hq
  obtain ⟨h1, h2, w0, w', hw0, hw', hcp⟩ := h q hq
  by_cases hq1 : q.1 = c <;> by_cases hq2 : q.2 = c
  · rw [hq1] at hw0
    rw [hq2] at hw'
    rw [hc] at hw0 hw'
    cases hw0
    cases hw'
    refine ⟨h1, h2, { wOld with pedido_atual := some x },
      { wOld with pedido_atual := some x }, ?_, ?_, copiedV_refl _⟩
    · rw [hq1]
      exact setV_getV_self m c _
    · rw [hq2]
      exact setV_getV_self m c _
  · rw [hq1] at hw0
    rw [hc] at hw0
    cases hw0
    refine ⟨h1, h2, _, w', ?_, ?_, copiedV_left_update _ w' x hcp hyne⟩
    · rw [hq1]
      exact setV_getV_self m c _
    · rw [setV_getV_ne m c _ q.2 hq2]
      exact hw'
  · rw [hq2] at hw'
    rw [hc] at hw'
    cases hw'
    refine ⟨h1, h2, w0, _, ?_, ?_, copiedV_right_update w0 _ x hcp hyne⟩
    · rw [setV_getV_ne m c _ q.1 hq1]
      exact hw0
    · rw [hq2]
      exact setV_getV_self m c _
  · refine ⟨h1, h2, w0, w', ?_, ?_, hcp⟩
    · rw [setV_getV_ne m c _ q.1 hq1]
      exact hw0
    · rw [setV_getV_ne m c _ q.2 hq2]
      exact hw'

/-- Postcondition bundle of one `deepcopyP` call. -/
def SpecP (base : ℕ) (m : Mem) (a : ℕ)
    (r : ℕ × List (ℕ × ℕ) × List (ℕ × ℕ) × Mem) : Prop :=
  Mem.wfBound r.2.2.2 ∧ MemExt m r.2.2.2 ∧ InvP base r.2.2.2 r.2.1 ∧
  InvV base r.2.2.2 r.2.2.1 ∧
  (base ≤ r.1 ∨ r.2.2.2.getP r.1 = none) ∧
  (∀ p, m.getP a = some p → base ≤ r.1 ∧ r.1 < r.2.2.2.next ∧
    ∃ p', r.2.2.2.getP r.1 = some p' ∧ copiedP p p')

/-- Postcondition bundle of one `deepcopyV` call. -/
def SpecV (base : ℕ) (m : Mem) (a : ℕ)
    (r : ℕ × List (ℕ × ℕ) × List (ℕ × ℕ) × Mem) : Prop :=
  Mem.wfBound r.2.2.2 ∧ MemExt m r.2.2.2 ∧ InvP base r.2.2.2 r.2.1 ∧
  InvV base r.2.2.2 r.2.2.1 ∧
  (base ≤ r.1 ∨ r.2.2.2.getV r.1 = none) ∧
  (∀ w, m.getV a = some w → base ≤ r.1 ∧ r.1 < r.2.2.2.next ∧
    ∃ w', r.2.2.2.getV r.1 = some w' ∧ copiedV w w')

theorem SpecP_unchanged (base : ℕ) (m : Mem) (a x : ℕ)
    (memoP memoV : List (ℕ × ℕ)) (hwf : Mem.wfBound m)
    (hip : InvP base m memoP) (hiv : InvV base m memoV)
    (hdich : base ≤ x ∨ m.getP x = none)
    (hcond : ∀ p, m.getP a = some p → base ≤ x ∧ x < m.next ∧
      ∃ p', m.getP x = some p' ∧ copiedP p p') :
    SpecP base m a (x, memoP, memoV, m) :=
  ⟨hwf, MemExt_refl m, hip, hiv, hdich, hcond⟩

theorem SpecV_unchanged (base : ℕ) (m : Mem) (a x : ℕ)
    (memoP memoV : List (ℕ × ℕ)) (hwf : Mem.wfBound m)
    (hip : InvP base m memoP) (hiv : InvV base m memoV)
    (hdich : base ≤ x ∨ m.getV x = none)
    (hcond : ∀ w, m.getV a = some w → base ≤ x ∧ x < m.next ∧
      ∃ w', m.getV x = some w' ∧ copiedV w w') :
    SpecV base m a (x, memoP, memoV, m) :=
  ⟨hwf, MemExt_refl m, hip, hiv, hdich, hcond⟩

theorem SpecP_fresh (base : ℕ) (m : Mem) (a : ℕ) (p : Pedido)
    (memoP memoV : List (ℕ × ℕ)) (hbase : base ≤ m.next)
    (hwf : Mem.wfBound m) (hip : InvP base m memoP) (hiv : InvV base m memoV)
    (hpa : m.getP a = some p) :
    SpecP base m a (m.next, hSet memoP a m.next, memoV, allocP m p) := by
  refine ⟨allocP_wf m p hwf, allocP_ext m p hwf,
    InvP_insert base m memoP a p hbase hwf hip hpa,
    InvV_allocP base m memoV p hiv, Or.inl hbase, ?_⟩
  intro p'' hp''
  rw [hpa] at hp''
  cases hp''
  exact ⟨hbase, Nat.lt_succ_self _, p, allocP_getP_self m p, copiedP_refl p⟩

theorem SpecV_fresh (base : ℕ) (m : Mem) (a : ℕ) (w : Veiculo)
    (memoP memoV : List (ℕ × ℕ)) (hbase : base ≤ m.next)
    (hwf : Mem.wfBound m) (hip : InvP base m memoP) (hiv : InvV base m memoV)
    (hw : m.getV a = some w) :
    SpecV base m a (m.next, memoP, hSet memoV a m.next, allocV m w) := by
  refine ⟨allocV_wf m w hwf, allocV_ext m w hwf,
    InvP_allocV base m memoP w hip,
    InvV_insert base m memoV a w hbase hwf hiv hw, Or.inl hbase, ?_⟩
  intro w'' hw''
  rw [hw] at hw''
  cases hw''
  exact ⟨hbase, Nat.lt_succ_self _, w, allocV_getV_self m w, copiedV_refl w⟩

theorem SpecP_rec (base : ℕ) (m : Mem) (a va : ℕ) (p : Pedido)
    (r : ℕ × List (ℕ × ℕ) × List (ℕ × ℕ) × Mem)
    (hbase : base ≤ m.next) (hwf : Mem.wfBound m)
    (hpa : m.getP a = some p) (hva : p.veiculo_atribuido = some va)
    (hrec : SpecV base (allocP m p) va r) :
    SpecP base m a (m.next, r.2.1, r.2.2.1,
      r.2.2.2.setP m.next { p with veiculo_atribuido := some r.1 }) := by
  obtain ⟨rwf, rext, rip, riv, rdich, rcond⟩ := hrec
  have hlt : m.next < (allocP m p).next := Nat.lt_succ_self _
  have hlt2 : m.next < r.2.2.2.next := lt_of_lt_of_le hlt rext.1
  have hpa' : r.2.2.2.getP m.next = some p := by
    rw [(rext.2 m.next hlt).1]
    exact allocP_getP_self m p
  refine ⟨setP_wf _ _ _ hlt2 rwf, ?_,
    InvP_setP_fix base r.2.2.2 r.2.1 m.next r.1 va p hpa' hva rip,
    riv, Or.inl hbase, ?_⟩
  · refine ⟨le_of_lt hlt2, fun b hb => ?_⟩
    have hbm1 : b < (allocP m p).next := lt_trans hb hlt
    constructor
    · rw [setP_getP_ne _ _ _ b (Nat.ne_of_lt hb), (rext.2 b hbm1).1,
        allocP_getP_ne m p b (Nat.ne_of_lt hb)]
    · rw [setP_getV, (rext.2 b hbm1).2, allocP_getV]
  · intro p'' hp''
    rw [hpa] at hp''
    cases hp''
    refine ⟨hbase, hlt2, { p with veiculo_atribuido := some r.1 },
      setP_getP_self _ _ _, some r.1, rfl, ?_, ?_⟩
    · intro hh
      exact Option.noConfusion hh
    · intro hh
      rw [hva] at hh
      exact Option.noConfusion hh
  
theorem SpecV_rec (base : ℕ) (m : Mem) (a pa : ℕ) (w : Veiculo)
    (r : ℕ × List (ℕ × ℕ) × List (ℕ × ℕ) × Mem)
    (hbase : base ≤ m.next) (hwf : Mem.wfBound m)
    (hw : m.getV a = some w) (hpa : w.pedido_atual = some pa)
    (hrec : SpecP base (allocV m w) pa r) :
    SpecV base m a (m.next, r.2.1, r.2.2.1,
      r.2.2.2.setV m.next { w with pedido_atual := some r.1 }) := by
  obtain ⟨rwf, rext, rip, riv, rdich, rcond⟩ := hrec
  have hlt : m.next < (allocV m w).next := Nat.lt_succ_self _
  have hlt2 : m.next < r.2.2.2.next := lt_of_lt_of_le hlt rext.1
  have hw' : r.2.2.2.getV m.next = some w := by
    rw [(rext.2 m.next hlt).2]
    exact allocV_getV_self m w
  refine ⟨setV_wf _ _ _ hlt2 rwf, ?_, rip,
    InvV_setV_fix base r.2.2.2 r.2.2.1 m.next r.1 pa w hw' hpa riv,
    Or.inl hbase, ?_⟩
  · refine ⟨le_of_lt hlt2, fun b hb => ?_⟩
    have hbm1 : b < (allocV m w).next := lt_trans hb hlt
    constructor
    · rw [setV_getP, (rext.2 b hbm1).1, allocV_getP]
    · rw [setV_getV_ne _ _ _ b (Nat.ne_of_lt hb), (rext.2 b hbm1).2,
        allocV_getV_ne m w b (Nat.ne_of_lt hb)]
  · intro w'' hw''
    rw [hw] at hw''
    cases hw''
    refine ⟨hbase, hlt2, { w with pedido_atual := some r.1 },
      setV_getV_self _ _ _, some r.1, rfl, ?_, ?_⟩
    · intro hh
      exact Option.noConfusion hh
    · intro hh
      rw [hpa] at hh
      exact Option.noConfusion hh

theorem deepcopy_spec : ∀ fuel : ℕ,
    (∀ (memoP memoV : List (ℕ × ℕ)) (m : Mem) (a base : ℕ),
      base ≤ m.next → Mem.wfBound m → InvP base m memoP → InvV base m memoV →
      SpecP base m a (deepcopyP fuel memoP memoV m a)) ∧
    (∀ (memoP memoV : List (ℕ × ℕ)) (m : Mem) (a base : ℕ),
      base ≤ m.next → Mem.wfBound m → InvP base m memoP → InvV base m memoV →
      SpecV base m a (deepcopyV fuel memoP memoV m a)) := by
  intro fuel
  induction fuel with
  | zero =>
    constructor
    · intro memoP memoV m a base hbase hwf hip hiv
      rcases hmemo : hGet memoP a with _ | x
      · rcases hpa : m.getP a with _ | p
        · have hred : deepcopyP 0 memoP memoV m a = (a, memoP, memoV, m) := by
            simp only [deepcopyP, hmemo, hpa]
          rw [hred]
          refine SpecP_unchanged base m a a memoP memoV hwf hip hiv (Or.inr hpa) ?_
          intro p hp
          rw [hpa] at hp
          exact Option.noConfusion hp
        · have hred : deepcopyP 0 memoP memoV m a =
              (m.next, hSet memoP a m.next, memoV, allocP m p) := by
            simp only [deepcopyP, hmemo, hpa]
          rw [hred]
          exact SpecP_fresh base m a p memoP memoV hbase hwf hip hiv hpa
      · have hred : deepcopyP 0 memoP memoV m a = (x, memoP, memoV, m) := by
          simp only [deepcopyP, hmemo]
        rw [hred]
        obtain ⟨h1, h2, p0, p', hp0, hp', hcp⟩ :=
          hip (a, x) (hGet_some_mem memoP a x hmemo)
        refine SpecP_unchanged base m a x memoP memoV hwf hip hiv (Or.inl h1) ?_
        intro p hp
        have hp0' : m.getP a = some p0 := hp0
        rw [hp0'] at hp
        cases hp
        exact ⟨h1, h2, p', hp', hcp⟩
    · intro memoP memoV m a base hbase hwf hip hiv
      rcases hmemo : hGet memoV a with _ | x
      · rcases hva : m.getV a with _ | w
        · have hred : deepcopyV 0 memoP memoV m a = (a, memoP, memoV, m) := by
            simp only [deepcopyV, hmemo, hva]
          rw [hred]
          refine SpecV_unchanged base m a a memoP memoV hwf hip hiv (Or.inr hva) ?_
          intro w hw
          rw [hva] at hw
          exact Option.noConfusion hw
        · have hred : deepcopyV 0 memoP memoV m a =
              (m.next, memoP, hSet memoV a m.next, allocV m w) := by
            simp only [deepcopyV, hmemo, hva]
          rw [hred]
          exact SpecV_fresh base m a w memoP memoV hbase hwf hip hiv hva
      · have hred : deepcopyV 0 memoP memoV m a = (x, memoP, memoV, m) := by
          simp only [deepcopyV, hmemo]
        rw [hred]
        obtain ⟨h1, h2, w0, w', hw0, hw', hcp⟩ :=
          hiv (a, x) (hGet_some_mem memoV a x hmemo)
        refine SpecV_unchanged base m a x memoP memoV hwf hip hiv (Or.inl h1) ?_
        intro w hw
        have hw0' : m.getV a = some w0 := hw0
        rw [hw0'] at hw
        cases hw
        exact ⟨h1, h2, w', hw', hcp⟩
  | succ n ih =>
    constructor
    · intro memoP memoV m a base hbase hwf hip hiv
      rcases hmemo : hGet memoP a with _ | x
      · rcases hpa : m.getP a with _ | p
        · have hred : deepcopyP (n + 1) memoP memoV m a = (a, memoP, memoV, m) := by
            simp only [deepcopyP, hmemo, hpa]
          rw [hred]
          refine SpecP_unchanged base m a a memoP memoV hwf hip hiv (Or.inr hpa) ?_
          intro p hp
          rw [hpa] at hp
          exact Option.noConfusion hp
        · rcases hva : p.veiculo_atribuido with _ | va
          · have hred : deepcopyP (n + 1) memoP memoV m a =
                (m.next, hSet memoP a m.next, memoV, allocP m p) := by
              simp only [deepcopyP, hmemo, hpa, hva]
            rw [hred]
            exact SpecP_fresh base m a p memoP memoV hbase hwf hip hiv hpa
          · have hspec := SpecP_rec base m a va p
              (deepcopyV n (hSet memoP a m.next) memoV (allocP m p) va)
              hbase hwf hpa hva
              (ih.2 (hSet memoP a m.next) memoV (allocP m p) va base
                (le_trans hbase (Nat.le_succ _)) (allocP_wf m p hwf)
                (InvP_insert base m memoP a p hbase hwf hip hpa)
                (InvV_allocP base m memoV p hiv))
            simp only [deepcopyP, hmemo, hpa, hva]
            exact hspec
      · have hred : deepcopyP (n + 1) memoP memoV m a = (x, memoP, memoV, m) := by
          simp only [deepcopyP, hmemo]
        rw [hred]
        obtain ⟨h1, h2, p0, p', hp0, hp', hcp⟩ :=
          hip (a, x) (hGet_some_mem memoP a x hmemo)
        refine SpecP_unchanged base m a x memoP memoV hwf hip hiv (Or.inl h1) ?_
        intro p hp
        have hp0' : m.getP a = some p0 := hp0
        rw [hp0'] at hp
        cases hp
        exact ⟨h1, h2, p', hp', hcp⟩
    · intro memoP memoV m a base hbase hwf hip hiv
      rcases hmemo : hGet memoV a with _ | x
      · rcases hw : m.getV a with _ | w
        · have hred : deepcopyV (n + 1) memoP memoV m a = (a, memoP, memoV, m) := by
            simp only [deepcopyV, hmemo, hw]
          rw [hred]
          refine SpecV_unchanged base m a a memoP memoV hwf hip hiv (Or.inr hw) ?_
          intro w hw2
          rw [hw] at hw2
          exact Option.noConfusion hw2
        · rcases hpa : w.pedido_atual with _ | pa
          · have hred : deepcopyV (n + 1) memoP memoV m a =
                (m.next, memoP, hSet memoV a m.next, allocV m w) := by
              simp only [deepcopyV, hmemo, hw, hpa]
            rw [hred]
            exact SpecV_fresh base m a w memoP memoV hbase hwf hip hiv hw
          · have hspec := SpecV_rec base m a pa w
              (deepcopyP n memoP (hSet memoV a m.next) (allocV m w) pa)
              hbase hwf hw hpa
              (ih.1 memoP (hSet memoV a m.next) (allocV m w) pa base
                (le_trans hbase (Nat.le_succ _)) (allocV_wf m w hwf)
                (InvP_allocV base m memoP w hip)
                (InvV_insert base m memoV a w hbase hwf hiv hw))
            simp only [deepcopyV, hmemo, hw, hpa]
            exact hspec
      · have hred : deepcopyV (n + 1) memoP memoV m a = (x, memoP, memoV, m) := by
          simp only [deepcopyV, hmemo]
        rw [hred]
        obtain ⟨h1, h2, w0, w', hw0, hw', hcp⟩ :=
          hiv (a, x) (hGet_some_mem memoV a x hmemo)
        refine SpecV_unchanged base m a x memoP memoV hwf hip hiv (Or.inl h1) ?_
        intro w hw2
        have hw0' : m.getV a = some w0 := hw0
        rw [hw0'] at hw2
        cases hw2
        exact ⟨h1, h2, w', hw', hcp⟩

theorem Forall₂_mem_right {α β : Type} {R : α → β → Prop} {l : List α}
    {l' : List β} (h : List.Forall₂ R l l') (b : β) (hb : b ∈ l') :
    ∃ a ∈ l, R a b := by
  induction h with
  | nil => exact absurd hb (List.not_mem_nil b)
  | cons hr hrest ih =>
    rcases List.mem_cons.mp hb with rfl | hb'
    · exact ⟨_, List.mem_cons_self _ _, hr⟩
    · obtain ⟨a, ha, hra⟩ := ih hb'
      exact ⟨a, List.mem_cons_of_mem _ ha, hra⟩

theorem deepcopyPList_spec (fuel : ℕ) :
    ∀ (as : List ℕ) (memoP memoV : List (ℕ × ℕ)) (m : Mem) (base : ℕ),
      base ≤ m.next → Mem.wfBound m → InvP base m memoP → InvV base m memoV →
      Mem.wfBound (deepcopyPList fuel memoP memoV m as).2.2.2 ∧
      MemExt m (deepcopyPList fuel memoP memoV m as).2.2.2 ∧
      InvP base (deepcopyPList fuel memoP memoV m as).2.2.2
        (deepcopyPList fuel memoP memoV m as).2.1 ∧
      InvV base (deepcopyPList fuel memoP memoV m as).2.2.2
        (deepcopyPList fuel memoP memoV m as).2.2.1 ∧
      List.Forall₂ (fun a a' =>
        (base ≤ a' ∨
          (deepcopyPList fuel memoP memoV m as).2.2.2.getP a' = none) ∧
        ∀ p, m.getP a = some p → base ≤ a' ∧
          ∃ p', (deepcopyPList fuel memoP memoV m as).2.2.2.getP a' = some p' ∧
            copiedP p p')
        as (deepcopyPList fuel memoP memoV m as).1 := by
  intro as
  induction as with
  | nil =>
    intro memoP memoV m base hbase hwf hip hiv
    exact ⟨hwf, MemExt_refl m, hip, hiv, List.Forall₂.nil⟩
  | cons a rest ih =>
    intro memoP memoV m base hbase hwf hip hiv
    obtain ⟨swf, sext, sip, siv, sdich, scond⟩ :=
      (deepcopy_spec fuel).1 memoP memoV m a base hbase hwf hip hiv
    set r := deepcopyP fuel memoP memoV m a with hr
    obtain ⟨twf, text, tip, tiv, tall⟩ :=
      ih r.2.1 r.2.2.1 r.2.2.2 base (le_trans hbase sext.1) swf sip siv
    have hred : deepcopyPList fuel memoP memoV m (a :: rest) =
        (r.1 :: (deepcopyPList fuel r.2.1 r.2.2.1 r.2.2.2 rest).1,
          (deepcopyPList fuel r.2.1 r.2.2.1 r.2.2.2 rest).2) := by
      rw [hr]
      simp only [deepcopyPList]
    rw [hred]
    refine ⟨twf, MemExt_trans sext text, tip, tiv, List.Forall₂.cons ⟨?_, ?_⟩ ?_⟩
    · rcases sdich with hl | hrr
      · exact Or.inl hl
      · by_cases hcase : base ≤ r.1
        · exact Or.inl hcase
        · refine Or.inr ?_
          rw [(text.2 r.1 (lt_of_lt_of_le (lt_of_not_le hcase)
            (le_trans hbase sext.1))).1]
          exact hrr
    · intro p hp
      obtain ⟨hb1, hlt1, p', hp', hcp⟩ := scond p hp
      refine ⟨hb1, p', ?_, hcp⟩
      rw [(text.2 r.1 hlt1).1]
      exact hp'
    · refine List.Forall₂.imp ?_ tall
      intro a2 a2' hrel
      refine ⟨hrel.1, ?_⟩
      intro p hp
      have hlt : a2 < m.next := getP_some_lt m a2 p hwf hp
      refine hrel.2 p ?_
      rw [(sext.2 a2 hlt).1]
      exact hp

theorem deepcopyVDict_spec (fuel : ℕ) :
    ∀ (qs : List (String × ℕ)) (memoP memoV : List (ℕ × ℕ)) (m : Mem)
      (base : ℕ),
      base ≤ m.next → Mem.wfBound m → InvP base m memoP → InvV base m memoV →
      Mem.wfBound (deepcopyVDict fuel memoP memoV m qs).2.2.2 ∧
      MemExt m (deepcopyVDict fuel memoP memoV m qs).2.2.2 ∧
      InvP base (deepcopyVDict fuel memoP memoV m qs).2.2.2
        (deepcopyVDict fuel memoP memoV m qs).2.1 ∧
      InvV base (deepcopyVDict fuel memoP memoV m qs).2.2.2
        (deepcopyVDict fuel memoP memoV m qs).2.2.1 ∧
      List.Forall₂ (fun (q q' : String × ℕ) => q'.1 = q.1 ∧
        (base ≤ q'.2 ∨
          (deepcopyVDict fuel memoP memoV m qs).2.2.2.getV q'.2 = none) ∧
        ∀ w, m.getV q.2 = some w → base ≤ q'.2 ∧
          ∃ w', (deepcopyVDict fuel memoP memoV m qs).2.2.2.getV q'.2 = some w' ∧
            copiedV w w')
        qs (deepcopyVDict fuel memoP memoV m qs).1 := by
  intro qs
  induction qs with
  | nil =>
    intro memoP memoV m base hbase hwf hip hiv
    exact ⟨hwf, MemExt_refl m, hip, hiv, List.Forall₂.nil⟩
  | cons q rest ih =>
    intro memoP memoV m base hbase hwf hip hiv
    obtain ⟨swf, sext, sip, siv, sdich, scond⟩ :=
      (deepcopy_spec fuel).2 memoP memoV m q.2 base hbase hwf hip hiv
    set r := deepcopyV fuel memoP memoV m q.2 with hr
    obtain ⟨twf, text, tip, tiv, tall⟩ :=
      ih r.2.1 r.2.2.1 r.2.2.2 base (le_trans hbase sext.1) swf sip siv
    have hred : deepcopyVDict fuel memoP memoV m (q :: rest) =
        ((q.1, r.1) :: (deepcopyVDict fuel r.2.1 r.2.2.1 r.2.2.2 rest).1,
          (deepcopyVDict fuel r.2.1 r.2.2.1 r.2.2.2 rest).2) := by
      rw [hr]
      simp only [deepcopyVDict]
    rw [hred]
    refine ⟨twf, MemExt_trans sext text, tip, tiv,
      List.Forall₂.cons ⟨rfl, ?_, ?_⟩ ?_⟩
    · rcases sdich with hl | hrr
      · exact Or.inl hl
      · by_cases hcase : base ≤ r.1
        · exact Or.inl hcase
        · refine Or.inr ?_
          rw [(text.2 r.1 (lt_of_lt_of_le (lt_of_not_le hcase)
            (le_trans hbase sext.1))).2]
          exact hrr
    · intro w hw
      obtain ⟨hb1, hlt1, w', hw', hcp⟩ := scond w hw
      refine ⟨hb1, w', ?_, hcp⟩
      rw [(text.2 r.1 hlt1).2]
      exact hw'
    · refine List.Forall₂.imp ?_ tall
      intro q2 q2' hrel
      refine ⟨hrel.1, hrel.2.1, ?_⟩
      intro w hw
      have hlt : q2.2 < m.next := getV_some_lt m q2.2 w hwf hw
      refine hrel.2.2 w ?_
      rw [(sext.2 q2.2 hlt).2]
      exact hw

theorem InvP_nil (base : ℕ) (m : Mem) : InvP base m [] :=
  fun q hq => absurd hq (List.not_mem_nil q)

theorem InvV_nil (base : ℕ) (m : Mem) : InvV base m [] :=
  fun q hq => absurd hq (List.not_mem_nil q)

theorem clonar_spec (s : Estado) (m : Mem) (hwf : Mem.wfBound m) :
    Mem.wfBound (s.clonar m).2 ∧ MemExt m (s.clonar m).2 ∧
    (s.clonar m).1.grafoRef = s.grafoRef ∧
    (s.clonar m).1.timestamp = s.timestamp ∧
    List.Forall₂ (fun (q q' : String × ℕ) => q'.1 = q.1 ∧
      (m.next ≤ q'.2 ∨ (s.clonar m).2.getV q'.2 = none) ∧
      ∀ w, m.getV q.2 = some w → m.next ≤ q'.2 ∧
        ∃ w', (s.clonar m).2.getV q'.2 = some w' ∧ copiedV w w')
      s.veiculos (s.clonar m).1.veiculos ∧
    List.Forall₂ (fun a a' =>
      (m.next ≤ a' ∨ (s.clonar m).2.getP a' = none) ∧
      ∀ p, m.getP a = some p → m.next ≤ a' ∧
        ∃ p', (s.clonar m).2.getP a' = some p' ∧ copiedP p p')
      s.pedidos_pendentes (s.clonar m).1.pedidos_pendentes ∧
    List.Forall₂ (fun a a' =>
      (m.next ≤ a' ∨ (s.clonar m).2.getP a' = none) ∧
      ∀ p, m.getP a = some p → m.next ≤ a' ∧
        ∃ p', (s.clonar m).2.getP a' = some p' ∧ copiedP p p')
      s.pedidos_ativos (s.clonar m).1.pedidos_ativos ∧
    List.Forall₂ (fun a a' =>
      (m.next ≤ a' ∨ (s.clonar m).2.getP a' = none) ∧
      ∀ p, m.getP a = some p → m.next ≤ a' ∧
        ∃ p', (s.clonar m).2.getP a' = some p' ∧ copiedP p p')
      s.pedidos_concluidos (s.clonar m).1.pedidos_concluidos := by
  simp only [Estado.clonar]
  set F := m.pedidos.length + m.veiculos.length + 1 with hF
  set d1 := deepcopyVDict F [] [] m s.veiculos with hd1
  set d2 := deepcopyPList F [] [] d1.2.2.2 s.pedidos_pendentes with hd2
  set d3 := deepcopyPList F [] [] d2.2.2.2 s.pedidos_ativos with hd3
  set d4 := deepcopyPList F [] [] d3.2.2.2 s.pedidos_concluidos with hd4
  obtain ⟨wf1, ext1, ip1, iv1, all1⟩ :=
    deepcopyVDict_spec F s.veiculos [] [] m m.next (le_refl _) hwf
      (InvP_nil _ _) (InvV_nil _ _)
  rw [← hd1] at wf1 ext1 all1
  obtain ⟨wf2, ext2, ip2, iv2, all2⟩ :=
    deepcopyPList_spec F s.pedidos_pendentes [] [] d1.2.2.2 m.next ext1.1 wf1
      (InvP_nil _ _) (InvV_nil _ _)
  rw [← hd2] at wf2 ext2 all2
  obtain ⟨wf3, ext3, ip3, iv3, all3⟩ :=
    deepcopyPList_spec F s.pedidos_ativos [] [] d2.2.2.2 m.next
      (le_trans ext1.1 ext2.1) wf2 (InvP_nil _ _) (InvV_nil _ _)
  rw [← hd3] at wf3 ext3 all3
  obtain ⟨wf4, ext4, ip4, iv4, all4⟩ :=
    deepcopyPList_spec F s.pedidos_concluidos [] [] d3.2.2.2 m.next
      (le_trans (le_trans ext1.1 ext2.1) ext3.1) wf3 (InvP_nil _ _) (InvV_nil _ _)
  rw [← hd4] at wf4 ext4 all4
  have ext34 : MemExt d2.2.2.2 d4.2.2.2 := MemExt_trans ext3 ext4
  have ext24 : MemExt d1.2.2.2 d4.2.2.2 := MemExt_trans ext2 ext34
  have extAll : MemExt m d4.2.2.2 := MemExt_trans ext1 ext24
  refine ⟨wf4, extAll, trivial, trivial, ?_, ?_, ?_, ?_⟩
  · refine List.Forall₂.imp ?_ all1
    intro q q' hrel
    obtain ⟨hkey, hdich, hcond⟩ := hrel
    refine ⟨hkey, ?_, ?_⟩
    · rcases hdich with hl | hr
      · exact Or.inl hl
      · by_cases hc : q'.2 < d1.2.2.2.next
        · exact Or.inr (by rw [(ext24.2 q'.2 hc).2]; exact hr)
        · exact Or.inl (le_trans ext1.1 (le_of_not_lt hc))
    · intro w hw
      obtain ⟨hb, w', hw', hcp⟩ := hcond w hw
      refine ⟨hb, w', ?_, hcp⟩
      rw [(ext24.2 q'.2 (getV_some_lt _ _ w' wf1 hw')).2]
      exact hw'
  · refine List.Forall₂.imp ?_ all2
    intro a a' hrel
    obtain ⟨hdich, hcond⟩ := hrel
    refine ⟨?_, ?_⟩
    · rcases hdich with hl | hr
      · exact Or.inl hl
      · by_cases hc : a' < d2.2.2.2.next
        · exact Or.inr (by rw [(ext34.2 a' hc).1]; exact hr)
        · exact Or.inl (le_trans (le_trans ext1.1 ext2.1) (le_of_not_lt hc))
    · intro p hp
      have hlt : a < m.next := getP_some_lt m a p hwf hp
      obtain ⟨hb, p', hp', hcp⟩ := hcond p (by rw [(ext1.2 a hlt).1]; exact hp)
      refine ⟨hb, p', ?_, hcp⟩
      rw [(ext34.2 a' (getP_some_lt _ _ p' wf2 hp')).1]
      exact hp'
  · refine List.Forall₂.imp ?_ all3
    intro a a' hrel
    obtain ⟨hdich, hcond⟩ := hrel
    refine ⟨?_, ?_⟩
    · rcases hdich with hl | hr
      · exact Or.inl hl
      · by_cases hc : a' < d3.2.2.2.next
        · exact Or.inr (by rw [(ext4.2 a' hc).1]; exact hr)
        · exact Or.inl (le_trans (le_trans (le_trans ext1.1 ext2.1) ext3.1)
            (le_of_not_lt hc))
    · intro p hp
      have hlt : a < m.next := getP_some_lt m a p hwf hp
      have hp2 : d2.2.2.2.getP a = some p := by
        rw [((MemExt_trans ext1 ext2).2 a hlt).1]
        exact hp
      obtain ⟨hb, p', hp', hcp⟩ := hcond p hp2
      refine ⟨hb, p', ?_, hcp⟩
      rw [(ext4.2 a' (getP_some_lt _ _ p' wf3 hp')).1]
      exact hp'
  · refine List.Forall₂.imp ?_ all4
    intro a a' hrel
    obtain ⟨hdich, hcond⟩ := hrel
    refine ⟨?_, ?_⟩
    · rcases hdich with hl | hr
      · exact Or.inl hl
      · exact Or.inr hr
    · intro p hp
      have hlt : a < m.next := getP_some_lt m a p hwf hp
      have hp3 : d3.2.2.2.getP a = some p := by
        rw [((MemExt_trans ext1 (MemExt_trans ext2 ext3)).2 a hlt).1]
        exact hp
      exact hcond p hp3

theorem dGet_some_mem {β : Type} (l : List (String × β)) (k : String) (v : β)
    (h : dGet l k = some v) : (k, v) ∈ l := by
  induction l with
  | nil => exact absurd h (by simp [dGet])
  | cons hd tl ih =>
    obtain ⟨k', v'⟩ := hd
    by_cases hk : k' = k
    · subst hk
      rw [dGet, if_pos rfl] at h
      cases h
      exact List.mem_cons_self _ _
    · rw [dGet, if_neg hk] at h
      exact List.mem_cons_of_mem _ (ih h)

theorem atribuir_getP_frame (s : Estado) (m : Mem) (paddr vaddr : ℕ)
    (agora : ℚ) (b : ℕ) (hb : b ≠ paddr) :
    (s.atribuir_pedido m paddr vaddr agora).2.2.getP b = m.getP b := by
  unfold Estado.atribuir_pedido
  split
  · rfl
  · split
    · split
      · rfl
      · dsimp only
        rw [setV_getP, setP_getP_ne _ _ _ _ hb]
    · rfl

theorem atribuir_getV_frame (s : Estado) (m : Mem) (paddr vaddr : ℕ)
    (agora : ℚ) (b : ℕ) (hb : b ≠ vaddr) :
    (s.atribuir_pedido m paddr vaddr agora).2.2.getV b = m.getV b := by
  unfold Estado.atribuir_pedido
  split
  · rfl
  · split
    · split
      · rfl
      · dsimp only
        rw [setV_getV_ne _ _ _ _ hb, setP_getV]
    · rfl

theorem atribuir_noV (s : Estado) (m : Mem) (paddr vaddr : ℕ) (agora : ℚ)
    (hv : m.getV vaddr = none) :
    s.atribuir_pedido m paddr vaddr agora = (false, s, m) := by
  unfold Estado.atribuir_pedido
  split
  · rfl
  · rcases hp : m.getP paddr with _ | p <;> simp only [hv, hp]

theorem atribuir_grafoRef (s : Estado) (m : Mem) (paddr vaddr : ℕ)
    (agora : ℚ) :
    (s.atribuir_pedido m paddr vaddr agora).2.1.grafoRef = s.grafoRef := by
  unfold Estado.atribuir_pedido
  split
  · rfl
  · split
    · split
      · rfl
      · rfl
    · rfl

theorem aplicar_grafoRef (s : Estado) (m : Mem) (acao : Acao) (agora : ℚ) :
    (s.aplicar_acao m acao agora).1.grafoRef = s.grafoRef := by
  unfold Estado.aplicar_acao
  split
  · dsimp only
    split
    · rfl
    · split
      · rfl
      · rw [atribuir_grafoRef]
        rfl
  · rfl

/-- C2: applying a planner action leaves every object of the original state
untouched — all store addresses below the allocation counter keep their
request and vehicle objects — while the clone deep-copies every vehicle and
every request (same dict keys /positions, fresh addresses, all fields equal
up to the remapped cross-references, whose presence is preserved) and shares
the graph reference instead of copying it. -/
theorem C2_aplicar_acao_frame (euclid : String → String → ℚ) (s : Estado)
    (m : Mem) (acao : Acao) (agora : ℚ) (hwf : Mem.wfBound m)
    (hacao : acao ∈ Estado.obter_acoes_possiveis euclid s m) :
    (∀ b, b < m.next →
      (s.aplicar_acao m acao agora).2.getP b = m.getP b ∧
      (s.aplicar_acao m acao agora).2.getV b = m.getV b) ∧
    (s.clonar m).1.grafoRef = s.grafoRef ∧
    (s.aplicar_acao m acao agora).1.grafoRef = s.grafoRef ∧
    List.Forall₂ (fun (q q' : String × ℕ) => q'.1 = q.1 ∧
      (m.next ≤ q'.2 ∨ (s.clonar m).2.getV q'.2 = none) ∧
      ∀ w, m.getV q.2 = some w → m.next ≤ q'.2 ∧
        ∃ w', (s.clonar m).2.getV q'.2 = some w' ∧ copiedV w w')
      s.veiculos (s.clonar m).1.veiculos ∧
    List.Forall₂ (fun a a' =>
      (m.next ≤ a' ∨ (s.clonar m).2.getP a' = none) ∧
      ∀ p, m.getP a = some p → m.next ≤ a' ∧
        ∃ p', (s.clonar m).2.getP a' = some p' ∧ copiedP p p')
      s.pedidos_pendentes (s.clonar m).1.pedidos_pendentes ∧
    List.Forall₂ (fun a a' =>
      (m.next ≤ a' ∨ (s.clonar m).2.getP a' = none) ∧
      ∀ p, m.getP a = some p → m.next ≤ a' ∧
        ∃ p', (s.clonar m).2.getP a' = some p' ∧ copiedP p p')
      s.pedidos_ativos (s.clonar m).1.pedidos_ativos ∧
    List.Forall₂ (fun a a' =>
      (m.next ≤ a' ∨ (s.clonar m).2.getP a' = none) ∧
      ∀ p, m.getP a = some p → m.next ≤ a' ∧
        ∃ p', (s.clonar m).2.getP a' = some p' ∧ copiedP p p')
      s.pedidos_concluidos (s.clonar m).1.pedidos_concluidos := by
  obtain ⟨cwf, cext, cgrafo, _, allV, allP, allA, allC⟩ := clonar_spec s m hwf
  refine ⟨?_, cgrafo, aplicar_grafoRef s m acao agora, allV, allP, allA, allC⟩
  intro b hb
  unfold Estado.aplicar_acao
  split
  · dsimp only
    rename_i pedido veiculo hgp hgv
    split
    · exact ⟨(cext.2 b hb).1, (cext.2 b hb).2⟩
    · rename_i npa hfind
      split
      · exact ⟨(cext.2 b hb).1, (cext.2 b hb).2⟩
      · rename_i nva hdget
        have hpred := List.find?_some hfind
        rcases hnp : (s.clonar m).2.getP npa with _ | np
        · rw [hnp] at hpred
          simp at hpred
        · have hmemnpa := List.mem_of_find?_eq_some hfind
          obtain ⟨a0, ha0, hrel⟩ := Forall₂_mem_right allP npa hmemnpa
          have hge : m.next ≤ npa := by
            rcases hrel.1 with hge | hnone
            · exact hge
            · rw [hnone] at hnp
              exact Option.noConfusion hnp
          have hbne : b ≠ npa := Nat.ne_of_lt (lt_of_lt_of_le hb hge)
          have hvmem := dGet_some_mem _ _ _ hdget
          obtain ⟨q0, hq0, hrelv⟩ := Forall₂_mem_right allV (_, nva) hvmem
          rcases hrelv.2.1 with hgev | hnonev
          · have hbnev : b ≠ nva := Nat.ne_of_lt (lt_of_lt_of_le hb hgev)
            constructor
            · rw [show ((s.clonar m).1.atribuir_pedido (s.clonar m).2 npa nva
                  agora).2.2.getP b = (s.clonar m).2.getP b from
                atribuir_getP_frame _ _ _ _ _ b hbne]
              exact (cext.2 b hb).1
            · rw [show ((s.clonar m).1.atribuir_pedido (s.clonar m).2 npa nva
                  agora).2.2.getV b = (s.clonar m).2.getV b from
                atribuir_getV_frame _ _ _ _ _ b hbnev]
              exact (cext.2 b hb).2
          · rw [atribuir_noV _ _ _ _ _ hnonev]
            exact ⟨(cext.2 b hb).1, (cext.2 b hb).2⟩
  · exact ⟨(cext.2 b hb).1, (cext.2 b hb).2⟩

/-- Store for the C2 scenario: the C3 request at address 0, an available
taxi at address 1. -/
def memC2 : Mem :=
  { pedidos := [(0, pedidoC3)], veiculos := [(1, veC4)], next := 2 }

/-- State for the C2 scenario: one pending request, one available taxi. -/
def estadoC2 : Estado :=
  { timestamp := 0, veiculos := [("V0", 1)], pedidos_pendentes := [0],
    pedidos_ativos := [], pedidos_concluidos := [], grafoRef := 7 }

theorem acoesC2_eval :
    Estado.obter_acoes_possiveis (fun _ _ => 0) estadoC2 memC2 =
      [⟨0, 1, 0⟩] := by
  norm_num [Estado.obter_acoes_possiveis, estadoC2, memC2, pedidoC3, veC4,
    Mem.getP, Mem.getV, hGet, Veiculo.esta_disponivel,
    Veiculo.pode_atender_pedido, Pedido.aceita_veiculo,
    List.filterMap_cons, List.filterMap_nil, List.flatMap_cons,
    List.flatMap_nil, List.filter_cons, List.filter_nil]

/-- Witness for C2 at the concrete one-request, one-taxi state: applying the
single produced action leaves both original objects in the store unchanged
and shares the graph reference. -/
theorem C2_witness :
    (∀ b, b < memC2.next →
      (estadoC2.aplicar_acao memC2 ⟨0, 1, 0⟩ 5).2.getP b = memC2.getP b ∧
      (estadoC2.aplicar_acao memC2 ⟨0, 1, 0⟩ 5).2.getV b = memC2.getV b) ∧
    (estadoC2.aplicar_acao memC2 ⟨0, 1, 0⟩ 5).1.grafoRef = estadoC2.grafoRef ∧
    (estadoC2.clonar memC2).1.grafoRef = estadoC2.grafoRef :=
  ⟨(C2_aplicar_acao_frame (fun _ _ => 0) estadoC2 memC2 ⟨0, 1, 0⟩ 5
      ⟨by decide, by decide⟩ (by rw [acoesC2_eval]; exact List.Mem.head _)).1,
    (C2_aplicar_acao_frame (fun _ _ => 0) estadoC2 memC2 ⟨0, 1, 0⟩ 5
      ⟨by decide, by decide⟩ (by rw [acoesC2_eval]; exact List.Mem.head _)).2.2.1,
    (C2_aplicar_acao_frame (fun _ _ => 0) estadoC2 memC2 ⟨0, 1, 0⟩ 5
      ⟨by decide, by decide⟩ (by rw [acoesC2_eval]; exact List.Mem.head _)).2.1⟩

/-! ## C8: JSON round trip (`Grafo.salvar_json` / `Grafo.carregar_json`) -/

/-- Per-node JSON payload (`salvar_json` stores tipo, coords, nome and
capacidade_recarga; the `zona` attribute is not saved). -/
structure NoJson where
  tipo : String
  coords : ℚ × ℚ
  nome : String
  capacidade_recarga : ℤ
deriving Repr, DecidableEq

/-- Per-edge JSON payload. -/
structure ArestaJson where
  origem : String
  destino : String
  distancia : ℚ
  tempo_base : ℚ
  fator_transito : ℚ
deriving Repr, DecidableEq

/-- The JSON document written by `salvar_json`. -/
structure GrafoJson where
  direcional : Bool
  nos : List (String × NoJson)
  arestas : List ArestaJson
deriving Repr, DecidableEq

/-- `Grafo.salvar_json` (file handling aside): one record per node and one
record per stored directed edge, in dict iteration order. -/
def Grafo.salvar_json (g : Grafo) : GrafoJson :=
  { direcional := g.direcional,
    nos := g.nos.map (fun q =>
      (q.1, { tipo := q.2.tipo, coords := q.2.coords, nome := q.2.nome,
              capacidade_recarga := q.2.capacidade_recarga })),
    arestas := g.arestas.flatMap (fun q => q.2.map (fun e =>
      { origem := e.2.origem, destino := e.2.destino,
        distancia := e.2.distancia, tempo_base := e.2.tempo_base,
        fator_transito := e.2.fator_transito })) }

/-- `Grafo.carregar_json`: nodes are re-added with the saved payload and zona
defaulted to `"periferia"`; edge records are re-added in order, skipping — in
a non-directional graph — every record whose sorted endpoint pair was already
processed, each surviving record added with `bidirecional = not direcional`.
A record with a missing endpoint would raise `ValueError` in the source (the
`none` branch is unreachable for saved documents). -/
def carregarAresta (gp : Grafo × List (String × String)) (e : ArestaJson) :
    Grafo × List (String × String) :=
  let aresta_key :=
    if e.destino < e.origem then (e.destino, e.origem)
    else (e.origem, e.destino)
  if gp.1.direcional = false ∧ aresta_key ∈ gp.2 then gp
  else
    (match gp.1.adicionar_aresta e.origem e.destino e.distancia
        (some e.tempo_base) e.fator_transito (!gp.1.direcional) with
      | some g' => g'
      | none => gp.1,
      gp.2 ++ [aresta_key])

def Grafo.carregar_json (j : GrafoJson) : Grafo :=
  let g1 := j.nos.foldl (fun g q =>
    g.adicionar_no q.1 q.2.tipo q.2.coords (some q.2.nome)
      q.2.capacidade_recarga "periferia") (Grafo.vazio j.direcional)
  (j.arestas.foldl carregarAresta (g1, [])).1

/-- The undirected two-node graph after a one-sided congestion update:
`A → B` carries factor 2, `B → A` still factor 1. -/
def gC8 : Grafo := grafoC7.atualizar_transito "A" "B" 2

/-- C8 counterexample: saving `gC8` writes both directed records, and the
loader, deduplicating by sorted endpoint pair, re-adds only the first
(`A → B`, factor 2) bidirectionally: the loaded `B → A` edge carries factor
2 instead of the original 1, so per-edge attributes are not preserved by the
round trip. -/
theorem C8_counterexample :
    gC8.direcional = false ∧
    (mGet gC8.arestas "A" "B").map Aresta.fator_transito = some 2 ∧
    (mGet gC8.arestas "B" "A").map Aresta.fator_transito = some 1 ∧
    (mGet (Grafo.carregar_json gC8.salvar_json).arestas "B" "A").map
      Aresta.fator_transito = some 2 := by
  norm_num [gC8, grafoC7, grafoC7base, Grafo.atualizar_transito,
    Grafo.salvar_json, Grafo.carregar_json, Grafo.vazio, Grafo.adicionar_no,
    Grafo.adicionar_aresta, Aresta.mk', dSetA, dSet, dGet, mGet, No.mk',
    carregarAresta]
  decide

theorem dSet_fresh {β : Type} (l : List (String × β)) (k : String) (v : β)
    (h : k ∉ l.map Prod.fst) : dSet l k v = l ++ [(k, v)] := by
  induction l with
  | nil => rfl
  | cons hd tl ih =>
    obtain ⟨k', v'⟩ := hd
    have hne : k' ≠ k := by
      intro hk
      exact h (by simp [hk])
    rw [dSet, if_neg hne, ih (fun hm => h (List.mem_cons_of_mem _ hm))]
    rfl

theorem carregar_nos_fold (ns : List (String × NoJson)) :
    ∀ g : Grafo, (∀ q ∈ ns, q.1 ∉ g.nos.map Prod.fst) →
      (ns.map Prod.fst).Nodup →
      (ns.foldl (fun g q =>
          g.adicionar_no q.1 q.2.tipo q.2.coords (some q.2.nome)
            q.2.capacidade_recarga "periferia") g).nos =
        g.nos ++ ns.map (fun q => (q.1, No.mk' q.1 q.2.tipo q.2.coords
          (some q.2.nome) q.2.capacidade_recarga "periferia")) ∧
      (ns.foldl (fun g q =>
          g.adicionar_no q.1 q.2.tipo q.2.coords (some q.2.nome)
            q.2.capacidade_recarga "periferia") g).direcional = g.direcional ∧
      (ns.foldl (fun g q =>
          g.adicionar_no q.1 q.2.tipo q.2.coords (some q.2.nome)
            q.2.capacidade_recarga "periferia") g).arestas = g.arestas := by
  induction ns with
  | nil =>
    intro g _ _
    exact ⟨by simp, rfl, rfl⟩
  | cons q rest ih =>
    intro g hfresh hnodup
    have hq1 : q.1 ∉ g.nos.map Prod.fst := hfresh q (List.mem_cons_self _ _)
    have hg' : (g.adicionar_no q.1 q.2.tipo q.2.coords (some q.2.nome)
        q.2.capacidade_recarga "periferia").nos =
        g.nos ++ [(q.1, No.mk' q.1 q.2.tipo q.2.coords (some q.2.nome)
          q.2.capacidade_recarga "periferia")] := by
      unfold Grafo.adicionar_no
      exact dSet_fresh g.nos q.1 _ hq1
    have hfresh' : ∀ q2 ∈ rest,
        q2.1 ∉ (g.adicionar_no q.1 q.2.tipo q.2.coords (some q.2.nome)
          q.2.capacidade_recarga "periferia").nos.map Prod.fst := by
      intro q2 hq2
      rw [hg']
      intro hmem
      rcases List.mem_map.mp hmem with ⟨e, he, hee⟩
      rcases List.mem_append.mp he with he1 | he2
      · exact hfresh q2 (List.mem_cons_of_mem _ hq2)
          (List.mem_map.mpr ⟨e, he1, hee⟩)
      · rcases List.mem_singleton.mp he2 with rfl
        have : q2.1 = q.1 := by rw [← hee]
        exact (List.nodup_cons.mp hnodup).1
          (this ▸ List.mem_map.mpr ⟨q2, hq2, rfl⟩)
    obtain ⟨ih1, ih2, ih3⟩ := ih _ hfresh' (List.nodup_cons.mp hnodup).2
    refine ⟨?_, ih2, ih3⟩
    rw [List.foldl_cons, ih1, hg', List.map_cons, List.append_assoc]
    rfl

theorem adicionar_aresta_nos (g g' : Grafo) (o d : String) (dist : ℚ)
    (tb : Option ℚ) (ft : ℚ) (bid : Bool)
    (h : g.adicionar_aresta o d dist tb ft bid = some g') :
    g'.nos = g.nos ∧ g'.direcional = g.direcional := by
  unfold Grafo.adicionar_aresta at h
  split at h
  · exact Option.noConfusion h
  · dsimp only at h
    split at h <;> (cases h; exact ⟨rfl, rfl⟩)

theorem carregar_arestas_fold (es : List ArestaJson) :
    ∀ gp : Grafo × List (String × String),
      (es.foldl carregarAresta gp).1.nos = gp.1.nos ∧
      (es.foldl carregarAresta gp).1.direcional = gp.1.direcional := by
  induction es with
  | nil => intro gp; exact ⟨rfl, rfl⟩
  | cons e rest ih =>
    intro gp
    rw [List.foldl_cons]
    have hstep : (carregarAresta gp e).1.nos = gp.1.nos ∧
        (carregarAresta gp e).1.direcional = gp.1.direcional := by
      unfold carregarAresta
      dsimp only
      split <;>
      [skip; skip] <;>
      · split
        · exact ⟨rfl, rfl⟩
        · rcases hadd : gp.1.adicionar_aresta e.origem e.destino e.distancia
              (some e.tempo_base) e.fator_transito (!gp.1.direcional) with _ | g'
          · simp only [hadd]
            exact ⟨trivial, trivial⟩
          · simp only [hadd]
            exact adicionar_aresta_nos gp.1 g' _ _ _ _ _ _ hadd
    obtain ⟨ihn, ihd⟩ := ih (carregarAresta gp e)
    exact ⟨ihn.trans hstep.1, ihd.trans hstep.2⟩


/-- Number of stored directed edge records of a nested adjacency dict. -/
def numA (m : List (String × List (String × Aresta))) : ℕ :=
  (m.map (fun q => q.2.length)).sum

/-- Number of stored directed edge records of a graph (what the claim's
"number of edges" counts: `salvar_json` writes exactly one record each). -/
def Grafo.num_arestas (g : Grafo) : ℕ := numA g.arestas

/-- Structural invariant of the adjacency dict that `adicionar_no` /
`adicionar_aresta` / `atualizar_transito` maintain: outer and inner keys are
dict keys (no duplicates), each stored record's `origem`/`destino` fields
agree with its dict position, and both endpoints are present in `nos`. -/
def ArestasCoerentes (g : Grafo) : Prop :=
  (g.arestas.map Prod.fst).Nodup ∧
  (∀ q ∈ g.arestas, (q.2.map Prod.fst).Nodup) ∧
  (∀ q ∈ g.arestas, ∀ e ∈ q.2,
    (e.2 : Aresta).origem = q.1 ∧ (e.2 : Aresta).destino = e.1) ∧
  (∀ q ∈ g.arestas, ∀ e ∈ q.2,
    (dGet g.nos q.1).isSome = true ∧ (dGet g.nos e.1).isSome = true)

/-- Pairing invariant of non-directional graphs (maintained because
`adicionar_aresta` always writes both directions there): every stored record
has a reverse record. -/
def ArestasEmparelhadas (g : Grafo) : Prop :=
  ∀ q ∈ g.arestas, ∀ e ∈ q.2, (mGet g.arestas e.1 q.1).isSome = true

/-- Sorted endpoint pair of a saved edge record
(`tuple(sorted([origem, destino]))`). -/
def chaveJ (e : ArestaJson) : String × String :=
  if e.destino < e.origem then (e.destino, e.origem)
  else (e.origem, e.destino)

theorem dGet_isSome_iff_mem {β : Type} (l : List (String × β)) (k : String) :
    (dGet l k).isSome = true ↔ k ∈ l.map Prod.fst := by
  induction l with
  | nil => simp [dGet]
  | cons hd tl ih =>
    obtain ⟨k', v'⟩ := hd
    by_cases h : k' = k
    · subst h
      simp [dGet]
    · have h' : k ≠ k' := fun hh => h hh.symm
      simp [dGet, h, h', ih]

theorem dGet_eq_none_iff {β : Type} (l : List (String × β)) (k : String) :
    dGet l k = none ↔ k ∉ l.map Prod.fst := by
  rw [← dGet_isSome_iff_mem]
  cases dGet l k <;> simp

theorem dSet_length_none {β : Type} (l : List (String × β)) (k : String)
    (v : β) (h : dGet l k = none) : (dSet l k v).length = l.length + 1 := by
  induction l with
  | nil => rfl
  | cons hd tl ih =>
    obtain ⟨k', v'⟩ := hd
    by_cases hk : k' = k
    · rw [hk] at h
      unfold dGet at h
      rw [if_pos rfl] at h
      exact Option.noConfusion h
    · unfold dGet at h
      rw [if_neg hk] at h
      unfold dSet
      rw [if_neg hk]
      simp only [List.length_cons, ih h]

theorem dSet_length_some {β : Type} (l : List (String × β)) (k : String)
    (v w : β) (h : dGet l k = some w) : (dSet l k v).length = l.length := by
  induction l with
  | nil => exact absurd h (by unfold dGet; intro hh; exact Option.noConfusion hh)
  | cons hd tl ih =>
    obtain ⟨k', v'⟩ := hd
    by_cases hk : k' = k
    · unfold dSet
      rw [if_pos hk]
      rfl
    · unfold dGet at h
      rw [if_neg hk] at h
      unfold dSet
      rw [if_neg hk]
      simp only [List.length_cons, ih h]

theorem numA_dSet (m : List (String × List (String × Aresta))) (o : String)
    (v : List (String × Aresta)) :
    numA (dSet m o v) + ((dGet m o).getD []).length = numA m + v.length := by
  induction m with
  | nil => simp [numA, dSet, dGet]
  | cons hd tl ih =>
    obtain ⟨k', l'⟩ := hd
    by_cases hk : k' = o
    · unfold dSet dGet
      rw [if_pos hk, if_pos hk]
      simp only [numA, List.map_cons, List.sum_cons, Option.getD_some]
      omega
    · unfold dSet dGet
      rw [if_neg hk, if_neg hk]
      simp only [numA, List.map_cons, List.sum_cons]
      have := ih
      simp only [numA] at this
      omega

theorem numA_dSetA_fresh (m : List (String × List (String × Aresta)))
    (o d : String) (a : Aresta) (h : mGet m o d = none) :
    numA (dSetA m o d a) = numA m + 1 := by
  unfold dSetA
  rcases ho : dGet m o with _ | viz
  · have hkey := numA_dSet m o (dSet ([] : List (String × Aresta)) d a)
    rw [ho] at hkey
    simp only [Option.getD_none, List.length_nil] at hkey ⊢
    have hlen : (dSet ([] : List (String × Aresta)) d a).length = 1 := rfl
    omega
  · have h' : dGet viz d = none := by
      unfold mGet at h
      rw [ho] at h
      exact h
    have hkey := numA_dSet m o (dSet viz d a)
    rw [ho] at hkey
    simp only [Option.getD_some] at hkey ⊢
    have hlen := dSet_length_none viz d a h'
    omega

theorem numA_dSetA_present (m : List (String × List (String × Aresta)))
    (o d : String) (a a' : Aresta) (h : mGet m o d = some a') :
    numA (dSetA m o d a) = numA m := by
  unfold dSetA
  rcases ho : dGet m o with _ | viz
  · unfold mGet at h
    rw [ho] at h
    exact Option.noConfusion h
  · have h' : dGet viz d = some a' := by
      unfold mGet at h
      rw [ho] at h
      exact h
    have hkey := numA_dSet m o (dSet viz d a)
    rw [ho] at hkey
    simp only [Option.getD_some] at hkey ⊢
    have hlen := dSet_length_some viz d a a' h'
    omega


/-- The forward record the loader re-adds for a saved edge. -/
def arestaDe (e : ArestaJson) : Aresta :=
  Aresta.mk' e.origem e.destino e.distancia (some e.tempo_base) e.fator_transito

/-- The reverse record the loader re-adds bidirectionally. -/
def arestaRev (e : ArestaJson) : Aresta :=
  Aresta.mk' e.destino e.origem e.distancia (some e.tempo_base) e.fator_transito

theorem adicionar_aresta_some (g : Grafo) (o d : String) (dist : ℚ)
    (tb : Option ℚ) (ft : ℚ) (bid : Bool)
    (ho : (dGet g.nos o).isSome = true)
    (hd : (dGet g.nos d).isSome = true) :
    g.adicionar_aresta o d dist tb ft bid =
      some (if !g.direcional || bid then
        { g with arestas := (dSetA (dSetA g.arestas o d (Aresta.mk' o d dist tb ft)) d o (Aresta.mk' d o dist tb ft)) }
      else
        { g with arestas := (dSetA g.arestas o d (Aresta.mk' o d dist tb ft)) }) := by
  unfold Grafo.adicionar_aresta
  have ho' : ¬ ((dGet g.nos o).isNone = true) := by
    rcases hx : dGet g.nos o with _ | w
    · rw [hx] at ho
      exact absurd ho (by simp)
    · simp
  have hd' : ¬ ((dGet g.nos d).isNone = true) := by
    rcases hx : dGet g.nos d with _ | w
    · rw [hx] at hd
      exact absurd hd (by simp)
    · simp
  rw [if_neg (by
    intro hh
    rcases hh with hh | hh
    · exact ho' hh
    · exact hd' hh)]
  dsimp only
  by_cases hb : (!g.direcional || bid) = true
  · rw [if_pos hb, if_pos hb]
  · rw [if_neg hb, if_neg hb]

theorem carregarAresta_skip (gp : Grafo × List (String × String))
    (e : ArestaJson) (hdir : gp.1.direcional = false)
    (hmem : chaveJ e ∈ gp.2) : carregarAresta gp e = gp := by
  unfold carregarAresta
  dsimp only
  rw [if_pos ⟨hdir, hmem⟩]

theorem carregarAresta_add_dir (gp : Grafo × List (String × String))
    (e : ArestaJson) (hdir : gp.1.direcional = true)
    (ho : (dGet gp.1.nos e.origem).isSome = true)
    (hd : (dGet gp.1.nos e.destino).isSome = true) :
    carregarAresta gp e =
      ({ gp.1 with arestas := (dSetA gp.1.arestas e.origem e.destino (arestaDe e)) },
       gp.2 ++ [chaveJ e]) := by
  unfold carregarAresta
  dsimp only
  rw [if_neg (by
    intro hh
    rw [hdir] at hh
    exact Bool.noConfusion hh.1)]
  rw [adicionar_aresta_some gp.1 e.origem e.destino e.distancia
    (some e.tempo_base) e.fator_transito (!gp.1.direcional) ho hd]
  rw [hdir]
  rfl

theorem carregarAresta_add_bidir (gp : Grafo × List (String × String))
    (e : ArestaJson) (hdir : gp.1.direcional = false)
    (hnmem : chaveJ e ∉ gp.2)
    (ho : (dGet gp.1.nos e.origem).isSome = true)
    (hd : (dGet gp.1.nos e.destino).isSome = true) :
    carregarAresta gp e =
      ({ gp.1 with arestas := (dSetA (dSetA gp.1.arestas e.origem e.destino (arestaDe e)) e.destino e.origem (arestaRev e)) },
       gp.2 ++ [chaveJ e]) := by
  unfold carregarAresta
  dsimp only
  rw [if_neg (by
    intro hh
    exact hnmem hh.2)]
  rw [adicionar_aresta_some gp.1 e.origem e.destino e.distancia
    (some e.tempo_base) e.fator_transito (!gp.1.direcional) ho hd]
  rw [hdir]
  rfl


theorem chave_swap (o d : String) :
    (if o < d then (o, d) else (d, o)) = if d < o then (d, o) else (o, d) := by
  rcases lt_trichotomy o d with h | h | h
  · rw [if_pos h, if_neg (not_lt.mpr (le_of_lt h))]
  · subst h
    rw [if_neg (lt_irrefl o)]
  · rw [if_neg (not_lt.mpr (le_of_lt h)), if_pos h]

theorem chaveJ_rev_eq (x e : ArestaJson) (h1 : x.origem = e.destino)
    (h2 : x.destino = e.origem) : chaveJ x = chaveJ e := by
  unfold chaveJ
  rw [h1, h2]
  exact chave_swap e.origem e.destino

theorem chaveJ_cases {x e : ArestaJson} (h : chaveJ x = chaveJ e) :
    (x.origem = e.origem ∧ x.destino = e.destino) ∨
    (x.origem = e.destino ∧ x.destino = e.origem) := by
  unfold chaveJ at h
  split_ifs at h with h1 h2 h3
  all_goals rw [Prod.mk.injEq] at h
  all_goals obtain ⟨ha, hb⟩ := h
  · exact Or.inl ⟨hb, ha⟩
  · exact Or.inr ⟨hb, ha⟩
  · exact Or.inr ⟨ha, hb⟩
  · exact Or.inl ⟨ha, hb⟩

theorem length_filter_eq_count_map {α β : Type} [DecidableEq β] (l : List α)
    (f : α → β) (b : β) :
    (l.filter (fun x => decide (f x = b))).length = (l.map f).count b := by
  induction l with
  | nil => rfl
  | cons x rest ih =>
    rw [List.filter_cons, List.map_cons, List.count_cons]
    by_cases hx : f x = b
    · simp [hx, ih]
    · simp [hx, ih]

theorem flatMap_pairs_nodup (m : List (String × List (String × Aresta)))
    (h1 : (m.map Prod.fst).Nodup) (h2 : ∀ q ∈ m, (q.2.map Prod.fst).Nodup) :
    (m.flatMap (fun q => q.2.map (fun e => (q.1, e.1)))).Nodup := by
  induction m with
  | nil => simp
  | cons q rest ih =>
    rw [List.flatMap_cons]
    refine List.Nodup.append ?_
      (ih (List.nodup_cons.mp h1).2
        (fun q' hq' => h2 q' (List.mem_cons_of_mem _ hq'))) ?_
    · have hmm : q.2.map (fun e => (q.1, e.1)) =
          (q.2.map Prod.fst).map (fun x => (q.1, x)) := by
        rw [List.map_map]
        rfl
      rw [hmm]
      exact List.Nodup.map
        (fun a b hab => by
          have := congrArg Prod.snd hab
          exact this)
        (h2 q (List.mem_cons_self _ _))
    · intro p hp hp'
      rcases List.mem_map.mp hp with ⟨e, he, rfl⟩
      rcases List.mem_flatMap.mp hp' with ⟨q', hq', hmem'⟩
      rcases List.mem_map.mp hmem' with ⟨e', he', heq⟩
      have hq1 : q'.1 = q.1 := by
        have := congrArg Prod.fst heq
        simpa using this
      exact (List.nodup_cons.mp h1).1 (hq1 ▸ List.mem_map.mpr ⟨q', hq', rfl⟩)

theorem salvar_pairs (g : Grafo)
    (hco3 : ∀ q ∈ g.arestas, ∀ e ∈ q.2,
      (e.2 : Aresta).origem = q.1 ∧ (e.2 : Aresta).destino = e.1) :
    g.salvar_json.arestas.map (fun r => (r.origem, r.destino)) =
      g.arestas.flatMap (fun q => q.2.map (fun e => (q.1, e.1))) := by
  unfold Grafo.salvar_json
  dsimp only
  revert hco3
  induction g.arestas with
  | nil =>
    intro _
    rfl
  | cons q rest ih =>
    intro hco3
    rw [List.flatMap_cons, List.flatMap_cons, List.map_append,
      ih (fun q' hq' => hco3 q' (List.mem_cons_of_mem _ hq'))]
    congr 1
    rw [List.map_map]
    apply List.map_congr_left
    intro e he
    obtain ⟨h1, h2⟩ := hco3 q (List.mem_cons_self _ _) e he
    simp only [Function.comp]
    rw [h1, h2]

theorem salvar_mem_elim (g : Grafo) {r : ArestaJson}
    (hr : r ∈ g.salvar_json.arestas) :
    ∃ q ∈ g.arestas, ∃ e ∈ q.2, r.origem = (e.2 : Aresta).origem ∧
      r.destino = (e.2 : Aresta).destino := by
  unfold Grafo.salvar_json at hr
  dsimp only at hr
  rcases List.mem_flatMap.mp hr with ⟨q, hq, hmem⟩
  rcases List.mem_map.mp hmem with ⟨e, he, rfl⟩
  exact ⟨q, hq, e, he, rfl, rfl⟩

theorem salvar_endpoints (g : Grafo) (hco : ArestasCoerentes g) :
    ∀ r ∈ g.salvar_json.arestas, r.origem ∈ g.nos.map Prod.fst ∧
      r.destino ∈ g.nos.map Prod.fst := by
  intro r hr
  obtain ⟨q, hq, e, he, h1, h2⟩ := salvar_mem_elim g hr
  obtain ⟨ho, hd⟩ := hco.2.2.2 q hq e he
  obtain ⟨ho', hd'⟩ := hco.2.2.1 q hq e he
  constructor
  · rw [h1, ho']
    exact (dGet_isSome_iff_mem _ _).mp ho
  · rw [h2, hd']
    exact (dGet_isSome_iff_mem _ _).mp hd

theorem salvar_reverse_mem (g : Grafo) (hco : ArestasCoerentes g)
    (hpar : ArestasEmparelhadas g) :
    ∀ r ∈ g.salvar_json.arestas, (r.destino, r.origem) ∈
      g.salvar_json.arestas.map (fun x => (x.origem, x.destino)) := by
  intro r hr
  obtain ⟨q, hq, e, he, h1, h2⟩ := salvar_mem_elim g hr
  obtain ⟨ho', hd'⟩ := hco.2.2.1 q hq e he
  have hrev := hpar q hq e he
  rcases hdg : dGet g.arestas e.1 with _ | viz
  · rw [show mGet g.arestas e.1 q.1 = none by
      unfold mGet; rw [hdg]] at hrev
    exact absurd hrev (by simp)
  · rcases hdv : dGet viz q.1 with _ | a'
    · rw [show mGet g.arestas e.1 q.1 = none by
        unfold mGet
        rw [hdg]
        dsimp only
        exact hdv] at hrev
      exact absurd hrev (by simp)
    · have hq' : (e.1, viz) ∈ g.arestas := dGet_some_mem _ _ _ hdg
      have he' : (q.1, a') ∈ viz := dGet_some_mem _ _ _ hdv
      rw [salvar_pairs g hco.2.2.1, List.mem_flatMap]
      refine ⟨(e.1, viz), hq', ?_⟩
      rw [List.mem_map]
      refine ⟨(q.1, a'), he', ?_⟩
      rw [h2, hd', h1, ho']

theorem salvar_pairs_nodup (g : Grafo) (hco : ArestasCoerentes g) :
    (g.salvar_json.arestas.map (fun r => (r.origem, r.destino))).Nodup := by
  rw [salvar_pairs g hco.2.2.1]
  exact flatMap_pairs_nodup g.arestas hco.1 hco.2.1

theorem salvar_length (g : Grafo) :
    g.salvar_json.arestas.length = numA g.arestas := by
  unfold Grafo.salvar_json numA
  dsimp only
  induction g.arestas with
  | nil => rfl
  | cons q rest ih =>
    rw [List.flatMap_cons, List.length_append, List.map_cons, List.sum_cons,
      List.length_map, ih]


theorem chaveJ_filter_split (es : List ArestaJson) (e : ArestaJson)
    (hod : e.origem ≠ e.destino) :
    (es.filter (fun x => decide (chaveJ x = chaveJ e))).length =
      (es.filter (fun x => decide ((x.origem, x.destino) =
        (e.origem, e.destino)))).length +
      (es.filter (fun x => decide ((x.origem, x.destino) =
        (e.destino, e.origem)))).length := by
  induction es with
  | nil => rfl
  | cons x rest ih =>
    rw [List.filter_cons, List.filter_cons, List.filter_cons]
    by_cases h1 : (x.origem, x.destino) = (e.origem, e.destino)
    · have hk : chaveJ x = chaveJ e := by
        rw [Prod.mk.injEq] at h1
        unfold chaveJ
        rw [h1.1, h1.2]
      have h2 : ¬ ((x.origem, x.destino) = (e.destino, e.origem)) := by
        intro hh
        rw [Prod.mk.injEq] at h1 hh
        exact hod (h1.1.symm.trans hh.1)
      rw [if_pos (by simpa using hk), if_pos (by simpa using h1),
        if_neg (by simpa using h2)]
      simp only [List.length_cons]
      omega
    · by_cases h2 : (x.origem, x.destino) = (e.destino, e.origem)
      · have hk : chaveJ x = chaveJ e := by
          rw [Prod.mk.injEq] at h2
          exact chaveJ_rev_eq x e h2.1 h2.2
        rw [if_pos (by simpa using hk), if_neg (by simpa using h1),
          if_pos (by simpa using h2)]
        simp only [List.length_cons]
        omega
      · have hk : ¬ (chaveJ x = chaveJ e) := by
          intro hh
          rcases chaveJ_cases hh with ⟨ha, hb⟩ | ⟨ha, hb⟩
          · exact h1 (by rw [ha, hb])
          · exact h2 (by rw [ha, hb])
        rw [if_neg (by simpa using hk), if_neg (by simpa using h1),
          if_neg (by simpa using h2)]
        exact ih

theorem chaveJ_filter_self (es : List ArestaJson) (e : ArestaJson)
    (hod : e.origem = e.destino) :
    (es.filter (fun x => decide (chaveJ x = chaveJ e))).length =
      (es.filter (fun x => decide ((x.origem, x.destino) =
        (e.origem, e.destino)))).length := by
  apply congrArg List.length
  apply List.filter_congr
  intro x _
  rw [decide_eq_decide]
  constructor
  · intro hh
    rcases chaveJ_cases hh with ⟨ha, hb⟩ | ⟨ha, hb⟩
    · rw [ha, hb]
    · rw [Prod.mk.injEq]
      exact ⟨ha.trans hod.symm, hb.trans hod⟩
  · intro hh
    rw [Prod.mk.injEq] at hh
    unfold chaveJ
    rw [hh.1, hh.2]

theorem salvar_pair_count (g : Grafo) (hco : ArestasCoerentes g)
    {p : String × String}
    (hp : p ∈ g.salvar_json.arestas.map (fun x => (x.origem, x.destino))) :
    (g.salvar_json.arestas.filter
      (fun x => decide ((x.origem, x.destino) = p))).length = 1 := by
  rw [length_filter_eq_count_map]
  exact List.count_eq_one_of_mem (salvar_pairs_nodup g hco) hp

/-- Initial per-key class sizes of the saved record list: a self-loop key has
one record, every other key exactly two (the record and its reverse). -/
theorem salvar_class_count (g : Grafo) (hco : ArestasCoerentes g)
    (hpar : ArestasEmparelhadas g) :
    ∀ e ∈ g.salvar_json.arestas,
      (g.salvar_json.arestas.filter
        (fun x => decide (chaveJ x = chaveJ e))).length =
      (if e.origem = e.destino then 1 else 2) := by
  intro e he
  by_cases hod : e.origem = e.destino
  · rw [if_pos hod, chaveJ_filter_self _ e hod]
    exact salvar_pair_count g hco (List.mem_map.mpr ⟨e, he, rfl⟩)
  · rw [if_neg hod, chaveJ_filter_split _ e hod,
      salvar_pair_count g hco (List.mem_map.mpr ⟨e, he, rfl⟩),
      salvar_pair_count g hco (salvar_reverse_mem g hco hpar e he)]

theorem filter_chave_append (rest : List ArestaJson)
    (proc : List (String × String)) (k : String × String) (hk : k ∉ proc) :
    (rest.filter (fun x => decide (chaveJ x ∈ proc ++ [k]))).length =
      (rest.filter (fun x => decide (chaveJ x ∈ proc))).length +
      (rest.filter (fun x => decide (chaveJ x = k))).length := by
  induction rest with
  | nil => rfl
  | cons x r ih =>
    rw [List.filter_cons, List.filter_cons, List.filter_cons]
    by_cases h1 : chaveJ x ∈ proc
    · have h2 : chaveJ x ∈ proc ++ [k] := List.mem_append.mpr (Or.inl h1)
      have h3 : ¬ (chaveJ x = k) := fun hh => hk (hh ▸ h1)
      rw [if_pos (by simpa using h2), if_pos (by simpa using h1),
        if_neg (by simpa using h3)]
      simp only [List.length_cons]
      omega
    · by_cases h3 : chaveJ x = k
      · have h2 : chaveJ x ∈ proc ++ [k] := List.mem_append.mpr
          (Or.inr (by rw [h3]; exact List.mem_singleton.mpr rfl))
        rw [if_pos (by simpa using h2), if_neg (by simpa using h1),
          if_pos (by simpa using h3)]
        simp only [List.length_cons]
        omega
      · have h2 : ¬ (chaveJ x ∈ proc ++ [k]) := by
          intro hh
          rcases List.mem_append.mp hh with hh' | hh'
          · exact h1 hh'
          · exact h3 (List.mem_singleton.mp hh')
        rw [if_neg (by simpa using h2), if_neg (by simpa using h1),
          if_neg (by simpa using h3)]
        exact ih

theorem pair_ne_of_chaveJ_ne {x e : ArestaJson} (h : chaveJ x ≠ chaveJ e) :
    ¬ (x.origem = e.origem ∧ x.destino = e.destino) ∧
    ¬ (x.origem = e.destino ∧ x.destino = e.origem) := by
  constructor
  · intro hh
    apply h
    unfold chaveJ
    rw [hh.1, hh.2]
  · intro hh
    exact h (chaveJ_rev_eq x e hh.1 hh.2)


theorem ne_or_of_not_and {a b : Prop} [Decidable a] (h : ¬ (a ∧ b)) :
    ¬ a ∨ ¬ b := by
  by_cases ha : a
  · exact Or.inr (fun hb => h ⟨ha, hb⟩)
  · exact Or.inl ha

/-- Directional load fold: every record is re-added one-directionally into a
fresh slot, so the record count grows by exactly the record count. -/
theorem carregar_fold_dir (es : List ArestaJson) :
    ∀ (gacc : Grafo) (proc : List (String × String)),
    gacc.direcional = true →
    (∀ e ∈ es, e.origem ∈ gacc.nos.map Prod.fst ∧
      e.destino ∈ gacc.nos.map Prod.fst) →
    (∀ e ∈ es, mGet gacc.arestas e.origem e.destino = none) →
    (es.map (fun r => (r.origem, r.destino))).Nodup →
    numA (es.foldl carregarAresta (gacc, proc)).1.arestas =
      numA gacc.arestas + es.length := by
  induction es with
  | nil =>
    intro gacc proc _ _ _ _
    simp
  | cons e rest ih =>
    intro gacc proc hdir hnos hfresh hnd
    rw [List.foldl_cons]
    have ho : (dGet gacc.nos e.origem).isSome = true :=
      (dGet_isSome_iff_mem _ _).mpr (hnos e (List.mem_cons_self _ _)).1
    have hd : (dGet gacc.nos e.destino).isSome = true :=
      (dGet_isSome_iff_mem _ _).mpr (hnos e (List.mem_cons_self _ _)).2
    rw [carregarAresta_add_dir (gacc, proc) e hdir ho hd]
    have hn1 : numA (dSetA gacc.arestas e.origem e.destino (arestaDe e)) =
        numA gacc.arestas + 1 :=
      numA_dSetA_fresh _ _ _ _ (hfresh e (List.mem_cons_self _ _))
    have hpe : (e.origem, e.destino) ∉
        rest.map (fun r => (r.origem, r.destino)) :=
      (List.nodup_cons.mp hnd).1
    have ihx := ih { gacc with
        arestas := (dSetA gacc.arestas e.origem e.destino (arestaDe e)) }
      (proc ++ [chaveJ e]) hdir
      (fun e' he' => hnos e' (List.mem_cons_of_mem _ he'))
      (by
        intro e' he'
        have hpne : ¬ (e'.origem = e.origem ∧ e'.destino = e.destino) := by
          intro hh
          apply hpe
          rw [← hh.1, ← hh.2]
          exact List.mem_map.mpr ⟨e', he', rfl⟩
        show mGet (dSetA gacc.arestas e.origem e.destino (arestaDe e))
          e'.origem e'.destino = none
        rw [mGet_dSetA_ne _ _ _ _ _ _ (ne_or_of_not_and hpne)]
        exact hfresh e' (List.mem_cons_of_mem _ he'))
      (List.nodup_cons.mp hnd).2
    rw [ihx]
    show numA (dSetA gacc.arestas e.origem e.destino (arestaDe e)) +
      rest.length = numA gacc.arestas + (e :: rest).length
    rw [hn1, List.length_cons]
    omega

/-- Non-directional load fold: each surviving record is re-added in both
directions, its mate is later skipped, and the accounting
`stored + remaining = total + remaining-already-keyed` is preserved, so the
final record count is the saved record count. -/
theorem carregar_fold_bidir (N : ℕ) (es : List ArestaJson) :
    ∀ (gacc : Grafo) (proc : List (String × String)),
    gacc.direcional = false →
    (∀ e ∈ es, e.origem ∈ gacc.nos.map Prod.fst ∧
      e.destino ∈ gacc.nos.map Prod.fst) →
    (∀ e ∈ es, chaveJ e ∉ proc →
      mGet gacc.arestas e.origem e.destino = none ∧
      mGet gacc.arestas e.destino e.origem = none) →
    (∀ e ∈ es, chaveJ e ∉ proc →
      (es.filter (fun x => decide (chaveJ x = chaveJ e))).length =
        (if e.origem = e.destino then 1 else 2)) →
    numA gacc.arestas + es.length =
      N + (es.filter (fun x => decide (chaveJ x ∈ proc))).length →
    numA (es.foldl carregarAresta (gacc, proc)).1.arestas = N := by
  induction es with
  | nil =>
    intro gacc proc _ _ _ _ hbudget
    simpa using hbudget
  | cons e rest ih =>
    intro gacc proc hdir hnos hfresh hclass hbudget
    rw [List.foldl_cons]
    by_cases hmem : chaveJ e ∈ proc
    · -- duplicate key: the record is skipped
      rw [carregarAresta_skip (gacc, proc) e hdir hmem]
      refine ih gacc proc hdir
        (fun e' he' => hnos e' (List.mem_cons_of_mem _ he'))
        (fun e' he' hnp => hfresh e' (List.mem_cons_of_mem _ he') hnp)
        ?_ ?_
      · intro e' he' hnp
        have hne : ¬ (chaveJ e = chaveJ e') := by
          intro hh
          exact hnp (hh ▸ hmem)
        have hcls := hclass e' (List.mem_cons_of_mem _ he') hnp
        rw [List.filter_cons, if_neg (by simpa using hne)] at hcls
        exact hcls
      · rw [List.filter_cons, if_pos (by simpa using hmem)] at hbudget
        simp only [List.length_cons] at hbudget ⊢
        omega
    · -- surviving record: both directions are written
      have ho : (dGet gacc.nos e.origem).isSome = true :=
        (dGet_isSome_iff_mem _ _).mpr (hnos e (List.mem_cons_self _ _)).1
      have hd : (dGet gacc.nos e.destino).isSome = true :=
        (dGet_isSome_iff_mem _ _).mpr (hnos e (List.mem_cons_self _ _)).2
      rw [carregarAresta_add_bidir (gacc, proc) e hdir hmem ho hd]
      obtain ⟨hf1, hf2⟩ := hfresh e (List.mem_cons_self _ _) hmem
      have hcls := hclass e (List.mem_cons_self _ _) hmem
      rw [List.filter_cons,
        if_pos (by simp : (decide (chaveJ e = chaveJ e)) = true)] at hcls
      rw [List.filter_cons, if_neg (by simpa using hmem)] at hbudget
      -- freshness and class bookkeeping for the tail
      have hrest_fresh : ∀ e' ∈ rest, chaveJ e' ∉ proc ++ [chaveJ e] →
          mGet (dSetA (dSetA gacc.arestas e.origem e.destino (arestaDe e))
            e.destino e.origem (arestaRev e)) e'.origem e'.destino = none ∧
          mGet (dSetA (dSetA gacc.arestas e.origem e.destino (arestaDe e))
            e.destino e.origem (arestaRev e)) e'.destino e'.origem = none := by
        intro e' he' hnp
        have hnp1 : chaveJ e' ∉ proc :=
          fun hh => hnp (List.mem_append.mpr (Or.inl hh))
        have hnp2 : chaveJ e' ≠ chaveJ e := fun hh => hnp
          (List.mem_append.mpr (Or.inr (List.mem_singleton.mpr hh)))
        obtain ⟨hq1, hq2⟩ := pair_ne_of_chaveJ_ne hnp2
        obtain ⟨hg1, hg2⟩ := hfresh e' (List.mem_cons_of_mem _ he') hnp1
        constructor
        · rw [mGet_dSetA_ne _ _ _ _ _ _ (ne_or_of_not_and hq2)]
          rw [mGet_dSetA_ne _ _ _ _ _ _ (ne_or_of_not_and hq1)]
          exact hg1
        · rw [mGet_dSetA_ne _ _ _ _ _ _ (ne_or_of_not_and (by
            intro hh
            exact hq1 ⟨hh.2, hh.1⟩))]
          rw [mGet_dSetA_ne _ _ _ _ _ _ (ne_or_of_not_and (by
            intro hh
            exact hq2 ⟨hh.2, hh.1⟩))]
          exact hg2
      have hrest_class : ∀ e' ∈ rest, chaveJ e' ∉ proc ++ [chaveJ e] →
          (rest.filter (fun x => decide (chaveJ x = chaveJ e'))).length =
            (if e'.origem = e'.destino then 1 else 2) := by
        intro e' he' hnp
        have hnp1 : chaveJ e' ∉ proc :=
          fun hh => hnp (List.mem_append.mpr (Or.inl hh))
        have hnp2 : ¬ (chaveJ e = chaveJ e') := fun hh => hnp
          (List.mem_append.mpr (Or.inr (List.mem_singleton.mpr hh.symm)))
        have hcls' := hclass e' (List.mem_cons_of_mem _ he') hnp1
        rw [List.filter_cons, if_neg (by simpa using hnp2)] at hcls'
        exact hcls'
      have happ := filter_chave_append rest proc (chaveJ e) hmem
      by_cases hod : e.origem = e.destino
      · -- self loop: one new record
        rw [if_pos hod] at hcls
        simp only [List.length_cons] at hcls
        have hrest0 : (rest.filter
            (fun x => decide (chaveJ x = chaveJ e))).length = 0 := by omega
        have hn1 : numA (dSetA gacc.arestas e.origem e.destino
            (arestaDe e)) = numA gacc.arestas + 1 :=
          numA_dSetA_fresh _ _ _ _ hf1
        have hsome : mGet (dSetA gacc.arestas e.origem e.destino
            (arestaDe e)) e.destino e.origem = some (arestaDe e) := by
          rw [← hod]
          have h0 := mGet_dSetA_self gacc.arestas e.origem e.destino
            (arestaDe e)
          rw [hod] at h0
          rw [hod]
          exact h0
        have hn2 : numA (dSetA (dSetA gacc.arestas e.origem e.destino
            (arestaDe e)) e.destino e.origem (arestaRev e)) =
            numA (dSetA gacc.arestas e.origem e.destino (arestaDe e)) :=
          numA_dSetA_present _ _ _ _ _ hsome
        refine ih _ _ hdir
          (fun e' he' => hnos e' (List.mem_cons_of_mem _ he'))
          hrest_fresh hrest_class ?_
        show numA (dSetA (dSetA gacc.arestas e.origem e.destino
            (arestaDe e)) e.destino e.origem (arestaRev e)) + rest.length =
          N + (rest.filter
            (fun x => decide (chaveJ x ∈ proc ++ [chaveJ e]))).length
        rw [hn2, hn1, happ, hrest0]
        simp only [List.length_cons] at hbudget
        omega
      · -- two directions, one mate pending
        rw [if_neg hod] at hcls
        simp only [List.length_cons] at hcls
        have hrest1 : (rest.filter
            (fun x => decide (chaveJ x = chaveJ e))).length = 1 := by omega
        have hn1 : numA (dSetA gacc.arestas e.origem e.destino
            (arestaDe e)) = numA gacc.arestas + 1 :=
          numA_dSetA_fresh _ _ _ _ hf1
        have hnone2 : mGet (dSetA gacc.arestas e.origem e.destino
            (arestaDe e)) e.destino e.origem = none := by
          rw [mGet_dSetA_ne _ _ _ _ _ _
            (Or.inl (fun hh => hod hh.symm))]
          exact hf2
        have hn2 : numA (dSetA (dSetA gacc.arestas e.origem e.destino
            (arestaDe e)) e.destino e.origem (arestaRev e)) =
            numA (dSetA gacc.arestas e.origem e.destino (arestaDe e)) + 1 :=
          numA_dSetA_fresh _ _ _ _ hnone2
        refine ih _ _ hdir
          (fun e' he' => hnos e' (List.mem_cons_of_mem _ he'))
          hrest_fresh hrest_class ?_
        show numA (dSetA (dSetA gacc.arestas e.origem e.destino
            (arestaDe e)) e.destino e.origem (arestaRev e)) + rest.length =
          N + (rest.filter
            (fun x => decide (chaveJ x ∈ proc ++ [chaveJ e]))).length
        rw [hn2, hn1, happ, hrest1]
        simp only [List.length_cons] at hbudget
        omega


/-- The save → load round trip preserves the stored directed-edge record
count, given the structural invariants the graph API maintains. -/
theorem carregar_count (g : Grafo) (hnodup : (g.nos.map Prod.fst).Nodup)
    (hco : ArestasCoerentes g)
    (hpar : g.direcional = false → ArestasEmparelhadas g) :
    (Grafo.carregar_json g.salvar_json).num_arestas = g.num_arestas := by
  have hkeys : g.salvar_json.nos.map Prod.fst = g.nos.map Prod.fst := by
    unfold Grafo.salvar_json
    dsimp only
    rw [List.map_map]
    exact List.map_congr_left (fun a _ => rfl)
  have hns : (g.salvar_json.nos.map Prod.fst).Nodup := by
    rw [hkeys]
    exact hnodup
  obtain ⟨hnos1, hdir1, hare1⟩ := carregar_nos_fold g.salvar_json.nos
    (Grafo.vazio g.salvar_json.direcional)
    (by intro q hq; simp [Grafo.vazio]) hns
  set g1 := g.salvar_json.nos.foldl (fun g q =>
    g.adicionar_no q.1 q.2.tipo q.2.coords (some q.2.nome)
      q.2.capacidade_recarga "periferia")
    (Grafo.vazio g.salvar_json.direcional) with hg1
  have hg1n : g1.nos.map Prod.fst = g.nos.map Prod.fst := by
    rw [hnos1]
    rw [show (Grafo.vazio g.salvar_json.direcional).nos =
      ([] : List (String × No)) from rfl]
    rw [List.nil_append, List.map_map, ← hkeys]
    exact List.map_congr_left (fun a _ => rfl)
  have hg1d : g1.direcional = g.direcional := by
    rw [hdir1]
    rfl
  have hg1a : g1.arestas = [] := by
    rw [hare1]
    rfl
  have hlen := salvar_length g
  have hendp := salvar_endpoints g hco
  show numA (g.salvar_json.arestas.foldl carregarAresta (g1, [])).1.arestas =
    numA g.arestas
  cases hdirb : g.direcional with
  | false =>
    have hese := carregar_fold_bidir g.salvar_json.arestas.length
      g.salvar_json.arestas g1 []
      (by rw [hg1d, hdirb])
      (fun e he => ⟨by rw [hg1n]; exact (hendp e he).1,
        by rw [hg1n]; exact (hendp e he).2⟩)
      (fun e he _ => ⟨by rw [hg1a]; rfl, by rw [hg1a]; rfl⟩)
      (fun e he _ => salvar_class_count g hco (hpar hdirb) e he)
      (by
        rw [hg1a]
        have hz : (g.salvar_json.arestas.filter
            (fun x => decide (chaveJ x ∈ ([] : List (String × String))))).length
            = 0 := by simp
        rw [hz]
        have hzz : numA ([] : List (String × List (String × Aresta))) = 0 := rfl
        omega)
    rw [hese, ← hlen]
  | true =>
    have hese := carregar_fold_dir g.salvar_json.arestas g1 []
      (by rw [hg1d, hdirb])
      (fun e he => ⟨by rw [hg1n]; exact (hendp e he).1,
        by rw [hg1n]; exact (hendp e he).2⟩)
      (fun e he => by rw [hg1a]; rfl)
      (salvar_pairs_nodup g hco)
    rw [hese, hg1a]
    have hzz : numA ([] : List (String × List (String × Aresta))) = 0 := rfl
    omega


/-- C8 (amended): the save → load round trip preserves the directionality
flag, the node table exactly (same keys in the same order, hence the same
node count; each node keeps its saved tipo, coords, nome and recharge
capacity, with zona reset to the default since it is not serialised), and
the number of stored directed edge records — in a directional graph every
saved record is re-added once, and in a non-directional graph each sorted
endpoint pair's surviving record is re-added in both directions while its
mate is skipped, so the count survives.  The structural hypotheses are the
invariants the graph API maintains: unique node keys, coherent adjacency
dicts, and (non-directional) paired reverse records.  Per-edge attributes
are NOT preserved in general: the loader rebuilds both directions of a
non-directional edge from the first record alone, overwriting the reverse
direction's congestion factor whenever the two records are out of sync
(see the counterexample). -/
theorem C8_round_trip (g : Grafo) (hnodup : (g.nos.map Prod.fst).Nodup)
    (hco : ArestasCoerentes g)
    (hpar : g.direcional = false → ArestasEmparelhadas g) :
    (Grafo.carregar_json g.salvar_json).direcional = g.direcional ∧
    (Grafo.carregar_json g.salvar_json).nos =
      g.nos.map (fun q => (q.1, No.mk' q.1 q.2.tipo q.2.coords (some q.2.nome)
        q.2.capacidade_recarga "periferia")) ∧
    (Grafo.carregar_json g.salvar_json).nos.length = g.nos.length ∧
    (Grafo.carregar_json g.salvar_json).num_arestas = g.num_arestas := by
  have hkeys : g.salvar_json.nos.map Prod.fst = g.nos.map Prod.fst := by
    unfold Grafo.salvar_json
    dsimp only
    rw [List.map_map]
    exact List.map_congr_left (fun a _ => rfl)
  have hns : (g.salvar_json.nos.map Prod.fst).Nodup := by
    rw [hkeys]
    exact hnodup
  obtain ⟨hnos1, hdir1, _⟩ := carregar_nos_fold g.salvar_json.nos
    (Grafo.vazio g.salvar_json.direcional)
    (by intro q hq; simp [Grafo.vazio]) hns
  obtain ⟨hnosF, hdirF⟩ := carregar_arestas_fold g.salvar_json.arestas
    (g.salvar_json.nos.foldl (fun g q =>
      g.adicionar_no q.1 q.2.tipo q.2.coords (some q.2.nome)
        q.2.capacidade_recarga "periferia")
      (Grafo.vazio g.salvar_json.direcional), [])
  have hlist : (Grafo.carregar_json g.salvar_json).nos =
      g.nos.map (fun q => (q.1, No.mk' q.1 q.2.tipo q.2.coords (some q.2.nome)
        q.2.capacidade_recarga "periferia")) := by
    show (g.salvar_json.arestas.foldl carregarAresta
      (g.salvar_json.nos.foldl (fun g q =>
        g.adicionar_no q.1 q.2.tipo q.2.coords (some q.2.nome)
          q.2.capacidade_recarga "periferia")
        (Grafo.vazio g.salvar_json.direcional), [])).1.nos = _
    rw [hnosF, hnos1]
    show [] ++ _ = _
    rw [List.nil_append]
    show (g.nos.map (fun q => (q.1,
        ({ tipo := q.2.tipo, coords := q.2.coords, nome := q.2.nome,
           capacidade_recarga := q.2.capacidade_recarga } : NoJson)))).map
      (fun q => (q.1, No.mk' q.1 q.2.tipo q.2.coords (some q.2.nome)
        q.2.capacidade_recarga "periferia")) = _
    rw [List.map_map]
    exact List.map_congr_left (fun a _ => rfl)
  refine ⟨?_, hlist, ?_, carregar_count g hnodup hco hpar⟩
  · show (g.salvar_json.arestas.foldl carregarAresta
      (g.salvar_json.nos.foldl (fun g q =>
        g.adicionar_no q.1 q.2.tipo q.2.coords (some q.2.nome)
          q.2.capacidade_recarga "periferia")
        (Grafo.vazio g.salvar_json.direcional), [])).1.direcional = _
    rw [hdirF, hdir1]
    rfl
  · rw [hlist, List.length_map]

/-- Witness for C8 at the concrete two-node graph: directionality and the
node table survive the round trip. -/
theorem C8_witness :
    (gC8.nos.map Prod.fst).Nodup ∧ ArestasCoerentes gC8 ∧
    gC8.num_arestas = 2 ∧
    ((Grafo.carregar_json gC8.salvar_json).direcional = gC8.direcional ∧
    (Grafo.carregar_json gC8.salvar_json).nos =
      gC8.nos.map (fun q => (q.1, No.mk' q.1 q.2.tipo q.2.coords
        (some q.2.nome) q.2.capacidade_recarga "periferia")) ∧
    (Grafo.carregar_json gC8.salvar_json).nos.length = gC8.nos.length ∧
    (Grafo.carregar_json gC8.salvar_json).num_arestas = gC8.num_arestas) :=
  ⟨by decide, ⟨by decide, by decide, by decide, by decide⟩, by decide,
   C8_round_trip gC8 (by decide)
     ⟨by decide, by decide, by decide, by decide⟩
     (fun _ => by unfold ArestasEmparelhadas; decide)⟩

/-! ## C1: uniform-cost search and A* (`custo-uniforme.py`, `astar.py`) -/

/-- Edge cost under the chosen metric
(`aresta.distancia` / `aresta.tempo_atual()`). -/
def custoAresta (metrica : String) (a : Aresta) : ℚ :=
  if metrica = "distancia" then a.distancia else a.tempo_atual

/-- Walk in the stored adjacency structure from `u` to `z` of total cost `c`
(edges read through `obter_vizinhos`, exactly as both searches do). -/
inductive VPath (g : Grafo) (metrica : String) : String → String → ℚ → Prop
  | nil (u : String) : VPath g metrica u u 0
  | step {u v z : String} {a : Aresta} {c : ℚ} :
      (v, a) ∈ g.obter_vizinhos u → VPath g metrica v z c →
      VPath g metrica u z (custoAresta metrica a + c)

theorem VPath_cast {g : Grafo} {metrica : String} {u z : String} {c c' : ℚ}
    (h : VPath g metrica u z c) (he : c = c') : VPath g metrica u z c' :=
  he ▸ h

theorem VPath_append {g : Grafo} {metrica : String} {u v z : String}
    {c1 c2 : ℚ} (h1 : VPath g metrica u v c1) (h2 : VPath g metrica v z c2) :
    VPath g metrica u z (c1 + c2) := by
  induction h1 with
  | nil w => exact VPath_cast h2 (by ring)
  | step he _ ih =>
    exact VPath_cast (VPath.step he (ih h2)) (by ring)

theorem VPath_snoc {g : Grafo} {metrica : String} {u v z : String}
    {a : Aresta} {c : ℚ} (h : VPath g metrica u v c)
    (he : (z, a) ∈ g.obter_vizinhos v) :
    VPath g metrica u z (c + custoAresta metrica a) := by
  have h2 : VPath g metrica v z (custoAresta metrica a + 0) :=
    VPath.step he (VPath.nil z)
  exact VPath_cast (VPath_append h (VPath_cast h2 (by ring))) rfl

/-- Non-negative edge costs, stated over the stored adjacency lists. -/
def EdgesNonneg (g : Grafo) (metrica : String) : Prop :=
  ∀ uq ∈ g.arestas, ∀ vq ∈ uq.2, 0 ≤ custoAresta metrica (vq.2 : Aresta)

/-- `h` is consistent for destination `dest`: zero at the destination and
satisfying the triangle inequality across every stored edge. -/
def Consistente (g : Grafo) (metrica : String) (h : String → ℚ)
    (dest : String) : Prop :=
  h dest = 0 ∧
  ∀ uq ∈ g.arestas, ∀ vq ∈ uq.2,
    h uq.1 ≤ custoAresta metrica (vq.2 : Aresta) + h vq.1

theorem viz_mem_arestas {g : Grafo} {u v : String} {a : Aresta}
    (h : (v, a) ∈ g.obter_vizinhos u) :
    ∃ l, (u, l) ∈ g.arestas ∧ (v, a) ∈ l := by
  unfold Grafo.obter_vizinhos at h
  rcases hd : dGet g.arestas u with _ | l
  · rw [hd] at h
    exact absurd h (List.not_mem_nil _)
  · rw [hd] at h
    exact ⟨l, dGet_some_mem _ _ _ hd, h⟩

theorem nonneg_edge {g : Grafo} {metrica : String} {u v : String} {a : Aresta}
    (hn : EdgesNonneg g metrica) (h : (v, a) ∈ g.obter_vizinhos u) :
    0 ≤ custoAresta metrica a := by
  obtain ⟨l, hl, hv⟩ := viz_mem_arestas h
  exact hn (u, l) hl (v, a) hv

theorem consistente_edge {g : Grafo} {metrica : String} {h : String → ℚ}
    {dest : String} {u v : String} {a : Aresta}
    (hc : Consistente g metrica h dest) (he : (v, a) ∈ g.obter_vizinhos u) :
    h u ≤ custoAresta metrica a + h v := by
  obtain ⟨l, hl, hv⟩ := viz_mem_arestas he
  exact hc.2 (u, l) hl (v, a) hv

/-- Telescoped consistency: along any walk to `z`, `h` underestimates the
walk cost plus `h z`. -/
theorem consistente_telescope {g : Grafo} {metrica : String} {h : String → ℚ}
    {dest : String} (hc : Consistente g metrica h dest) {u z : String} {c : ℚ}
    (hp : VPath g metrica u z c) : h u ≤ c + h z := by
  induction hp with
  | nil w => linarith
  | step he _ ih =>
    have := consistente_edge hc he
    linarith

theorem VPath_nonneg {g : Grafo} {metrica : String}
    (hn : EdgesNonneg g metrica) {u z : String} {c : ℚ}
    (hp : VPath g metrica u z c) : 0 ≤ c := by
  induction hp with
  | nil w => exact le_refl 0
  | step he _ ih =>
    have := nonneg_edge hn he
    linarith

/-- Python tuple comparison on heap entries `(f, g, node)`. -/
def tripLt (x y : ℚ × ℚ × String) : Prop :=
  x.1 < y.1 ∨ (x.1 = y.1 ∧
    (x.2.1 < y.2.1 ∨ (x.2.1 = y.2.1 ∧ x.2.2 < y.2.2)))

instance tripLt.decidable (x y : ℚ × ℚ × String) : Decidable (tripLt x y) := by
  unfold tripLt
  infer_instance

theorem tripLt_irrefl (x : ℚ × ℚ × String) : ¬ tripLt x x := by
  unfold tripLt
  rintro (h | ⟨-, h | ⟨-, h⟩⟩) <;> exact absurd h (lt_irrefl _)

theorem tripLt_trans {x y z : ℚ × ℚ × String} (h1 : tripLt x y)
    (h2 : tripLt y z) : tripLt x z := by
  unfold tripLt at h1 h2 ⊢
  rcases h1 with h1 | ⟨e1, h1 | ⟨e1', h1⟩⟩ <;>
    rcases h2 with h2 | ⟨e2, h2 | ⟨e2', h2⟩⟩
  · exact Or.inl (lt_trans h1 h2)
  · exact Or.inl (e2 ▸ h1)
  · exact Or.inl (e2 ▸ h1)
  · exact Or.inl (e1 ▸ h2)
  · exact Or.inr ⟨e1.trans e2, Or.inl (lt_trans h1 h2)⟩
  · exact Or.inr ⟨e1.trans e2, Or.inl (e2' ▸ h1)⟩
  · exact Or.inl (e1 ▸ h2)
  · exact Or.inr ⟨e1.trans e2, Or.inl (e1' ▸ h2)⟩
  · exact Or.inr ⟨e1.trans e2, Or.inr ⟨e1'.trans e2', lt_trans h1 h2⟩⟩

theorem tripLt_asymm {x y : ℚ × ℚ × String} (h : tripLt x y) : ¬ tripLt y x :=
  fun h' => tripLt_irrefl x (tripLt_trans h h')

theorem tripLt_connex {x y : ℚ × ℚ × String} (h1 : ¬ tripLt x y)
    (h2 : ¬ tripLt y x) : x = y := by
  unfold tripLt at h1 h2
  push_neg at h1 h2
  rcases lt_trichotomy x.1 y.1 with h | h | h
  · exact absurd h (not_lt.mpr h1.1)
  · rcases lt_trichotomy x.2.1 y.2.1 with h' | h' | h'
    · exact absurd h' (not_lt.mpr ((h1.2 h).1))
    · rcases lt_trichotomy x.2.2 y.2.2 with h'' | h'' | h''
      · exact absurd h'' (not_lt.mpr ((h1.2 h).2 h'))
      · exact Prod.ext h (Prod.ext h' h'')
      · exact absurd h'' (not_lt.mpr ((h2.2 h.symm).2 h'.symm))
    · exact absurd h' (not_lt.mpr ((h2.2 h.symm).1))
  · exact absurd h (not_lt.mpr h2.1)

/-- Minimal entry of the heap list (the value `heapq.heappop` returns):
leftmost minimum under the tuple order. -/
def minTrip : List (ℚ × ℚ × String) → Option (ℚ × ℚ × String)
  | [] => none
  | x :: xs =>
    match minTrip xs with
    | none => some x
    | some m => if tripLt m x then some m else some x

theorem minTrip_none_iff (l : List (ℚ × ℚ × String)) :
    minTrip l = none ↔ l = [] := by
  cases l with
  | nil => simp [minTrip]
  | cons x xs =>
    rw [minTrip]
    rcases hm : minTrip xs with _ | m
    · simp
    · by_cases hlt : tripLt m x <;> simp [hlt]

theorem minTrip_mem {l : List (ℚ × ℚ × String)} {m : ℚ × ℚ × String}
    (h : minTrip l = some m) : m ∈ l := by
  induction l with
  | nil => exact absurd h (by simp [minTrip])
  | cons x xs ih =>
    rw [minTrip] at h
    rcases hm : minTrip xs with _ | m'
    · rw [hm] at h
      cases h
      exact List.mem_cons_self _ _
    · rw [hm] at h
      dsimp only at h
      by_cases hlt : tripLt m' x
      · rw [if_pos hlt] at h
        cases h
        exact List.mem_cons_of_mem _ (ih hm)
      · rw [if_neg hlt] at h
        cases h
        exact List.mem_cons_self _ _

theorem minTrip_min {l : List (ℚ × ℚ × String)} {m : ℚ × ℚ × String}
    (h : minTrip l = some m) : ∀ x ∈ l, ¬ tripLt x m := by
  revert h
  induction l generalizing m with
  | nil => intro h; exact absurd h (by simp [minTrip])
  | cons x xs ih =>
    intro h
    rw [minTrip] at h
    rcases hm : minTrip xs with _ | m'
    · rw [hm] at h
      cases h
      intro y hy
      rcases List.mem_cons.mp hy with rfl | hy'
      · exact tripLt_irrefl y
      · rw [(minTrip_none_iff xs).mp hm] at hy'
        exact absurd hy' (List.not_mem_nil y)
    · rw [hm] at h
      dsimp only at h
      by_cases hlt : tripLt m' x
      · rw [if_pos hlt] at h
        cases h
        have hall := ih hm
        intro y hy
        rcases List.mem_cons.mp hy with rfl | hy'
        · exact tripLt_asymm hlt
        · exact hall y hy'
      · rw [if_neg hlt] at h
        cases h
        have hall := ih hm
        intro y hy

        rcases List.mem_cons.mp hy with rfl | hy'
        · exact tripLt_irrefl y
        · intro hyx
          have hym := hall y hy'
          rcases Decidable.em (tripLt m' y) with hmy | hmy
          · exact hlt (tripLt_trans hmy hyx)
          · rw [tripLt_connex hmy hym] at hlt
            exact hlt hyx

/-- `heapq.heappop`: the minimal entry and the heap without it. -/
def popMinTrip (l : List (ℚ × ℚ × String)) :
    Option ((ℚ × ℚ × String) × List (ℚ × ℚ × String)) :=
  match minTrip l with
  | none => none
  | some m => some (m, l.erase m)

theorem popMinTrip_none_iff (l : List (ℚ × ℚ × String)) :
    popMinTrip l = none ↔ l = [] := by
  unfold popMinTrip
  rcases hm : minTrip l with _ | m
  · simp [(minTrip_none_iff l).mp hm]
  · simp
    intro h
    rw [h, minTrip] at hm
    exact Option.noConfusion hm

theorem popMinTrip_spec {l : List (ℚ × ℚ × String)}
    {m : ℚ × ℚ × String} {r : List (ℚ × ℚ × String)}
    (h : popMinTrip l = some (m, r)) :
    m ∈ l ∧ (∀ x ∈ l, ¬ tripLt x m) ∧ r = l.erase m ∧
    r.length + 1 = l.length ∧ (∀ x ∈ r, x ∈ l) ∧
    (∀ x ∈ l, x ≠ m → x ∈ r) := by
  unfold popMinTrip at h
  rcases hm : minTrip l with _ | m' <;> rw [hm] at h
  · exact Option.noConfusion h
  · cases h
    have hmem := minTrip_mem hm
    refine ⟨hmem, minTrip_min hm, rfl, ?_, ?_, ?_⟩
    · rw [List.length_erase_of_mem hmem]
      exact Nat.succ_pred_eq_of_pos (List.length_pos_of_mem hmem)
    · intro x hx
      exact List.erase_subset _ _ hx
    · intro x hx hne
      exact (List.mem_erase_of_ne hne).mpr hx

/-- Python tuple comparison on `custo_uniforme`'s heap entries `(custo, nó)`. -/
def pairLt (x y : ℚ × String) : Prop :=
  x.1 < y.1 ∨ (x.1 = y.1 ∧ x.2 < y.2)

instance pairLt.decidable (x y : ℚ × String) : Decidable (pairLt x y) := by
  unfold pairLt
  infer_instance

/-- Minimal entry of a pair heap (the value `heapq.heappop` returns). -/
def minPair : List (ℚ × String) → Option (ℚ × String)
  | [] => none
  | x :: xs =>
    match minPair xs with
    | none => some x
    | some m => if pairLt m x then some m else some x

/-- `heapq.heappop` on the pair heap. -/
def popMinPair (l : List (ℚ × String)) :
    Option ((ℚ × String) × List (ℚ × String)) :=
  match minPair l with
  | none => none
  | some m => some (m, l.erase m)

/-- Observable outcome of a search run: success with the returned
`custo_total`, failure (`sucesso=False`), or fuel exhaustion (the fuel index
is only a totality device; real runs get enough fuel). -/
inductive ResultadoBusca where
  | success (custo : ℚ)
  | failure
  | fuelOut

/-- One step of the A* neighbour loop (`astar.py` 172-196): skip closed
neighbours, otherwise relax `custos_g` and push `(novo_g + h(v), novo_g, v)`. -/
def relaxA (metrica : String) (h : String → ℚ) (visitados : List String)
    (g_atual : ℚ) (st : List (ℚ × ℚ × String) × List (String × ℚ))
    (p : String × Aresta) : List (ℚ × ℚ × String) × List (String × ℚ) :=
  if p.1 ∈ visitados then st
  else
    let novo_g := g_atual + custoAresta metrica p.2
    match dGet st.2 p.1 with
    | none => (st.1 ++ [(novo_g + h p.1, novo_g, p.1)], dSet st.2 p.1 novo_g)
    | some cv =>
      if novo_g < cv then
        (st.1 ++ [(novo_g + h p.1, novo_g, p.1)], dSet st.2 p.1 novo_g)
      else st

/-- The A* main loop (`astar.py` 139-196), fuel-indexed: pop the minimal
`(f, g, nó)` entry, skip it if closed, close it, stop at the destination
returning its `g`, otherwise relax every neighbour. -/
def astarLoop (g : Grafo) (metrica : String) (h : String → ℚ)
    (destino : String) :
    ℕ → List (ℚ × ℚ × String) → List (String × ℚ) → List String →
    ResultadoBusca
  | 0, _, _, _ => ResultadoBusca.fuelOut
  | fuel + 1, fila, custos, visitados =>
    match popMinTrip fila with
    | none => ResultadoBusca.failure
    | some (e, fila') =>
      if e.2.2 ∈ visitados then
        astarLoop g metrica h destino fuel fila' custos visitados
      else if e.2.2 = destino then ResultadoBusca.success e.2.1
      else
        let st := (g.obter_vizinhos e.2.2).foldl
          (relaxA metrica h (e.2.2 :: visitados) e.2.1) (fila', custos)
        astarLoop g metrica h destino fuel st.1 st.2 (e.2.2 :: visitados)

/-- `astar` (`astar.py` 69-207) with the heuristic already specialised to the
destination: node validations, the `origem = destino` shortcut, then the loop
started from `[(h(origem), 0.0, origem)]`, `custos_g = {origem: 0.0}`. -/
def astar (g : Grafo) (metrica : String) (h : String → ℚ)
    (origem destino : String) (fuel : ℕ) : ResultadoBusca :=
  if (dGet g.nos origem).isNone then ResultadoBusca.failure
  else if (dGet g.nos destino).isNone then ResultadoBusca.failure
  else if origem = destino then ResultadoBusca.success 0
  else astarLoop g metrica h destino fuel [(h origem, 0, origem)] [(origem, 0)] []

/-- One step of the uniform-cost neighbour loop (`custo-uniforme.py` 158-177). -/
def relaxCU (metrica : String) (visitados : List String) (custo_atual : ℚ)
    (st : List (ℚ × String) × List (String × ℚ)) (p : String × Aresta) :
    List (ℚ × String) × List (String × ℚ) :=
  if p.1 ∈ visitados then st
  else
    let novo_custo := custo_atual + custoAresta metrica p.2
    match dGet st.2 p.1 with
    | none => (st.1 ++ [(novo_custo, p.1)], dSet st.2 p.1 novo_custo)
    | some cv =>
      if novo_custo < cv then
        (st.1 ++ [(novo_custo, p.1)], dSet st.2 p.1 novo_custo)
      else st

/-- The uniform-cost main loop (`custo-uniforme.py` 125-177), fuel-indexed,
over `(custo_acumulado, nó)` heap entries. -/
def cuLoop (g : Grafo) (metrica : String) (destino : String) :
    ℕ → List (ℚ × String) → List (String × ℚ) → List String → ResultadoBusca
  | 0, _, _, _ => ResultadoBusca.fuelOut
  | fuel + 1, fila, custos, visitados =>
    match popMinPair fila with
    | none => ResultadoBusca.failure
    | some (e, fila') =>
      if e.2 ∈ visitados then
        cuLoop g metrica destino fuel fila' custos visitados
      else if e.2 = destino then ResultadoBusca.success e.1
      else
        let st := (g.obter_vizinhos e.2).foldl
          (relaxCU metrica (e.2 :: visitados) e.1) (fila', custos)
        cuLoop g metrica destino fuel st.1 st.2 (e.2 :: visitados)

/-- `custo_uniforme` (`custo-uniforme.py` 63-187): node validations, the
`origem = destino` shortcut, then the loop from `[(0.0, origem)]`. -/
def custo_uniforme (g : Grafo) (metrica : String) (origem destino : String)
    (fuel : ℕ) : ResultadoBusca :=
  if (dGet g.nos origem).isNone then ResultadoBusca.failure
  else if (dGet g.nos destino).isNone then ResultadoBusca.failure
  else if origem = destino then ResultadoBusca.success 0
  else cuLoop g metrica destino fuel [(0, origem)] [(origem, 0)] []

/-- Loop invariant of the A* main loop for origin `orig`: stored costs are
achievable; closed nodes carry settled costs that lower-bound every walk;
every heap entry `(f, gv, v)` has `f = gv + h v`, an achievable `gv` and a
current stored cost at most `gv`; every unclosed node with a stored cost has
its live entry on the heap; closed nodes have relaxed their unclosed
neighbours; and the origin's stored cost is `0`. -/
structure AInv (g : Grafo) (metrica : String) (h : String → ℚ) (orig : String)
    (fila : List (ℚ × ℚ × String)) (custos : List (String × ℚ))
    (vis : List String) : Prop where
  achieve : ∀ v c, dGet custos v = some c → VPath g metrica orig v c
  closedOpt : ∀ u ∈ vis, ∃ gu, dGet custos u = some gu ∧
    ∀ c, VPath g metrica orig u c → gu ≤ c
  entries : ∀ e ∈ fila, e.1 = e.2.1 + h e.2.2 ∧
    VPath g metrica orig e.2.2 e.2.1 ∧
    ∃ cv, dGet custos e.2.2 = some cv ∧ cv ≤ e.2.1
  live : ∀ v cv, v ∉ vis → dGet custos v = some cv → (cv + h v, cv, v) ∈ fila
  relaxed : ∀ u ∈ vis, ∀ p ∈ g.obter_vizinhos u, p.1 ∉ vis →
    ∃ gu cv, dGet custos u = some gu ∧ dGet custos p.1 = some cv ∧
      cv ≤ gu + custoAresta metrica p.2
  origZero : dGet custos orig = some 0

/-- Covering lemma: walking any stored path from a node `u` satisfying the
frontier facts, either the endpoint is closed with a stored cost at most the
total, or the walk crosses a live frontier entry whose stored cost plus the
remaining walk cost is at most the total. -/
theorem AInv.walk {g : Grafo} {metrica : String} {h : String → ℚ}
    {orig : String} {fila : List (ℚ × ℚ × String)}
    {custos : List (String × ℚ)} {vis : List String}
    (inv : AInv g metrica h orig fila custos vis)
    {u z : String} {c : ℚ} (hp : VPath g metrica u z c) :
    ∀ p : ℚ, VPath g metrica orig u p →
    (∃ cu, dGet custos u = some cu ∧ cu ≤ p ∧
      (u ∈ vis ∨ (cu + h u, cu, u) ∈ fila)) →
    (z ∈ vis ∧ ∃ gz, dGet custos z = some gz ∧ gz ≤ p + c) ∨
    (∃ y cy cs, y ∉ vis ∧ dGet custos y = some cy ∧
      (cy + h y, cy, y) ∈ fila ∧ VPath g metrica y z cs ∧ cy + cs ≤ p + c) := by
  induction hp with
  | nil w =>
    intro p hpre hfacts
    obtain ⟨cu, hcu, hle, hcase⟩ := hfacts
    by_cases hw : w ∈ vis
    · exact Or.inl ⟨hw, cu, hcu, by linarith⟩
    · rcases hcase with hv | he
      · exact absurd hv hw
      · exact Or.inr ⟨w, cu, 0, hw, hcu, he, VPath.nil w, by linarith⟩
  | @step u v z a c he hrest ih =>
    intro p hpre hfacts
    obtain ⟨cu, hcu, hle, hcase⟩ := hfacts
    by_cases hu : u ∈ vis
    · have hpre' : VPath g metrica orig v (p + custoAresta metrica a) :=
        VPath_snoc hpre he
      by_cases hv : v ∈ vis
      · obtain ⟨gv, hgv, hoptv⟩ := inv.closedOpt v hv
        have hb : gv ≤ p + custoAresta metrica a := hoptv _ hpre'
        rcases ih (p + custoAresta metrica a) hpre' ⟨gv, hgv, hb, Or.inl hv⟩ with
          ⟨hz, gz, hgz, hbz⟩ | ⟨y, cy, cs, h1, h2, h3, h4, hb'⟩
        · exact Or.inl ⟨hz, gz, hgz, by linarith⟩
        · exact Or.inr ⟨y, cy, cs, h1, h2, h3, h4, by linarith⟩
      · obtain ⟨gu, cv, hgu, hcv, hb⟩ := inv.relaxed u hu (v, a) he hv
        rw [hcu] at hgu
        cases hgu
        have hlive := inv.live v cv hv hcv
        rcases ih (p + custoAresta metrica a) hpre'
            ⟨cv, hcv, by linarith, Or.inr hlive⟩ with
          ⟨hz, gz, hgz, hbz⟩ | ⟨y, cy, cs, h1, h2, h3, h4, hb'⟩
        · exact Or.inl ⟨hz, gz, hgz, by linarith⟩
        · exact Or.inr ⟨y, cy, cs, h1, h2, h3, h4, by linarith⟩
    · rcases hcase with hv | he'
      · exact absurd hv hu
      · exact Or.inr ⟨u, cu, custoAresta metrica a + c, hu, hcu, he',
          VPath.step he hrest, by linarith⟩

/-- The origin always satisfies the frontier facts. -/
theorem AInv.origFacts {g : Grafo} {metrica : String} {h : String → ℚ}
    {orig : String} {fila : List (ℚ × ℚ × String)}
    {custos : List (String × ℚ)} {vis : List String}
    (inv : AInv g metrica h orig fila custos vis) :
    ∃ cu, dGet custos orig = some cu ∧ cu ≤ 0 ∧
      (orig ∈ vis ∨ (cu + h orig, cu, orig) ∈ fila) := by
  refine ⟨0, inv.origZero, le_refl 0, ?_⟩
  by_cases hv : orig ∈ vis
  · exact Or.inl hv
  · exact Or.inr (inv.live orig 0 hv inv.origZero)

/-- Pop optimality under a consistent heuristic: the minimal heap entry of an
unclosed node carries a `g`-value that lower-bounds every stored walk from the
origin to that node. -/
theorem AInv.popOpt {g : Grafo} {metrica : String} {h : String → ℚ}
    {orig : String} {fila : List (ℚ × ℚ × String)}
    {custos : List (String × ℚ)} {vis : List String}
    (inv : AInv g metrica h orig fila custos vis) {dest : String}
    (hc : Consistente g metrica h dest)
    {m : ℚ × ℚ × String} (hmin : minTrip fila = some m) (hnv : m.2.2 ∉ vis) :
    ∀ c, VPath g metrica orig m.2.2 c → m.2.1 ≤ c := by
  intro c hpath
  have hmem := minTrip_mem hmin
  obtain ⟨hf, hach, -⟩ := inv.entries m hmem
  rcases inv.walk hpath 0 (VPath.nil orig) inv.origFacts with
    ⟨hz, -⟩ | ⟨y, cy, cs, hynv, hcy, hye, hys, hb⟩
  · exact absurd hz hnv
  · have hmle := minTrip_min hmin _ hye
    have h1 : m.1 ≤ cy + h y := by
      by_contra hlt
      push_neg at hlt
      exact hmle (Or.inl hlt)
    have h2 : h y ≤ cs + h m.2.2 := consistente_telescope hc hys
    have h3 : m.2.1 + h m.2.2 ≤ cy + h y := by
      rw [← hf]
      exact h1
    linarith

theorem relaxA_skip {metrica : String} {h : String → ℚ} {vis' : List String}
    {gu : ℚ} {st : List (ℚ × ℚ × String) × List (String × ℚ)}
    {p : String × Aresta} (hp : p.1 ∈ vis') :
    relaxA metrica h vis' gu st p = st := by
  unfold relaxA
  rw [if_pos hp]

theorem relaxA_fresh {metrica : String} {h : String → ℚ} {vis' : List String}
    {gu : ℚ} {st : List (ℚ × ℚ × String) × List (String × ℚ)}
    {p : String × Aresta} (hp : p.1 ∉ vis') (hcv : dGet st.2 p.1 = none) :
    relaxA metrica h vis' gu st p =
      (st.1 ++ [(gu + custoAresta metrica p.2 + h p.1,
        gu + custoAresta metrica p.2, p.1)],
       dSet st.2 p.1 (gu + custoAresta metrica p.2)) := by
  unfold relaxA
  rw [if_neg hp]
  dsimp only
  rw [hcv]

theorem relaxA_improve {metrica : String} {h : String → ℚ} {vis' : List String}
    {gu : ℚ} {st : List (ℚ × ℚ × String) × List (String × ℚ)}
    {p : String × Aresta} {cv : ℚ} (hp : p.1 ∉ vis')
    (hcv : dGet st.2 p.1 = some cv)
    (hlt : gu + custoAresta metrica p.2 < cv) :
    relaxA metrica h vis' gu st p =
      (st.1 ++ [(gu + custoAresta metrica p.2 + h p.1,
        gu + custoAresta metrica p.2, p.1)],
       dSet st.2 p.1 (gu + custoAresta metrica p.2)) := by
  unfold relaxA
  rw [if_neg hp]
  dsimp only
  rw [hcv]
  dsimp only
  rw [if_pos hlt]

theorem relaxA_stay {metrica : String} {h : String → ℚ} {vis' : List String}
    {gu : ℚ} {st : List (ℚ × ℚ × String) × List (String × ℚ)}
    {p : String × Aresta} {cv : ℚ} (hp : p.1 ∉ vis')
    (hcv : dGet st.2 p.1 = some cv)
    (hnlt : ¬ gu + custoAresta metrica p.2 < cv) :
    relaxA metrica h vis' gu st p = st := by
  unfold relaxA
  rw [if_neg hp]
  dsimp only
  rw [hcv]
  dsimp only
  rw [if_neg hnlt]

/-- Every node a search run can ever enqueue: the origin plus every stored
edge target. -/
def nodesOf (g : Grafo) (orig : String) : List String :=
  orig :: g.arestas.flatMap (fun uq => uq.2.map Prod.fst)

/-- Out-degree of a node as both loops see it. -/
def degOf (g : Grafo) (v : String) : ℕ := (g.obter_vizinhos v).length

/-- Termination potential: heap length plus, for every distinct enqueueable
node not yet closed, one pop plus its out-degree worth of pushes. -/
def phi (g : Grafo) (orig : String) (fila : List (ℚ × ℚ × String))
    (vis : List String) : ℕ :=
  fila.length + (((nodesOf g orig).dedup.filter
    (fun v => decide (v ∉ vis))).map (fun v => 1 + degOf g v)).sum

theorem viz_mem_nodesOf {g : Grafo} {orig u v : String} {a : Aresta}
    (h : (v, a) ∈ g.obter_vizinhos u) : v ∈ nodesOf g orig := by
  obtain ⟨l, hl, hv⟩ := viz_mem_arestas h
  unfold nodesOf
  refine List.mem_cons_of_mem _ ?_
  rw [List.mem_flatMap]
  exact ⟨(u, l), hl, List.mem_map.mpr ⟨(v, a), hv, rfl⟩⟩

/-- Full specification of the neighbour-relaxation fold at a freshly closed
node `u` with achievable key `gu`: the four state-invariant components are
preserved, closed nodes keep their stored costs, stored costs only shrink and
keys persist, every unclosed processed neighbour ends with a stored cost at
most `gu` plus its edge cost, the heap grows by at most one entry per
neighbour, and all pushed entries are enqueueable nodes. -/
theorem relaxA_fold_spec {g : Grafo} {metrica : String} {h : String → ℚ}
    {orig u : String} {gu : ℚ} {vis' : List String}
    (HN : EdgesNonneg g metrica) (hgu : VPath g metrica orig u gu)
    (l : List (String × Aresta)) :
    ∀ (fp : List (ℚ × ℚ × String)) (cs : List (String × ℚ)),
    (∀ p ∈ l, p ∈ g.obter_vizinhos u) →
    (∀ v c, dGet cs v = some c → VPath g metrica orig v c) →
    (∀ e ∈ fp, e.1 = e.2.1 + h e.2.2 ∧ VPath g metrica orig e.2.2 e.2.1 ∧
      ∃ cv, dGet cs e.2.2 = some cv ∧ cv ≤ e.2.1) →
    (∀ v cv, v ∉ vis' → dGet cs v = some cv → (cv + h v, cv, v) ∈ fp) →
    dGet cs orig = some 0 →
    ∀ st, st = l.foldl (relaxA metrica h vis' gu) (fp, cs) →
    (∀ v c, dGet st.2 v = some c → VPath g metrica orig v c) ∧
    (∀ e ∈ st.1, e.1 = e.2.1 + h e.2.2 ∧ VPath g metrica orig e.2.2 e.2.1 ∧
      ∃ cv, dGet st.2 e.2.2 = some cv ∧ cv ≤ e.2.1) ∧
    (∀ v cv, v ∉ vis' → dGet st.2 v = some cv → (cv + h v, cv, v) ∈ st.1) ∧
    dGet st.2 orig = some 0 ∧
    (∀ w, w ∈ vis' → dGet st.2 w = dGet cs w) ∧
    (∀ w cw0, dGet cs w = some cw0 →
      ∃ cw, dGet st.2 w = some cw ∧ cw ≤ cw0) ∧
    (∀ p ∈ l, p.1 ∉ vis' → ∃ cv, dGet st.2 p.1 = some cv ∧
      cv ≤ gu + custoAresta metrica p.2) ∧
    st.1.length ≤ fp.length + l.length ∧
    ((∀ e ∈ fp, e.2.2 ∈ nodesOf g orig) →
      ∀ e ∈ st.1, e.2.2 ∈ nodesOf g orig) := by
  induction l with
  | nil =>
    intro fp cs hl Hach Hent Hlive Hzero st hst
    subst hst
    refine ⟨Hach, Hent, Hlive, Hzero, fun w _ => rfl,
      fun w cw0 hw0 => ⟨cw0, hw0, le_refl _⟩,
      fun p hp => absurd hp (List.not_mem_nil p),
      by simp, fun hfp => hfp⟩
  | cons p l' ih =>
    intro fp cs hl Hach Hent Hlive Hzero st hst
    rw [List.foldl_cons] at hst
    have hpviz : (p.1, p.2) ∈ g.obter_vizinhos u := hl p (List.mem_cons_self p l')
    have hl' : ∀ q ∈ l', q ∈ g.obter_vizinhos u :=
      fun q hq => hl q (List.mem_cons_of_mem p hq)
    by_cases hp : p.1 ∈ vis'
    · rw [relaxA_skip hp] at hst
      obtain ⟨C1, C2, C3, C4, C5, C6, C7, C8, C9⟩ :=
        ih fp cs hl' Hach Hent Hlive Hzero st hst
      refine ⟨C1, C2, C3, C4, C5, C6, ?_, ?_, C9⟩
      · intro q hq hqv
        rcases List.mem_cons.mp hq with rfl | hq'
        · exact absurd hp hqv
        · exact C7 q hq' hqv
      · simp only [List.length_cons]
        omega
    · have hpath_novo : VPath g metrica orig p.1
          (gu + custoAresta metrica p.2) := VPath_snoc hgu hpviz
      have hnn : 0 ≤ gu + custoAresta metrica p.2 := VPath_nonneg HN hpath_novo
      rcases hcv : dGet cs p.1 with _ | cv
      · -- fresh key: push and set
        rw [relaxA_fresh hp hcv] at hst
        have hporig : p.1 ≠ orig := by
          intro hh
          rw [hh, Hzero] at hcv
          exact Option.noConfusion hcv
        have Hach₁ : ∀ v c,
            dGet (dSet cs p.1 (gu + custoAresta metrica p.2)) v = some c →
            VPath g metrica orig v c := by
          intro v c hvc
          by_cases hv : v = p.1
          · subst hv
            rw [dGet_dSet_self] at hvc
            cases hvc
            exact hpath_novo
          · rw [dGet_dSet_ne cs p.1 v _ (fun hh => hv hh.symm)] at hvc
            exact Hach v c hvc
        have Hent₁ : ∀ e ∈ fp ++ [(gu + custoAresta metrica p.2 + h p.1,
              gu + custoAresta metrica p.2, p.1)],
            e.1 = e.2.1 + h e.2.2 ∧ VPath g metrica orig e.2.2 e.2.1 ∧
            ∃ cv', dGet (dSet cs p.1 (gu + custoAresta metrica p.2)) e.2.2 =
              some cv' ∧ cv' ≤ e.2.1 := by
          intro e he
          rcases List.mem_append.mp he with he' | he'
          · obtain ⟨hf, hpa, cve, hcve, hle⟩ := Hent e he'
            refine ⟨hf, hpa, ?_⟩
            by_cases hv : e.2.2 = p.1
            · rw [hv, hcv] at hcve
              exact Option.noConfusion hcve
            · rw [dGet_dSet_ne cs p.1 _ _ (fun hh => hv hh.symm)]
              exact ⟨cve, hcve, hle⟩
          · rw [List.mem_singleton.mp he']
            exact ⟨rfl, hpath_novo,
              gu + custoAresta metrica p.2, dGet_dSet_self _ _ _, le_refl _⟩
        have Hlive₁ : ∀ v cv', v ∉ vis' →
            dGet (dSet cs p.1 (gu + custoAresta metrica p.2)) v = some cv' →
            (cv' + h v, cv', v) ∈ fp ++ [(gu + custoAresta metrica p.2 + h p.1,
              gu + custoAresta metrica p.2, p.1)] := by
          intro v cv' hv hvc
          by_cases hvp : v = p.1
          · subst hvp
            rw [dGet_dSet_self] at hvc
            cases hvc
            exact List.mem_append.mpr (Or.inr (List.mem_singleton.mpr rfl))
          · rw [dGet_dSet_ne cs p.1 v _ (fun hh => hvp hh.symm)] at hvc
            exact List.mem_append.mpr (Or.inl (Hlive v cv' hv hvc))
        have Hzero₁ : dGet (dSet cs p.1 (gu + custoAresta metrica p.2)) orig =
            some 0 := by
          rw [dGet_dSet_ne cs p.1 orig _ hporig]
          exact Hzero
        obtain ⟨C1, C2, C3, C4, C5, C6, C7, C8, C9⟩ :=
          ih _ _ hl' Hach₁ Hent₁ Hlive₁ Hzero₁ st hst
        refine ⟨C1, C2, C3, C4, ?_, ?_, ?_, ?_, ?_⟩
        · intro w hw
          rw [C5 w hw, dGet_dSet_ne cs p.1 w _ (fun hh => hp (hh ▸ hw))]
        · intro w cw0 hw0
          by_cases hwp : w = p.1
          · rw [hwp, hcv] at hw0
            exact Option.noConfusion hw0
          · have : dGet (dSet cs p.1 (gu + custoAresta metrica p.2)) w =
                some cw0 := by
              rw [dGet_dSet_ne cs p.1 w _ (fun hh => hwp hh.symm)]
              exact hw0
            exact C6 w cw0 this
        · intro q hq hqv
          rcases List.mem_cons.mp hq with rfl | hq'
          · obtain ⟨cw, hcw, hle⟩ :=
              C6 q.1 (gu + custoAresta metrica q.2) (dGet_dSet_self _ _ _)
            exact ⟨cw, hcw, hle⟩
          · exact C7 q hq' hqv
        · simp only [List.length_append, List.length_singleton,
            List.length_cons, List.length_nil] at C8 ⊢
          omega
        · intro hfp
          refine C9 ?_
          intro e' he''
          rcases List.mem_append.mp he'' with he3 | he3
          · exact hfp e' he3
          · rw [List.mem_singleton.mp he3]
            exact viz_mem_nodesOf hpviz
      · by_cases hlt : gu + custoAresta metrica p.2 < cv
        · -- better path found: push and overwrite
          rw [relaxA_improve hp hcv hlt] at hst
          have hporig : p.1 ≠ orig := by
            intro hh
            rw [hh, Hzero] at hcv
            cases hcv
            exact absurd hlt (not_lt.mpr hnn)
          have Hach₁ : ∀ v c,
              dGet (dSet cs p.1 (gu + custoAresta metrica p.2)) v = some c →
              VPath g metrica orig v c := by
            intro v c hvc
            by_cases hv : v = p.1
            · subst hv
              rw [dGet_dSet_self] at hvc
              cases hvc
              exact hpath_novo
            · rw [dGet_dSet_ne cs p.1 v _ (fun hh => hv hh.symm)] at hvc
              exact Hach v c hvc
          have Hent₁ : ∀ e ∈ fp ++ [(gu + custoAresta metrica p.2 + h p.1,
                gu + custoAresta metrica p.2, p.1)],
              e.1 = e.2.1 + h e.2.2 ∧ VPath g metrica orig e.2.2 e.2.1 ∧
              ∃ cv', dGet (dSet cs p.1 (gu + custoAresta metrica p.2)) e.2.2 =
                some cv' ∧ cv' ≤ e.2.1 := by
            intro e he
            rcases List.mem_append.mp he with he' | he'
            · obtain ⟨hf, hpa, cve, hcve, hle⟩ := Hent e he'
              refine ⟨hf, hpa, ?_⟩
              by_cases hv : e.2.2 = p.1
              · rw [hv, hcv] at hcve
                cases hcve
                rw [hv, dGet_dSet_self]
                exact ⟨gu + custoAresta metrica p.2, rfl,
                  le_trans (le_of_lt hlt) hle⟩
              · rw [dGet_dSet_ne cs p.1 _ _ (fun hh => hv hh.symm)]
                exact ⟨cve, hcve, hle⟩
            · rw [List.mem_singleton.mp he']
              exact ⟨rfl, hpath_novo,
                gu + custoAresta metrica p.2, dGet_dSet_self _ _ _, le_refl _⟩
          have Hlive₁ : ∀ v cv', v ∉ vis' →
              dGet (dSet cs p.1 (gu + custoAresta metrica p.2)) v = some cv' →
              (cv' + h v, cv', v) ∈ fp ++
                [(gu + custoAresta metrica p.2 + h p.1,
                  gu + custoAresta metrica p.2, p.1)] := by
            intro v cv' hv hvc
            by_cases hvp : v = p.1
            · subst hvp
              rw [dGet_dSet_self] at hvc
              cases hvc
              exact List.mem_append.mpr (Or.inr (List.mem_singleton.mpr rfl))
            · rw [dGet_dSet_ne cs p.1 v _ (fun hh => hvp hh.symm)] at hvc
              exact List.mem_append.mpr (Or.inl (Hlive v cv' hv hvc))
          have Hzero₁ : dGet (dSet cs p.1 (gu + custoAresta metrica p.2))
              orig = some 0 := by
            rw [dGet_dSet_ne cs p.1 orig _ hporig]
            exact Hzero
          obtain ⟨C1, C2, C3, C4, C5, C6, C7, C8, C9⟩ :=
            ih _ _ hl' Hach₁ Hent₁ Hlive₁ Hzero₁ st hst
          refine ⟨C1, C2, C3, C4, ?_, ?_, ?_, ?_, ?_⟩
          · intro w hw
            rw [C5 w hw, dGet_dSet_ne cs p.1 w _ (fun hh => hp (hh ▸ hw))]
          · intro w cw0 hw0
            by_cases hwp : w = p.1
            · subst hwp
              rw [hcv] at hw0
              cases hw0
              obtain ⟨cw, hcw, hle⟩ :=
                C6 p.1 (gu + custoAresta metrica p.2) (dGet_dSet_self _ _ _)
              exact ⟨cw, hcw, le_trans hle (le_of_lt hlt)⟩
            · have : dGet (dSet cs p.1 (gu + custoAresta metrica p.2)) w =
                  some cw0 := by
                rw [dGet_dSet_ne cs p.1 w _ (fun hh => hwp hh.symm)]
                exact hw0
              exact C6 w cw0 this
          · intro q hq hqv
            rcases List.mem_cons.mp hq with rfl | hq'
            · obtain ⟨cw, hcw, hle⟩ :=
                C6 q.1 (gu + custoAresta metrica q.2) (dGet_dSet_self _ _ _)
              exact ⟨cw, hcw, hle⟩
            · exact C7 q hq' hqv
          · simp only [List.length_append, List.length_singleton,
              List.length_cons, List.length_nil] at C8 ⊢
            omega
          · intro hfp
            refine C9 ?_
            intro e' he''
            rcases List.mem_append.mp he'' with he3 | he3
            · exact hfp e' he3
            · rw [List.mem_singleton.mp he3]
              exact viz_mem_nodesOf hpviz
        · -- no improvement: state unchanged
          rw [relaxA_stay hp hcv hlt] at hst
          obtain ⟨C1, C2, C3, C4, C5, C6, C7, C8, C9⟩ :=
            ih fp cs hl' Hach Hent Hlive Hzero st hst
          refine ⟨C1, C2, C3, C4, C5, C6, ?_, ?_, C9⟩
          · intro q hq hqv
            rcases List.mem_cons.mp hq with rfl | hq'
            · obtain ⟨cw, hcw, hle⟩ := C6 q.1 cv hcv
              exact ⟨cw, hcw, le_trans hle (not_lt.mp hlt)⟩
            · exact C7 q hq' hqv
          · simp only [List.length_cons]
            omega

theorem popMinTrip_minTrip {l : List (ℚ × ℚ × String)}
    {m : ℚ × ℚ × String} {r : List (ℚ × ℚ × String)}
    (h : popMinTrip l = some (m, r)) : minTrip l = some m := by
  unfold popMinTrip at h
  rcases hm : minTrip l with _ | m'
  · rw [hm] at h
    exact Option.noConfusion h
  · rw [hm] at h
    dsimp only at h
    cases h
    rfl

/-- Popping an already closed entry preserves the invariant. -/
theorem AInv.skipStep {g : Grafo} {metrica : String} {h : String → ℚ}
    {orig : String} {fila fila' : List (ℚ × ℚ × String)}
    {custos : List (String × ℚ)} {vis : List String}
    (inv : AInv g metrica h orig fila custos vis)
    {m : ℚ × ℚ × String} (hpop : popMinTrip fila = some (m, fila'))
    (hm : m.2.2 ∈ vis) : AInv g metrica h orig fila' custos vis := by
  obtain ⟨hmem, hmin, herase, hlen, hsub, hkeep⟩ := popMinTrip_spec hpop
  refine ⟨inv.achieve, inv.closedOpt, fun e he => inv.entries e (hsub e he),
    ?_, inv.relaxed, inv.origZero⟩
  intro v cv hv hvc
  have he := inv.live v cv hv hvc
  refine hkeep _ he ?_
  intro hh
  apply hv
  have hv2 : v = m.2.2 := congrArg (fun x => x.2.2) hh
  rw [hv2]
  exact hm

/-- Closing the minimal unvisited entry and relaxing its neighbours preserves
the invariant; the heap grows by at most the out-degree, and pushed entries
stay enqueueable. -/
theorem AInv.closeStep {g : Grafo} {metrica : String} {h : String → ℚ}
    {orig dest : String} {fila fila' : List (ℚ × ℚ × String)}
    {custos : List (String × ℚ)} {vis : List String}
    (inv : AInv g metrica h orig fila custos vis)
    (hc : Consistente g metrica h dest) (HN : EdgesNonneg g metrica)
    {m : ℚ × ℚ × String} (hpop : popMinTrip fila = some (m, fila'))
    (hm : m.2.2 ∉ vis)
    (st : List (ℚ × ℚ × String) × List (String × ℚ))
    (hst : st = (g.obter_vizinhos m.2.2).foldl
      (relaxA metrica h (m.2.2 :: vis) m.2.1) (fila', custos)) :
    AInv g metrica h orig st.1 st.2 (m.2.2 :: vis) ∧
    st.1.length ≤ fila'.length + degOf g m.2.2 ∧
    ((∀ e ∈ fila, e.2.2 ∈ nodesOf g orig) →
      ∀ e ∈ st.1, e.2.2 ∈ nodesOf g orig) := by
  obtain ⟨hmem, hmin, herase, hlen, hsub, hkeep⟩ := popMinTrip_spec hpop
  have hmt : minTrip fila = some m := popMinTrip_minTrip hpop
  have hopt := inv.popOpt hc hmt hm
  obtain ⟨hf, hachm, cvm, hcvm, hcvmle⟩ := inv.entries m hmem
  have hcvm_eq : cvm = m.2.1 :=
    le_antisymm hcvmle (hopt cvm (inv.achieve _ _ hcvm))
  have Hent' : ∀ e ∈ fila', e.1 = e.2.1 + h e.2.2 ∧
      VPath g metrica orig e.2.2 e.2.1 ∧
      ∃ cv, dGet custos e.2.2 = some cv ∧ cv ≤ e.2.1 :=
    fun e he => inv.entries e (hsub e he)
  have Hlive' : ∀ v cv, v ∉ m.2.2 :: vis → dGet custos v = some cv →
      (cv + h v, cv, v) ∈ fila' := by
    intro v cv hv hvc
    have hvv : v ∉ vis := fun hh => hv (List.mem_cons_of_mem _ hh)
    have hvm : v ≠ m.2.2 := fun hh => hv (hh ▸ List.mem_cons_self _ _)
    refine hkeep _ (inv.live v cv hvv hvc) ?_
    intro hh
    exact hvm (congrArg (fun x => x.2.2) hh)
  obtain ⟨C1, C2, C3, C4, C5, C6, C7, C8, C9⟩ :=
    relaxA_fold_spec HN hachm (g.obter_vizinhos m.2.2) fila' custos
      (fun p hp => hp) inv.achieve Hent' Hlive' inv.origZero st hst
  refine ⟨⟨C1, ?_, C2, C3, ?_, C4⟩, C8, ?_⟩
  · intro w hw
    rcases List.mem_cons.mp hw with rfl | hw'
    · refine ⟨cvm, ?_, fun c hc' => le_trans hcvmle (hopt c hc')⟩
      rw [C5 _ (List.mem_cons_self _ _)]
      exact hcvm
    · obtain ⟨gw, hgw, hoptw⟩ := inv.closedOpt w hw'
      refine ⟨gw, ?_, hoptw⟩
      rw [C5 _ (List.mem_cons_of_mem _ hw')]
      exact hgw
  · intro w hw p hp hpnv
    rcases List.mem_cons.mp hw with rfl | hw'
    · obtain ⟨cv, hcv, hb⟩ := C7 p hp hpnv
      refine ⟨cvm, cv, ?_, hcv, ?_⟩
      · rw [C5 _ (List.mem_cons_self _ _)]
        exact hcvm
      · rw [hcvm_eq]
        exact hb
    · have hpv : p.1 ∉ vis := fun hh => hpnv (List.mem_cons_of_mem _ hh)
      obtain ⟨gw, cv, hgw, hcv, hb⟩ := inv.relaxed w hw' p hp hpv
      obtain ⟨cv', hcv', hle'⟩ := C6 p.1 cv hcv
      refine ⟨gw, cv', ?_, hcv', by linarith⟩
      rw [C5 _ (List.mem_cons_of_mem _ hw')]
      exact hgw
  · intro hfila
    exact C9 (fun e he => hfila e (hsub e he))

theorem astarLoop_succ (g : Grafo) (metrica : String) (h : String → ℚ)
    (dest : String) (n : ℕ) (fila : List (ℚ × ℚ × String))
    (custos : List (String × ℚ)) (vis : List String) :
    astarLoop g metrica h dest (n + 1) fila custos vis =
      match popMinTrip fila with
      | none => ResultadoBusca.failure
      | some (e, fila') =>
        if e.2.2 ∈ vis then astarLoop g metrica h dest n fila' custos vis
        else if e.2.2 = dest then ResultadoBusca.success e.2.1
        else
          let st := (g.obter_vizinhos e.2.2).foldl
            (relaxA metrica h (e.2.2 :: vis) e.2.1) (fila', custos)
          astarLoop g metrica h dest n st.1 st.2 (e.2.2 :: vis) := rfl

/-- The invariant holds on A*'s initial state. -/
theorem AInv_init (g : Grafo) (metrica : String) (h : String → ℚ)
    (orig : String) :
    AInv g metrica h orig [(h orig, 0, orig)] [(orig, 0)] [] := by
  refine ⟨?_, ?_, ?_, ?_, ?_, ?_⟩
  · intro v c hvc
    unfold dGet at hvc
    by_cases hv : orig = v
    · rw [if_pos hv] at hvc
      cases hvc
      rw [← hv]
      exact VPath.nil orig
    · rw [if_neg hv] at hvc
      exact absurd hvc (by unfold dGet; intro hh; exact Option.noConfusion hh)
  · intro u hu
    exact absurd hu (List.not_mem_nil u)
  · intro e he
    rw [List.mem_singleton.mp he]
    refine ⟨(zero_add (h orig)).symm, VPath.nil orig, 0, ?_, le_refl 0⟩
    unfold dGet
    rw [if_pos rfl]
  · intro v cv hv hvc
    unfold dGet at hvc
    by_cases hvo : orig = v
    · rw [if_pos hvo] at hvc
      cases hvc
      rw [← hvo, zero_add]
      exact List.mem_singleton.mpr rfl
    · rw [if_neg hvo] at hvc
      exact absurd hvc (by unfold dGet; intro hh; exact Option.noConfusion hh)
  · intro u hu
    exact absurd hu (List.not_mem_nil u)
  · unfold dGet
    rw [if_pos rfl]

/-- Soundness of the A* loop: under the invariant, a reported success is an
achievable walk cost that lower-bounds every walk from the origin to the
destination. -/
theorem astarLoop_sound {g : Grafo} {metrica : String} {h : String → ℚ}
    {orig dest : String} (hc : Consistente g metrica h dest)
    (HN : EdgesNonneg g metrica) :
    ∀ (fuel : ℕ) (fila : List (ℚ × ℚ × String)) (custos : List (String × ℚ))
      (vis : List String), AInv g metrica h orig fila custos vis →
    ∀ c, astarLoop g metrica h dest fuel fila custos vis =
      ResultadoBusca.success c →
    VPath g metrica orig dest c ∧
      ∀ c', VPath g metrica orig dest c' → c ≤ c' := by
  intro fuel
  induction fuel with
  | zero =>
    intro fila custos vis inv c hrun
    exact absurd hrun (by unfold astarLoop; intro hh; exact ResultadoBusca.noConfusion hh)
  | succ n ih =>
    intro fila custos vis inv c hrun
    rw [astarLoop_succ] at hrun
    rcases hpop : popMinTrip fila with _ | ⟨m, fila'⟩
    · rw [hpop] at hrun
      exact absurd hrun (by intro hh; exact ResultadoBusca.noConfusion hh)
    · rw [hpop] at hrun
      dsimp only at hrun
      by_cases hv : m.2.2 ∈ vis
      · rw [if_pos hv] at hrun
        exact ih fila' custos vis (inv.skipStep hpop hv) c hrun
      · rw [if_neg hv] at hrun
        by_cases hd : m.2.2 = dest
        · rw [if_pos hd] at hrun
          cases hrun
          have hmt := popMinTrip_minTrip hpop
          obtain ⟨-, hachm, -⟩ := inv.entries m (minTrip_mem hmt)
          have hopt := inv.popOpt hc hmt hv
          rw [hd] at hachm hopt
          exact ⟨hachm, hopt⟩
        · rw [if_neg hd] at hrun
          obtain ⟨inv', -, -⟩ := inv.closeStep hc HN hpop hv _ rfl
          exact ih _ _ _ inv' c hrun

theorem sum_filter_close {D : List String} (hD : D.Nodup) {u : String}
    (hu : u ∈ D) {vis : List String} (hnv : u ∉ vis) (f : String → ℕ) :
    ((D.filter (fun v => decide (v ∉ (u :: vis)))).map f).sum + f u =
    ((D.filter (fun v => decide (v ∉ vis))).map f).sum := by
  revert hD hu
  induction D with
  | nil =>
    intro _ hu
    exact absurd hu (List.not_mem_nil u)
  | cons d D' ih =>
    intro hD hu
    rw [List.nodup_cons] at hD
    by_cases hdu : d = u
    · subst hdu
      have hagree : D'.filter (fun v => decide (v ∉ (d :: vis))) =
          D'.filter (fun v => decide (v ∉ vis)) := by
        apply List.filter_congr
        intro v hv
        have hvu : v ≠ d := fun hh => hD.1 (hh ▸ hv)
        simp [List.mem_cons, hvu]
      rw [List.filter_cons, List.filter_cons, hagree]
      rw [if_neg (show ¬ ((decide (d ∉ (d :: vis))) = true) by simp),
        if_pos (show (decide (d ∉ vis)) = true by simp [hnv])]
      rw [List.map_cons, List.sum_cons]
      omega
    · have hu' : u ∈ D' := by
        rcases List.mem_cons.mp hu with hh | hh
        · exact absurd hh.symm hdu
        · exact hh
      rw [List.filter_cons, List.filter_cons]
      by_cases hdv : d ∈ vis
      · rw [if_neg (show ¬ ((decide (d ∉ (u :: vis))) = true) by
            simp [List.mem_cons, hdv]),
          if_neg (show ¬ ((decide (d ∉ vis)) = true) by simp [hdv])]
        exact ih hD.2 hu'
      · rw [if_pos (show (decide (d ∉ (u :: vis))) = true by
            simp [List.mem_cons, hdu, hdv]),
          if_pos (show (decide (d ∉ vis)) = true by simp [hdv])]
        rw [List.map_cons, List.sum_cons, List.map_cons, List.sum_cons]
        have := ih hD.2 hu'
        omega

/-- Completeness of the A* loop: under the invariant, with every heap entry
enqueueable, the destination unclosed and reachable, and fuel above the
potential, the loop reports success. -/
theorem astarLoop_complete {g : Grafo} {metrica : String} {h : String → ℚ}
    {orig dest : String} (hc : Consistente g metrica h dest)
    (HN : EdgesNonneg g metrica) :
    ∀ (fuel : ℕ) (fila : List (ℚ × ℚ × String)) (custos : List (String × ℚ))
      (vis : List String), AInv g metrica h orig fila custos vis →
    (∀ e ∈ fila, e.2.2 ∈ nodesOf g orig) →
    dest ∉ vis → (∃ c0, VPath g metrica orig dest c0) →
    phi g orig fila vis < fuel →
    ∃ c, astarLoop g metrica h dest fuel fila custos vis =
      ResultadoBusca.success c := by
  intro fuel
  induction fuel with
  | zero =>
    intro fila custos vis _ _ _ _ hphi
    exact absurd hphi (Nat.not_lt_zero _)
  | succ n ih =>
    intro fila custos vis inv hnodes hdv hreach hphi
    obtain ⟨c0, hc0⟩ := hreach
    rcases inv.walk hc0 0 (VPath.nil orig) inv.origFacts with
      ⟨hz, -⟩ | ⟨y, cy, cs, hynv, hcy, hye, -, -⟩
    · exact absurd hz hdv
    rcases hpop : popMinTrip fila with _ | ⟨m, fila'⟩
    · have hnil := (popMinTrip_none_iff fila).mp hpop
      rw [hnil] at hye
      exact absurd hye (List.not_mem_nil _)
    obtain ⟨hmem, hmin, herase, hlen, hsub, hkeep⟩ := popMinTrip_spec hpop
    rw [astarLoop_succ, hpop]
    dsimp only
    by_cases hv : m.2.2 ∈ vis
    · rw [if_pos hv]
      refine ih fila' custos vis (inv.skipStep hpop hv)
        (fun e he => hnodes e (hsub e he)) hdv ⟨c0, hc0⟩ ?_
      unfold phi at hphi ⊢
      omega
    · rw [if_neg hv]
      by_cases hd : m.2.2 = dest
      · rw [if_pos hd]
        exact ⟨m.2.1, rfl⟩
      · rw [if_neg hd]
        obtain ⟨inv', hlen', hnodes'⟩ := inv.closeStep hc HN hpop hv _ rfl
        refine ih _ _ _ inv' (hnodes' hnodes) ?_ ⟨c0, hc0⟩ ?_
        · intro hh
          rcases List.mem_cons.mp hh with hh' | hh'
          · exact hd hh'.symm
          · exact hdv hh'
        · have hsum := sum_filter_close (List.nodup_dedup (nodesOf g orig))
            (List.mem_dedup.mpr (hnodes m hmem)) hv (fun v => 1 + degOf g v)
          unfold phi at hphi ⊢
          omega

/-- Enough fuel for any run from `orig`: two more than the initial potential. -/
def searchFuel (g : Grafo) (orig : String) : ℕ :=
  2 + ((nodesOf g orig).dedup.map (fun v => 1 + degOf g v)).sum

theorem phi_init (g : Grafo) (orig : String) (e : ℚ × ℚ × String) :
    phi g orig [e] [] < searchFuel g orig := by
  unfold phi searchFuel
  rw [List.filter_eq_self.mpr (fun a _ => by simp)]
  simp

/-- Soundness of `astar`: a reported success cost is an achievable walk cost
and lower-bounds every walk cost from origin to destination. -/
theorem astar_sound {g : Grafo} {metrica : String} {h : String → ℚ}
    {orig dest : String} {fuel : ℕ} {c : ℚ}
    (hc : Consistente g metrica h dest) (HN : EdgesNonneg g metrica)
    (hrun : astar g metrica h orig dest fuel = ResultadoBusca.success c) :
    VPath g metrica orig dest c ∧
      ∀ c', VPath g metrica orig dest c' → c ≤ c' := by
  unfold astar at hrun
  by_cases h1 : (dGet g.nos orig).isNone = true
  · rw [if_pos h1] at hrun
    exact absurd hrun (by intro hh; exact ResultadoBusca.noConfusion hh)
  · rw [if_neg h1] at hrun
    by_cases h2 : (dGet g.nos dest).isNone = true
    · rw [if_pos h2] at hrun
      exact absurd hrun (by intro hh; exact ResultadoBusca.noConfusion hh)
    · rw [if_neg h2] at hrun
      by_cases h3 : orig = dest
      · rw [if_pos h3] at hrun
        cases hrun
        refine ⟨?_, fun c' hc' => VPath_nonneg HN hc'⟩
        rw [← h3]
        exact VPath.nil orig
      · rw [if_neg h3] at hrun
        exact astarLoop_sound hc HN fuel _ _ _ (AInv_init g metrica h orig)
          c hrun

/-- Completeness of `astar`: if both endpoints exist and some walk joins
them, the run with `searchFuel` fuel reports success. -/
theorem astar_complete {g : Grafo} {metrica : String} {h : String → ℚ}
    {orig dest : String}
    (hc : Consistente g metrica h dest) (HN : EdgesNonneg g metrica)
    (ho : (dGet g.nos orig).isNone = false)
    (hd : (dGet g.nos dest).isNone = false)
    (hreach : ∃ c0, VPath g metrica orig dest c0) :
    ∃ c, astar g metrica h orig dest (searchFuel g orig) =
      ResultadoBusca.success c := by
  unfold astar
  rw [ho, hd]
  by_cases hod : orig = dest
  · rw [if_pos hod]
    simp
  · rw [if_neg hod]
    simp only [Bool.false_eq_true, if_false]
    exact astarLoop_complete hc HN (searchFuel g orig) _ _ _
      (AInv_init g metrica h orig)
      (fun e he => by
        rw [List.mem_singleton.mp he]
        exact List.mem_cons_self _ _)
      (List.not_mem_nil dest) hreach (phi_init g orig _)

/-- Embed a `custo_uniforme` heap entry `(c, nó)` as the A* entry
`(c, c, nó)`. -/
def toTrip (x : ℚ × String) : ℚ × ℚ × String := (x.1, x.1, x.2)

theorem tripLt_toTrip (x y : ℚ × String) :
    tripLt (toTrip x) (toTrip y) ↔ pairLt x y := by
  unfold tripLt pairLt toTrip
  dsimp only
  constructor
  · rintro (h | ⟨e, h | ⟨e', h⟩⟩)
    · exact Or.inl h
    · exact Or.inl h
    · exact Or.inr ⟨e, h⟩
  · rintro (h | ⟨e, h⟩)
    · exact Or.inl h
    · exact Or.inr ⟨e, Or.inr ⟨e, h⟩⟩

theorem toTrip_inj : Function.Injective toTrip := by
  intro a b hab
  unfold toTrip at hab
  have h1 := congrArg (fun q => q.1) hab
  have h2 := congrArg (fun q => q.2.2) hab
  dsimp only at h1 h2
  exact Prod.ext h1 h2

theorem minTrip_map (l : List (ℚ × String)) :
    minTrip (l.map toTrip) = (minPair l).map toTrip := by
  induction l with
  | nil => rfl
  | cons x xs ih =>
    rw [List.map_cons, minTrip, minPair, ih]
    rcases hm : minPair xs with _ | m
    · rfl
    · dsimp only [Option.map]
      by_cases hp : pairLt m x
      · rw [if_pos ((tripLt_toTrip m x).mpr hp), if_pos hp]
      · rw [if_neg (fun hh => hp ((tripLt_toTrip m x).mp hh)), if_neg hp]

theorem map_toTrip_erase (l : List (ℚ × String)) (m : ℚ × String) :
    (l.map toTrip).erase (toTrip m) = (l.erase m).map toTrip := by
  induction l with
  | nil => rfl
  | cons x xs ih =>
    by_cases hx : x = m
    · subst hx
      simp [List.erase_cons]
    · have hx' : toTrip x ≠ toTrip m := fun hh => hx (toTrip_inj hh)
      simp [List.erase_cons, hx, hx', ih]

theorem popMinTrip_map (l : List (ℚ × String)) :
    popMinTrip (l.map toTrip) =
      (popMinPair l).map (fun q => (toTrip q.1, q.2.map toTrip)) := by
  unfold popMinTrip popMinPair
  rw [minTrip_map l]
  rcases hm : minPair l with _ | m
  · rfl
  · dsimp only [Option.map]
    rw [map_toTrip_erase]

theorem relaxA_of_relaxCU (metrica : String) (vis' : List String) (gu : ℚ)
    (p : String × Aresta) (fp : List (ℚ × String))
    (cs : List (String × ℚ)) :
    relaxA metrica (fun _ => 0) vis' gu (fp.map toTrip, cs) p =
      ((relaxCU metrica vis' gu (fp, cs) p).1.map toTrip,
       (relaxCU metrica vis' gu (fp, cs) p).2) := by
  unfold relaxA relaxCU
  by_cases hp : p.1 ∈ vis'
  · rw [if_pos hp, if_pos hp]
  · rw [if_neg hp, if_neg hp]
    dsimp only
    rcases hcv : dGet cs p.1 with _ | cv
    · simp only [List.map_append, List.map_cons, List.map_nil, toTrip,
        add_zero]
    · dsimp only
      by_cases hlt : gu + custoAresta metrica p.2 < cv
      · rw [if_pos hlt, if_pos hlt]
        simp only [List.map_append, List.map_cons, List.map_nil, toTrip,
          add_zero]
      · rw [if_neg hlt, if_neg hlt]

theorem relaxCU_fold_map (metrica : String) (vis' : List String) (gu : ℚ)
    (l : List (String × Aresta)) :
    ∀ (fp : List (ℚ × String)) (cs : List (String × ℚ)),
    l.foldl (relaxA metrica (fun _ => 0) vis' gu) (fp.map toTrip, cs) =
      ((l.foldl (relaxCU metrica vis' gu) (fp, cs)).1.map toTrip,
       (l.foldl (relaxCU metrica vis' gu) (fp, cs)).2) := by
  induction l with
  | nil =>
    intro fp cs
    rfl
  | cons p l' ih =>
    intro fp cs
    rw [List.foldl_cons, List.foldl_cons, relaxA_of_relaxCU]
    exact ih (relaxCU metrica vis' gu (fp, cs) p).1
      (relaxCU metrica vis' gu (fp, cs) p).2

theorem cuLoop_succ (g : Grafo) (metrica : String) (dest : String) (n : ℕ)
    (fila : List (ℚ × String)) (custos : List (String × ℚ))
    (vis : List String) :
    cuLoop g metrica dest (n + 1) fila custos vis =
      match popMinPair fila with
      | none => ResultadoBusca.failure
      | some (e, fila') =>
        if e.2 ∈ vis then cuLoop g metrica dest n fila' custos vis
        else if e.2 = dest then ResultadoBusca.success e.1
        else
          let st := (g.obter_vizinhos e.2).foldl
            (relaxCU metrica (e.2 :: vis) e.1) (fila', custos)
          cuLoop g metrica dest n st.1 st.2 (e.2 :: vis) := rfl

/-- The uniform-cost loop is the A* loop with the zero heuristic under the
entry embedding `(c, nó) ↦ (c, c, nó)`. -/
theorem cuLoop_eq_astarLoop (g : Grafo) (metrica : String) (dest : String) :
    ∀ (fuel : ℕ) (fila : List (ℚ × String)) (custos : List (String × ℚ))
      (vis : List String),
    cuLoop g metrica dest fuel fila custos vis =
      astarLoop g metrica (fun _ => 0) dest fuel (fila.map toTrip) custos
        vis := by
  intro fuel
  induction fuel with
  | zero =>
    intro fila custos vis
    rfl
  | succ n ih =>
    intro fila custos vis
    rw [astarLoop_succ, cuLoop_succ, popMinTrip_map]
    rcases hp : popMinPair fila with _ | ⟨m, fila'⟩
    · rfl
    · dsimp only [Option.map, toTrip]
      by_cases hv : m.2 ∈ vis
      · rw [if_pos hv, if_pos hv]
        exact ih fila' custos vis
      · rw [if_neg hv, if_neg hv]
        by_cases hd : m.2 = dest
        · rw [if_pos hd, if_pos hd]
        · rw [if_neg hd, if_neg hd]
          rw [relaxCU_fold_map]
          exact ih _ _ _

/-- The zero heuristic is consistent whenever edge costs are non-negative. -/
theorem consistente_zero {g : Grafo} {metrica : String} {dest : String}
    (HN : EdgesNonneg g metrica) :
    Consistente g metrica (fun _ => 0) dest := by
  refine ⟨rfl, ?_⟩
  intro uq hu vq hv
  have := HN uq hu vq hv
  simpa using this

/-- Soundness of `custo_uniforme`: a reported success cost is an achievable
walk cost and lower-bounds every walk cost. -/
theorem custo_uniforme_sound {g : Grafo} {metrica : String}
    {orig dest : String} {fuel : ℕ} {c : ℚ} (HN : EdgesNonneg g metrica)
    (hrun : custo_uniforme g metrica orig dest fuel =
      ResultadoBusca.success c) :
    VPath g metrica orig dest c ∧
      ∀ c', VPath g metrica orig dest c' → c ≤ c' := by
  unfold custo_uniforme at hrun
  by_cases h1 : (dGet g.nos orig).isNone = true
  · rw [if_pos h1] at hrun
    exact absurd hrun (by intro hh; exact ResultadoBusca.noConfusion hh)
  · rw [if_neg h1] at hrun
    by_cases h2 : (dGet g.nos dest).isNone = true
    · rw [if_pos h2] at hrun
      exact absurd hrun (by intro hh; exact ResultadoBusca.noConfusion hh)
    · rw [if_neg h2] at hrun
      by_cases h3 : orig = dest
      · rw [if_pos h3] at hrun
        cases hrun
        refine ⟨?_, fun c' hc' => VPath_nonneg HN hc'⟩
        rw [← h3]
        exact VPath.nil orig
      · rw [if_neg h3] at hrun
        rw [cuLoop_eq_astarLoop] at hrun
        exact astarLoop_sound (consistente_zero HN) HN fuel _ _ _
          (AInv_init g metrica (fun _ => 0) orig) c hrun

/-- Completeness of `custo_uniforme`: if both endpoints exist and some walk
joins them, the run with `searchFuel` fuel reports success. -/
theorem custo_uniforme_complete {g : Grafo} {metrica : String}
    {orig dest : String} (HN : EdgesNonneg g metrica)
    (ho : (dGet g.nos orig).isNone = false)
    (hd : (dGet g.nos dest).isNone = false)
    (hreach : ∃ c0, VPath g metrica orig dest c0) :
    ∃ c, custo_uniforme g metrica orig dest (searchFuel g orig) =
      ResultadoBusca.success c := by
  unfold custo_uniforme
  rw [ho, hd]
  by_cases hod : orig = dest
  · rw [if_pos hod]
    simp
  · rw [if_neg hod]
    simp only [Bool.false_eq_true, if_false]
    rw [cuLoop_eq_astarLoop]
    exact astarLoop_complete (consistente_zero HN) HN (searchFuel g orig)
      _ _ _ (AInv_init g metrica (fun _ => 0) orig)
      (fun e he => by
        rw [List.mem_singleton.mp he]
        exact List.mem_cons_self _ _)
      (List.not_mem_nil dest) hreach (phi_init g orig _)

/-- Node table for the C1 counterexample: a directed graph with `S`, `A` and
`G` stacked at the origin and `B` at `(4, 0)`. -/
def gC1base : Grafo :=
  ((((Grafo.vazio true).adicionar_no "S" "zona_pickup" (0, 0) none 0
    "centro").adicionar_no "A" "zona_pickup" (0, 0) none 0
    "centro").adicionar_no "B" "zona_pickup" (4, 0) none 0
    "centro").adicionar_no "G" "zona_pickup" (0, 0) none 0 "centro"

def aSA : Aresta := Aresta.mk' "S" "A" 4 (some 2) 1
def aSB : Aresta := Aresta.mk' "S" "B" 1 (some 2) 1
def aBA : Aresta := Aresta.mk' "B" "A" 1 (some 2) 1
def aAG : Aresta := Aresta.mk' "A" "G" 3 (some 2) 1

/-- The C1 counterexample graph: directed edges `S→A` (4), `S→B` (1),
`B→A` (1), `A→G` (3). -/
def gC1 : Grafo :=
  let g1 := (gC1base.adicionar_aresta "S" "A" 4 (some 2) 1 false).getD gC1base
  let g2 := (g1.adicionar_aresta "S" "B" 1 (some 2) 1 false).getD g1
  let g3 := (g2.adicionar_aresta "B" "A" 1 (some 2) 1 false).getD g2
  (g3.adicionar_aresta "A" "G" 3 (some 2) 1 false).getD g3

/-- The Euclidean straight-line distance to `G` at the stored coordinates:
every node sits on the x-axis, so it is the absolute x-difference. -/
def hC1 (n : String) : ℚ := if n = "B" then 4 else 0

/-- True shortest-path distances to `G`, used as an edge-consistent
lower-bound certificate for admissibility. -/
def phiC1 (n : String) : ℚ :=
  if n = "S" then 5 else if n = "B" then 4 else if n = "A" then 3 else 0

theorem gC1_arestas :
    gC1.arestas = [("S", [("A", aSA), ("B", aSB)]), ("B", [("A", aBA)]),
      ("A", [("G", aAG)])] := by
  decide

theorem gC1_nonneg : EdgesNonneg gC1 "distancia" := by
  intro uq hu vq hv
  rw [gC1_arestas] at hu
  fin_cases hu <;> fin_cases hv <;>
    norm_num [custoAresta, aSA, aSB, aBA, aAG, Aresta.mk']

theorem phiC1_consistente : Consistente gC1 "distancia" phiC1 "G" := by
  refine ⟨by unfold phiC1; simp only [String.reduceEq, reduceIte], ?_⟩
  intro uq hu vq hv
  rw [gC1_arestas] at hu
  fin_cases hu <;> fin_cases hv <;>
    · norm_num [custoAresta, phiC1, aSA, aSB, aBA, aAG, Aresta.mk']
      simp only [String.reduceEq, reduceIte]
      norm_num

theorem hC1_le_phiC1 (n : String) : hC1 n ≤ phiC1 n := by
  unfold hC1 phiC1
  split_ifs <;> norm_num

/-- The Euclidean heuristic is admissible on `gC1`: it lower-bounds the cost
of every walk to `G`. -/
theorem hC1_admissivel :
    ∀ n c, VPath gC1 "distancia" n "G" c → hC1 n ≤ c := by
  intro n c hp
  have h1 : phiC1 n ≤ c + phiC1 "G" := consistente_telescope phiC1_consistente hp
  have h2 : phiC1 "G" = 0 := by
    unfold phiC1
    simp only [String.reduceEq, reduceIte]
  have h3 := hC1_le_phiC1 n
  rw [h2] at h1
  linarith

theorem gC1_path5 : VPath gC1 "distancia" "S" "G" 5 := by
  have hSB : ("B", aSB) ∈ gC1.obter_vizinhos "S" := by decide
  have hBA : ("A", aBA) ∈ gC1.obter_vizinhos "B" := by decide
  have hAG : ("G", aAG) ∈ gC1.obter_vizinhos "A" := by decide
  exact VPath_cast
    (VPath.step hSB (VPath.step hBA (VPath.step hAG (VPath.nil "G"))))
    (by norm_num [custoAresta, aSB, aBA, aAG, Aresta.mk'])

theorem gC1_astar_run :
    astar gC1 "distancia" hC1 "S" "G" 10 = ResultadoBusca.success 7 := by
  unfold astar
  rw [show (dGet gC1.nos "S").isNone = false by decide,
    show (dGet gC1.nos "G").isNone = false by decide]
  simp only [Bool.false_eq_true, if_false]
  rw [if_neg (show ¬("S" = "G") by decide)]
  rw [show hC1 "S" = 0 by decide]
  have e1 : astarLoop gC1 "distancia" hC1 "G" 10 [(0, 0, "S")] [("S", 0)]
      [] = astarLoop gC1 "distancia" hC1 "G" 9 [(4, 4, "A"), (5, 1, "B")]
      [("S", 0), ("A", 4), ("B", 1)] ["S"] := by
    rw [astarLoop_succ]
    repeat
      first
        | rfl
        | (simp only [String.reduceEq, reduceIte])
        | (norm_num [popMinTrip, minTrip, tripLt, relaxA, custoAresta,
            Grafo.obter_vizinhos, gC1_arestas, dGet, dSet, hC1, aSA, aSB,
            aBA, aAG, Aresta.mk', List.erase_cons, List.foldl_cons,
            List.foldl_nil, beq_iff_eq, Prod.mk.injEq])
  have e2 : astarLoop gC1 "distancia" hC1 "G" 9 [(4, 4, "A"), (5, 1, "B")]
      [("S", 0), ("A", 4), ("B", 1)] ["S"] =
      astarLoop gC1 "distancia" hC1 "G" 8 [(5, 1, "B"), (7, 7, "G")]
      [("S", 0), ("A", 4), ("B", 1), ("G", 7)] ["A", "S"] := by
    rw [astarLoop_succ]
    repeat
      first
        | rfl
        | (simp only [String.reduceEq, reduceIte])
        | (norm_num [popMinTrip, minTrip, tripLt, relaxA, custoAresta,
            Grafo.obter_vizinhos, gC1_arestas, dGet, dSet, hC1, aSA, aSB,
            aBA, aAG, Aresta.mk', List.erase_cons, List.foldl_cons,
            List.foldl_nil, beq_iff_eq, Prod.mk.injEq])
  have e3 : astarLoop gC1 "distancia" hC1 "G" 8 [(5, 1, "B"), (7, 7, "G")]
      [("S", 0), ("A", 4), ("B", 1), ("G", 7)] ["A", "S"] =
      astarLoop gC1 "distancia" hC1 "G" 7 [(7, 7, "G")]
      [("S", 0), ("A", 4), ("B", 1), ("G", 7)] ["B", "A", "S"] := by
    rw [astarLoop_succ]
    repeat
      first
        | rfl
        | (simp only [String.reduceEq, reduceIte])
        | (norm_num [popMinTrip, minTrip, tripLt, relaxA, custoAresta,
            Grafo.obter_vizinhos, gC1_arestas, dGet, dSet, hC1, aSA, aSB,
            aBA, aAG, Aresta.mk', List.erase_cons, List.foldl_cons,
            List.foldl_nil, beq_iff_eq, Prod.mk.injEq])
  have e4 : astarLoop gC1 "distancia" hC1 "G" 7 [(7, 7, "G")]
      [("S", 0), ("A", 4), ("B", 1), ("G", 7)] ["B", "A", "S"] =
      ResultadoBusca.success 7 := by
    rw [astarLoop_succ]
    repeat
      first
        | rfl
        | (simp only [String.reduceEq, reduceIte])
        | (norm_num [popMinTrip, minTrip, tripLt, List.erase_cons,
            beq_iff_eq, Prod.mk.injEq])
  rw [e1, e2, e3, e4]

theorem gC1_nos :
    gC1.nos = [("S", No.mk' "S" "zona_pickup" (0, 0) none 0 "centro"),
      ("A", No.mk' "A" "zona_pickup" (0, 0) none 0 "centro"),
      ("B", No.mk' "B" "zona_pickup" (4, 0) none 0 "centro"),
      ("G", No.mk' "G" "zona_pickup" (0, 0) none 0 "centro")] := by
  decide

/-- C1 counterexample: on the directed graph `gC1` — all edge costs
non-negative under the distance metric — the heuristic `hC1` is exactly the
Euclidean straight-line distance to `G` at the stored coordinates
(non-negative, its square equal to the squared coordinate difference to `G`
at `(0, 0)`) and is admissible: it lower-bounds every walk cost to `G`.
Yet `astar` reports success with total cost `7`, although the walk
`S→B→A→G` costs `5`: the returned cost is not the minimum achievable cost. -/
theorem C1_counterexample :
    EdgesNonneg gC1 "distancia" ∧
    (∀ n c, VPath gC1 "distancia" n "G" c → hC1 n ≤ c) ∧
    (∀ q ∈ gC1.nos, 0 ≤ hC1 q.1 ∧
      hC1 q.1 ^ 2 = (q.2.coords.1 - 0) ^ 2 + (q.2.coords.2 - 0) ^ 2) ∧
    (dGet gC1.nos "G").map No.coords = some (0, 0) ∧
    astar gC1 "distancia" hC1 "S" "G" 10 = ResultadoBusca.success 7 ∧
    VPath gC1 "distancia" "S" "G" 5 ∧ (5 : ℚ) < 7 := by
  refine ⟨gC1_nonneg, hC1_admissivel, ?_, by decide, gC1_astar_run,
    gC1_path5, by norm_num⟩
  intro q hq
  rw [gC1_nos] at hq
  fin_cases hq <;>
    · constructor
      · norm_num [hC1]
        repeat
          first
            | rfl
            | (exact not_false)
            | (simp only [String.reduceEq, reduceIte])
      · norm_num [hC1, No.mk']
        repeat
          first
            | rfl
            | (exact not_false)
            | (simp only [String.reduceEq, reduceIte])

/-- C1: for every graph with non-negative edge costs under the chosen metric
and both endpoints present in the node table, `custo_uniforme` is sound and
complete: any reported success cost is the cost of some stored walk from
origin to destination and lower-bounds the cost of every such walk, and
whenever some walk exists the run with `searchFuel` fuel reports success;
`astar` satisfies the same two properties provided the heuristic is
additionally consistent — mere admissibility of the Euclidean heuristic is
not enough, see `C1_counterexample`. -/
theorem C1_search_optimal (g : Grafo) (metrica : String) (h : String → ℚ)
    (orig dest : String) (HN : EdgesNonneg g metrica)
    (hcons : Consistente g metrica h dest)
    (ho : (dGet g.nos orig).isNone = false)
    (hd : (dGet g.nos dest).isNone = false) :
    (∀ fuel c, custo_uniforme g metrica orig dest fuel =
        ResultadoBusca.success c →
      VPath g metrica orig dest c ∧
        ∀ c', VPath g metrica orig dest c' → c ≤ c') ∧
    ((∃ c0, VPath g metrica orig dest c0) →
      ∃ c, custo_uniforme g metrica orig dest (searchFuel g orig) =
        ResultadoBusca.success c) ∧
    (∀ fuel c, astar g metrica h orig dest fuel = ResultadoBusca.success c →
      VPath g metrica orig dest c ∧
        ∀ c', VPath g metrica orig dest c' → c ≤ c') ∧
    ((∃ c0, VPath g metrica orig dest c0) →
      ∃ c, astar g metrica h orig dest (searchFuel g orig) =
        ResultadoBusca.success c) :=
  ⟨fun _ c hrun => custo_uniforme_sound HN hrun,
   fun hreach => custo_uniforme_complete HN ho hd hreach,
   fun _ c hrun => astar_sound hcons HN hrun,
   fun hreach => astar_complete hcons HN ho hd hreach⟩

/-- Witness for C1: on the concrete graph `gC1` with the consistent
heuristic `phiC1`, the hypotheses hold and both searches report success. -/
theorem C1_witness :
    EdgesNonneg gC1 "distancia" ∧ Consistente gC1 "distancia" phiC1 "G" ∧
    (dGet gC1.nos "S").isNone = false ∧
    (dGet gC1.nos "G").isNone = false ∧
    (∃ c, custo_uniforme gC1 "distancia" "S" "G" (searchFuel gC1 "S") =
      ResultadoBusca.success c) ∧
    (∃ c, astar gC1 "distancia" phiC1 "S" "G" (searchFuel gC1 "S") =
      ResultadoBusca.success c) :=
  ⟨gC1_nonneg, phiC1_consistente, by decide, by decide,
   (C1_search_optimal gC1 "distancia" phiC1 "S" "G" gC1_nonneg
      phiC1_consistente (by decide) (by decide)).2.1 ⟨5, gC1_path5⟩,
   (C1_search_optimal gC1 "distancia" phiC1 "S" "G" gC1_nonneg
      phiC1_consistente (by decide) (by decide)).2.2.2 ⟨5, gC1_path5⟩⟩
